import Mathlib

/-!
# Verification of the tntorch tensor-network core

A shallow embedding, over exact rationals, of the tensor-network
representation implemented in `tntorch/tensor.py`, `tntorch/metrics.py` and
`tntorch/automata.py`.

Torch tensors are stored row-major; `torch.reshape` merely reinterprets the
flat buffer.  We therefore model a 2-D tensor (matrix) and a 3-D tensor
(core) as a flat content function `ℕ → ℚ` together with its declared
dimensions, so that every `reshape` in the Python source is literally a
no-op on the content and only changes the recorded dimensions.  Entries are
read at row-major offsets; all contractions (`torch.mm`, the `einsum`s)
become explicit finite sums over row-major offsets.
-/

namespace TnTorch

/-- A 2-D torch tensor: declared dimensions plus row-major flat content.
Entry `(i, j)` lives at flat offset `i * cols + j`. -/
structure Mat where
  rows : ℕ
  cols : ℕ
  dat : ℕ → ℚ

/-- A 3-D torch tensor (a TT core): shape `[r1, s, r2]` plus row-major flat
content.  Entry `(i, a, k)` lives at flat offset `i * (s * r2) + a * r2 + k`. -/
structure Core3 where
  r1 : ℕ
  s : ℕ
  r2 : ℕ
  dat : ℕ → ℚ

/-- Flat content of `torch.eye n`: entry `(i, j)` is `1` iff `i = j`. -/
def eyeF (n : ℕ) : ℕ → ℚ :=
  fun p => if p / n = p % n then 1 else 0

/-- Flat row-major matrix product (`torch.mm` and the chain `einsum`s):
`X` is read as a matrix with `b` columns, `Y` as a matrix with `b` rows and
`c` columns; the result has `c` columns.  Entry at flat offset `idx`
(row `idx / c`, column `idx % c`). -/
def mmulF (b c : ℕ) (X Y : ℕ → ℚ) : ℕ → ℚ :=
  fun idx => ∑ j ∈ Finset.range b, X (idx / c * b + j) * Y (j * c + idx % c)

/-- One step of `Tensor.full`'s left-to-right chain contraction
(`torch.einsum('ai,ibj->abj', factor, core)` followed by
`factor.reshape([-1, r2])`): the accumulated factor, read as a matrix with
`cols` columns, is multiplied by the core read as a `r1 × (s·r2)` matrix,
and the result is re-read as a `(rows·s) × r2` matrix (a flat no-op). -/
def fullStep (F : Mat) (c : Core3) : Mat :=
  ⟨F.rows * c.s, c.r2, mmulF F.cols (c.s * c.r2) F.dat c.dat⟩

/-- `Tensor.full` for a tensor with no Tucker factors: fold the cores from
the left starting with `torch.ones([1, 1])`.  The final matrix has one
column for a valid chain (trailing rank 1), and its flat content, reshaped
to the logical shape, is the dense tensor. -/
def fullMat (cores : List Core3) : Mat :=
  cores.foldl fullStep ⟨1, 1, eyeF 1⟩

/-- The logical shape recorded by `Tensor.full` (`core.shape[-2]` per core,
for a tensor with no Tucker factors). -/
def fullShape (cores : List Core3) : List ℕ :=
  cores.map (·.s)

/-- The loop of `Tensor.__init__` for a dense input (the "naive TT
formatting" branch, `eps is None`).  `L` is the not-yet-consumed tail of the
shape (`shape[n:]` when entering iteration `n`), `prev` is `shape[n-1]`, and
`M` is the running 2-D `data` tensor.  Each `torch.reshape` keeps the flat
content and only changes the declared dimensions. -/
def ttAux : List ℕ → ℕ → Mat → List Core3
  | [], prev, M => [⟨M.rows / prev, prev, 1, M.dat⟩]
  | s :: rest, prev, M =>
    if M.rows < M.cols then
      ⟨M.rows / prev, prev, M.rows, eyeF M.rows⟩ ::
        ttAux rest s ⟨M.rows * s, M.cols / s, M.dat⟩
    else
      ⟨M.rows / prev, prev, M.cols, M.dat⟩ ::
        ttAux rest s ⟨M.cols * s, M.cols / s, eyeF M.cols⟩

/-- `Tensor.__init__` on a dense array with shape `shape` and row-major flat
content `A` (no `eps`): first reshape to `[shape[0], -1]`, then run the
formatting loop.  Tucker factors are all `None` and index labels default to
ranges, so the tensor is fully described by its core list. -/
def fromDense (shape : List ℕ) (A : ℕ → ℚ) : List Core3 :=
  match shape with
  | [] => []
  | s₀ :: rest => ttAux rest s₀ ⟨s₀, rest.prod, A⟩

/-! ### Basic facts about `eyeF` and `mmulF` -/

theorem eyeF_apply (n u j : ℕ) (hj : j < n) :
    eyeF n (u * n + j) = if u = j then 1 else 0 := by
  have hn : 0 < n := by omega
  unfold eyeF
  rw [Nat.add_comm, Nat.add_mul_div_right _ _ hn, Nat.add_mul_mod_self_right,
    Nat.div_eq_of_lt hj, Nat.mod_eq_of_lt hj, Nat.zero_add]

/-- Multiplying on the left by a matrix that agrees with `torch.eye q` leaves
the right factor unchanged (on the valid flat range). -/
theorem mmul_eyeL (q c : ℕ) (X Y : ℕ → ℚ)
    (hX : ∀ p, p < q * q → X p = eyeF q p) :
    ∀ idx, idx < q * c → mmulF q c X Y idx = Y idx := by
  intro idx hidx
  have hq : 0 < q := by
    rcases Nat.eq_zero_or_pos q with h | h
    · rw [h, Nat.zero_mul] at hidx; exact absurd hidx (Nat.not_lt_zero _)
    · exact h
  have hc : 0 < c := by
    rcases Nat.eq_zero_or_pos c with h | h
    · rw [h, Nat.mul_zero] at hidx; exact absurd hidx (Nat.not_lt_zero _)
    · exact h
  have hu : idx / c < q := Nat.div_lt_of_lt_mul (by rw [Nat.mul_comm c q]; exact hidx)
  have hr : idx % c < c := Nat.mod_lt _ hc
  unfold mmulF
  have hterm : ∀ j ∈ Finset.range q,
      X (idx / c * q + j) * Y (j * c + idx % c) =
      (if idx / c = j then 1 else 0) * Y (j * c + idx % c) := by
    intro j hj
    rw [Finset.mem_range] at hj
    have hb : idx / c * q + j < q * q := by
      calc idx / c * q + j < idx / c * q + q := by omega
        _ = (idx / c + 1) * q := by ring
        _ ≤ q * q := Nat.mul_le_mul_right _ (by omega)
    rw [hX _ hb, eyeF_apply _ _ _ hj]
  rw [Finset.sum_congr rfl hterm]
  simp only [ite_mul, one_mul, zero_mul]
  rw [Finset.sum_ite_eq (Finset.range q) (idx / c) (fun j => Y (j * c + idx % c))]
  simp only [Finset.mem_range, hu, if_true]
  congr 1
  rw [Nat.mul_comm]
  exact Nat.div_add_mod idx c

/-- Multiplying on the right by `torch.eye b` (read with matching
dimensions) leaves the left factor unchanged. -/
theorem mmul_eyeR (b : ℕ) (hb : 0 < b) (X : ℕ → ℚ) :
    ∀ idx, mmulF b b X (eyeF b) idx = X idx := by
  intro idx
  have hr : idx % b < b := Nat.mod_lt _ hb
  unfold mmulF
  have hterm : ∀ j ∈ Finset.range b,
      X (idx / b * b + j) * eyeF b (j * b + idx % b) =
      if j = idx % b then X (idx / b * b + j) else 0 := by
    intro j hj
    rw [eyeF_apply _ _ _ hr]
    by_cases h : j = idx % b <;> simp [h]
  rw [Finset.sum_congr rfl hterm,
    Finset.sum_ite_eq' (Finset.range b) (idx % b) (fun j => X (idx / b * b + j))]
  simp only [Finset.mem_range, hr, if_true]
  congr 1
  rw [Nat.mul_comm]
  exact Nat.div_add_mod idx b

/-! ### The constructor round-trip (claim C1)

Once the `__init__` loop has taken its `else` branch, the running `data`
tensor is an identity matrix reshaped in lock-step with the remaining shape
entries; every later contraction multiplies by a square identity and keeps
the accumulated content unchanged. -/

theorem ttAux_fold_eye (L : List ℕ) : ∀ (prev : ℕ) (F : Mat),
    0 < prev → (∀ x ∈ L, 0 < x) → F.cols = prev * L.prod →
    ((ttAux L prev ⟨prev * L.prod * prev, L.prod, eyeF (prev * L.prod)⟩).foldl
        fullStep F).rows = F.rows * (prev * L.prod) ∧
    ((ttAux L prev ⟨prev * L.prod * prev, L.prod, eyeF (prev * L.prod)⟩).foldl
        fullStep F).cols = 1 ∧
    ∀ idx, ((ttAux L prev ⟨prev * L.prod * prev, L.prod, eyeF (prev * L.prod)⟩).foldl
        fullStep F).dat idx = F.dat idx := by
  induction L with
  | nil =>
    intro prev F hprev _ hFc
    have hFc' : F.cols = prev := by rw [hFc, List.prod_nil, Nat.mul_one]
    simp only [ttAux, List.foldl_cons, List.foldl_nil]
    refine ⟨?_, rfl, fun idx => ?_⟩
    · show F.rows * prev = F.rows * (prev * List.prod [])
      rw [List.prod_nil, Nat.mul_one]
    · show mmulF F.cols (prev * 1) F.dat (eyeF (prev * List.prod [])) idx = F.dat idx
      rw [hFc', Nat.mul_one, List.prod_nil, Nat.mul_one]
      exact mmul_eyeR prev hprev F.dat idx
  | cons s rest ih =>
    intro prev F hprev hL hFc
    have hs : 0 < s := hL s (List.mem_cons_self s rest)
    have hrest : ∀ x ∈ rest, 0 < x := fun x hx => hL x (List.mem_cons_of_mem _ hx)
    have hq : (s :: rest).prod = s * rest.prod := List.prod_cons
    set q' : ℕ := rest.prod with hq'
    have hqpos : 0 < s * q' := Nat.mul_pos hs (List.prod_pos hrest)
    -- the branch test fails: `prev * (s*q') * prev ≥ s*q'`
    have hge : ¬ (prev * (s :: rest).prod * prev < (s :: rest).prod) := by
      rw [hq]
      have h1 : 1 * (s * q') * 1 ≤ prev * (s * q') * prev :=
        Nat.mul_le_mul (Nat.mul_le_mul hprev (Nat.le_refl _)) hprev
      rw [Nat.one_mul, Nat.mul_one] at h1
      omega
    simp only [ttAux, if_neg hge, List.foldl_cons]
    have hrows : prev * (s :: rest).prod * prev / prev = prev * (s :: rest).prod :=
      Nat.mul_div_cancel _ hprev
    have hMat : (⟨(s :: rest).prod * s, (s :: rest).prod / s, eyeF ((s :: rest).prod)⟩ : Mat)
        = ⟨s * q' * s, q', eyeF (s * q')⟩ := by
      rw [hq, Nat.mul_div_cancel_left _ hs]
    rw [hMat]
    set F' : Mat := fullStep F ⟨prev * (s :: rest).prod * prev / prev, prev,
      (s :: rest).prod, eyeF (prev * (s :: rest).prod)⟩ with hF'
    have hF'rows : F'.rows = F.rows * prev := rfl
    have hF'cols : F'.cols = (s :: rest).prod := rfl
    have hF'dat : ∀ idx, F'.dat idx = F.dat idx := by
      intro idx
      show mmulF F.cols (prev * (s :: rest).prod) F.dat
        (eyeF (prev * (s :: rest).prod)) idx = F.dat idx
      rw [hFc]
      exact mmul_eyeR _ (Nat.mul_pos hprev (by rw [hq]; exact hqpos)) F.dat idx
    obtain ⟨h1, h2, h3⟩ := ih s F' hs hrest (by rw [hF'cols, hq])
    refine ⟨?_, h2, fun idx => (h3 idx).trans (hF'dat idx)⟩
    rw [h1, hF'rows, hq]
    ring

theorem ttAux_fold_main (L : List ℕ) : ∀ (prev : ℕ) (M F : Mat),
    0 < prev → (∀ x ∈ L, 0 < x) → prev ∣ M.rows → 0 < M.rows →
    M.cols = L.prod →
    F.rows = M.rows / prev → F.cols = M.rows / prev →
    (∀ p, p < (M.rows / prev) * (M.rows / prev) → F.dat p = eyeF (M.rows / prev) p) →
    ((ttAux L prev M).foldl fullStep F).rows = F.rows * prev * L.prod ∧
    ((ttAux L prev M).foldl fullStep F).cols = 1 ∧
    ∀ idx, idx < M.rows * M.cols →
      ((ttAux L prev M).foldl fullStep F).dat idx = M.dat idx := by
  induction L with
  | nil =>
    intro prev M F hprev _ hdvd hMpos hMc hFr hFc hFeye
    simp only [List.prod_nil] at hMc
    simp only [ttAux, List.foldl_cons, List.foldl_nil]
    refine ⟨by simp [fullStep, List.prod_nil], rfl, fun idx hidx => ?_⟩
    show mmulF F.cols (prev * 1) F.dat M.dat idx = M.dat idx
    rw [hFc, Nat.mul_one]
    refine mmul_eyeL _ _ _ _ hFeye idx ?_
    rw [Nat.div_mul_cancel hdvd]
    rw [hMc, Nat.mul_one] at hidx
    exact hidx
  | cons s rest ih =>
    intro prev M F hprev hL hdvd hMpos hMc hFr hFc hFeye
    have hs : 0 < s := hL s (List.mem_cons_self s rest)
    have hrest : ∀ x ∈ rest, 0 < x := fun x hx => hL x (List.mem_cons_of_mem _ hx)
    have hsdvd : s ∣ M.cols := by
      rw [hMc, List.prod_cons]; exact Dvd.intro _ rfl
    have hcols' : M.cols / s = rest.prod := by
      rw [hMc, List.prod_cons, Nat.mul_div_cancel_left _ hs]
    have hrowsdiv : M.rows / prev * prev = M.rows := Nat.div_mul_cancel hdvd
    by_cases hbr : M.rows < M.cols
    · -- `if` branch: the emitted core is an identity, content stays with `data`
      simp only [ttAux, if_pos hbr, List.foldl_cons]
      set F' : Mat := fullStep F ⟨M.rows / prev, prev, M.rows, eyeF M.rows⟩ with hF'
      have hF'rows : F'.rows = M.rows := by
        show F.rows * prev = M.rows
        rw [hFr, hrowsdiv]
      have hF'cols : F'.cols = M.rows := rfl
      have hF'eye : ∀ p, p < (M.rows * s / s) * (M.rows * s / s) →
          F'.dat p = eyeF (M.rows * s / s) p := by
        intro p hp
        rw [Nat.mul_div_cancel _ hs] at hp ⊢
        show mmulF F.cols (prev * M.rows) F.dat (eyeF M.rows) p = eyeF M.rows p
        rw [hFc]
        refine mmul_eyeL _ _ _ _ hFeye p ?_
        calc p < M.rows * M.rows := hp
          _ = M.rows / prev * (prev * M.rows) := by
              rw [← Nat.mul_assoc, hrowsdiv]
      obtain ⟨h1, h2, h3⟩ := ih s ⟨M.rows * s, M.cols / s, M.dat⟩ F' hs hrest
        (dvd_mul_left s M.rows) (Nat.mul_pos hMpos hs) hcols'
        (by rw [hF'rows]; exact (Nat.mul_div_cancel _ hs).symm)
        (by rw [hF'cols]; exact (Nat.mul_div_cancel _ hs).symm)
        hF'eye
      refine ⟨?_, h2, fun idx hidx => ?_⟩
      · rw [h1]
        show F'.rows * s * rest.prod = F.rows * prev * (s :: rest).prod
        rw [hF'rows, ← hrowsdiv, ← hFr, List.prod_cons]
        ring
      · refine h3 idx ?_
        show idx < M.rows * s * (M.cols / s)
        rw [Nat.mul_assoc, Nat.mul_div_cancel' hsdvd]
        exact hidx
    · -- `else` branch: the data becomes the emitted core; the rest is identities
      simp only [ttAux, if_neg hbr, List.foldl_cons]
      set F' : Mat := fullStep F ⟨M.rows / prev, prev, M.cols, M.dat⟩ with hF'
      have hF'rows : F'.rows = M.rows := by
        show F.rows * prev = M.rows
        rw [hFr, hrowsdiv]
      have hF'cols : F'.cols = M.cols := rfl
      have hF'dat : ∀ idx, idx < M.rows * M.cols → F'.dat idx = M.dat idx := by
        intro idx hidx
        show mmulF F.cols (prev * M.cols) F.dat M.dat idx = M.dat idx
        rw [hFc]
        refine mmul_eyeL _ _ _ _ hFeye idx ?_
        rw [← Nat.mul_assoc, hrowsdiv]
        exact hidx
      have hMat : (⟨M.cols * s, M.cols / s, eyeF M.cols⟩ : Mat)
          = ⟨s * rest.prod * s, rest.prod, eyeF (s * rest.prod)⟩ := by
        rw [hMc, List.prod_cons, Nat.mul_div_cancel_left _ hs]
      rw [hMat]
      obtain ⟨h1, h2, h3⟩ := ttAux_fold_eye rest s F' hs hrest
        (by rw [hF'cols, hMc, List.prod_cons])
      refine ⟨?_, h2, fun idx hidx => (h3 idx).trans (hF'dat idx hidx)⟩
      rw [h1, hF'rows, ← hrowsdiv, ← hFr, List.prod_cons]

/-- The middle (free) dimensions of the cores built by the `__init__` loop
are exactly the original shape entries. -/
theorem ttAux_shapes (L : List ℕ) : ∀ (prev : ℕ) (M : Mat),
    (ttAux L prev M).map (·.s) = prev :: L := by
  induction L with
  | nil => intro prev M; rfl
  | cons s rest ih =>
    intro prev M
    by_cases hbr : M.rows < M.cols
    · simp only [ttAux, if_pos hbr, List.map_cons, ih]
    · simp only [ttAux, if_neg hbr, List.map_cons, ih]

/-- Helper: the dense constructor followed by `full()` is the identity on
shape and flat content (shared with the arithmetic and indexing claims). -/
theorem fromDense_full (shape : List ℕ) (A : ℕ → ℚ)
    (hpos : ∀ s ∈ shape, 0 < s) (hne : shape ≠ []) :
    fullShape (fromDense shape A) = shape ∧
    ∀ i, i < shape.prod → (fullMat (fromDense shape A)).dat i = A i := by
  match shape, hne with
  | s₀ :: rest, _ =>
    have hs₀ : 0 < s₀ := hpos s₀ (List.mem_cons_self s₀ rest)
    have hrest : ∀ x ∈ rest, 0 < x := fun x hx => hpos x (List.mem_cons_of_mem _ hx)
    have hdivself : s₀ / s₀ = 1 := Nat.div_self hs₀
    obtain ⟨_, _, h3⟩ := ttAux_fold_main rest s₀ ⟨s₀, rest.prod, A⟩ ⟨1, 1, eyeF 1⟩
      hs₀ hrest (dvd_refl s₀) hs₀ rfl hdivself.symm hdivself.symm
      (by intro p hp; rw [hdivself])
    constructor
    · show (ttAux rest s₀ ⟨s₀, rest.prod, A⟩).map (·.s) = s₀ :: rest
      exact ttAux_shapes rest s₀ _
    · intro i hi
      refine h3 i ?_
      rw [List.prod_cons] at hi
      exact hi

/-- **C1.** Constructing a tensor network from a dense array (constructor
with no `eps`) and materializing it with `full()` reproduces the array
exactly: the logical shape is the original shape, and every entry of the
row-major materialization equals the corresponding input entry. -/
theorem tensor_full_roundtrip (shape : List ℕ) (A : ℕ → ℚ)
    (hpos : ∀ s ∈ shape, 0 < s) (hne : shape ≠ []) :
    fullShape (fromDense shape A) = shape ∧
    ∀ i, i < shape.prod → (fullMat (fromDense shape A)).dat i = A i :=
  fromDense_full shape A hpos hne

/-- Witness for C1 at the concrete dense array `[[0, 1], [2, 3]]`. -/
theorem tensor_full_roundtrip_witness :
    fullShape (fromDense [2, 2] (fun i => (i : ℚ))) = [2, 2] ∧
    ∀ i, i < ([2, 2] : List ℕ).prod →
      (fullMat (fromDense [2, 2] (fun i => (i : ℚ)))).dat i = (i : ℚ) :=
  tensor_full_roundtrip [2, 2] (fun i => (i : ℚ)) (by decide) (by decide)

/-! ### Entrywise semantics of the chain contraction

`full()` reshapes its running factor after every step, which is invisible in
the flat representation.  To reason about single entries we characterize the
fold by the standard TT contraction: pick one slice of every core (one digit
of the multi-index per mode) and multiply the resulting matrices.  `evalstep`
is one vector-times-slice product; `evalChain` folds it along the chain. -/

/-- The row vector `[1, 0, 0, ...]` (the single row of `torch.ones([1, 1])`). -/
def e0 : ℕ → ℚ := fun j => if j = 0 then 1 else 0

/-- Multiply the row vector `v` by the `a`-th middle slice of core `c`
(an `r1 × r2` matrix read at row-major offsets `j * (s*r2) + a*r2 + k`). -/
def evalstep (v : ℕ → ℚ) (c : Core3) (a : ℕ) : ℕ → ℚ :=
  fun k => ∑ j ∈ Finset.range c.r1, v j * c.dat (j * (c.s * c.r2) + a * c.r2 + k)

/-- Contract a chain of cores against a multi-index `ds`, one slice per core,
starting from the row vector `v`. -/
def evalChain : List Core3 → (ℕ → ℚ) → List ℕ → (ℕ → ℚ)
  | [], v, _ => v
  | _ :: _, v, [] => v
  | c :: cs, v, a :: ds => evalChain cs (evalstep v c a) ds

/-- The dense entry of a (trailing-rank-1) chain at multi-index `ds`. -/
def entry (cs : List Core3) (ds : List ℕ) : ℚ :=
  evalChain cs e0 ds 0

/-- Row-major flat offset of multi-index `ds` in an array of shape `ss`. -/
def flatten : List ℕ → List ℕ → ℕ
  | _ :: ss, d :: ds => d * ss.prod + flatten ss ds
  | _, _ => 0

/-- Digits of flat offset `i` in an array of shape `ss` (row-major). -/
def unflatten : List ℕ → ℕ → List ℕ
  | [], _ => []
  | _ :: ss, i => i / ss.prod :: unflatten ss (i % ss.prod)

/-- Chain well-formedness from an incoming rank `r`: every core's leading
rank matches the previous trailing rank (`torch` would reject the
contractions otherwise). -/
def wfFrom : ℕ → List Core3 → Prop
  | _, [] => True
  | r, c :: cs => c.r1 = r ∧ wfFrom c.r2 cs

/-- Trailing rank of a chain whose incoming rank is `r`. -/
def foldCols (r : ℕ) : List Core3 → ℕ
  | [] => r
  | c :: cs => foldCols c.r2 cs

theorem unflatten_length (ss : List ℕ) : ∀ i, (unflatten ss i).length = ss.length := by
  induction ss with
  | nil => intro i; rfl
  | cons s ss ih => intro i; simp [unflatten, ih]

theorem unflatten_lt (ss : List ℕ) : ∀ i, (∀ x ∈ ss, 0 < x) → i < ss.prod →
    List.Forall₂ (· < ·) (unflatten ss i) ss := by
  induction ss with
  | nil => intro i _ _; exact List.Forall₂.nil
  | cons s ss ih =>
    intro i hpos hi
    have hs : 0 < s := hpos s (List.mem_cons_self s ss)
    have hp : 0 < ss.prod := List.prod_pos fun x hx => hpos x (List.mem_cons_of_mem _ hx)
    rw [List.prod_cons] at hi
    refine List.Forall₂.cons ?_ (ih _ (fun x hx => hpos x (List.mem_cons_of_mem _ hx))
      (Nat.mod_lt _ hp))
    exact Nat.div_lt_of_lt_mul (by rw [Nat.mul_comm]; exact hi)

theorem flatten_unflatten (ss : List ℕ) : ∀ i, i < ss.prod →
    flatten ss (unflatten ss i) = i := by
  induction ss with
  | nil =>
    intro i hi
    rw [List.prod_nil] at hi
    interval_cases i
    rfl
  | cons s ss ih =>
    intro i hi
    have hp : 0 < ss.prod := by
      rcases Nat.eq_zero_or_pos ss.prod with h | h
      · rw [List.prod_cons, h, Nat.mul_zero] at hi
        exact absurd hi (Nat.not_lt_zero _)
      · exact h
    show i / ss.prod * ss.prod + flatten ss (unflatten ss (i % ss.prod)) = i
    rw [ih _ (Nat.mod_lt _ hp), Nat.mul_comm]
    exact Nat.div_add_mod i ss.prod

theorem evalstep_congr (v w : ℕ → ℚ) (c : Core3)
    (hvw : ∀ j, j < c.r1 → v j = w j) (a k : ℕ) :
    evalstep v c a k = evalstep w c a k := by
  unfold evalstep
  refine Finset.sum_congr rfl fun j hj => ?_
  rw [hvw j (Finset.mem_range.mp hj)]

theorem evalChain_congr (cs : List Core3) : ∀ (r : ℕ) (v w : ℕ → ℚ) (ds : List ℕ) (k : ℕ),
    wfFrom r cs → ds.length = cs.length → (∀ j, j < r → v j = w j) →
    k < foldCols r cs →
    evalChain cs v ds k = evalChain cs w ds k := by
  induction cs with
  | nil => intro r v w ds k _ _ hvw hk; exact hvw k hk
  | cons c cs ih =>
    intro r v w ds k hwf hlen hvw hk
    match ds with
    | d :: ds =>
      show evalChain cs (evalstep v c d) ds k = evalChain cs (evalstep w c d) ds k
      refine ih c.r2 _ _ ds k hwf.2 (by simpa using hlen) ?_ hk
      intro j _
      refine evalstep_congr v w c ?_ d j
      intro j' hj'
      rw [hwf.1] at hj'
      exact hvw j' hj'

/-- One `full()` step, read at the row-major offset of row `(u, d)` and
column `j`, is the vector-slice product of row `u` of the factor with the
`d`-th slice of the core. -/
theorem fullStep_dat (F : Mat) (c : Core3) (u d j : ℕ) (hd : d < c.s) (hj : j < c.r2) :
    (fullStep F c).dat ((u * c.s + d) * c.r2 + j)
      = ∑ j' ∈ Finset.range F.cols,
          F.dat (u * F.cols + j') * c.dat (j' * (c.s * c.r2) + d * c.r2 + j) := by
  have hlt : d * c.r2 + j < c.s * c.r2 := by
    calc d * c.r2 + j < d * c.r2 + c.r2 := by omega
      _ = (d + 1) * c.r2 := by ring
      _ ≤ c.s * c.r2 := Nat.mul_le_mul_right _ (by omega)
  have hpos : 0 < c.s * c.r2 := by
    rcases Nat.eq_zero_or_pos (c.s * c.r2) with h | h
    · rw [h] at hlt; exact absurd hlt (Nat.not_lt_zero _)
    · exact h
  show mmulF F.cols (c.s * c.r2) F.dat c.dat ((u * c.s + d) * c.r2 + j) = _
  unfold mmulF
  rw [show (u * c.s + d) * c.r2 + j = (d * c.r2 + j) + u * (c.s * c.r2) by ring,
    Nat.add_mul_div_right _ _ hpos, Nat.add_mul_mod_self_right,
    Nat.div_eq_of_lt hlt, Nat.mod_eq_of_lt hlt, Nat.zero_add]
  refine Finset.sum_congr rfl fun j' _ => ?_
  rw [← Nat.add_assoc]

/-- The flat content of the `full()` fold, characterized entrywise: reading
the result at the row-major offset of `(u, ds)` (column `k`) gives the
chain contraction of the core slices selected by `ds`, started from row `u`
of the initial factor. -/
theorem foldl_fullStep_dat (cs : List Core3) : ∀ (F : Mat) (u : ℕ) (ds : List ℕ) (k : ℕ),
    wfFrom F.cols cs →
    List.Forall₂ (fun (d : ℕ) (c : Core3) => d < c.s) ds cs →
    k < foldCols F.cols cs →
    (cs.foldl fullStep F).dat
        ((u * (cs.map (·.s)).prod + flatten (cs.map (·.s)) ds) * foldCols F.cols cs + k)
      = evalChain cs (fun j => F.dat (u * F.cols + j)) ds k := by
  induction cs with
  | nil =>
    intro F u ds k _ hds hk
    match ds, hds with
    | [], _ =>
      show F.dat ((u * 1 + 0) * F.cols + k) = F.dat (u * F.cols + k)
      rw [Nat.mul_one, Nat.add_zero]
  | cons c cs ih =>
    intro F u ds k hwf hds hk
    match ds, hds with
    | d :: ds, List.Forall₂.cons hd hds =>
      have hstep : ∀ j, j < c.r2 →
          (fullStep F c).dat ((u * c.s + d) * c.r2 + j) = evalstep (fun j => F.dat (u * F.cols + j)) c d j := by
        intro j hj
        rw [fullStep_dat F c u d j hd hj]
        unfold evalstep
        refine Finset.sum_congr (by rw [hwf.1]) fun j' _ => rfl
      simp only [List.map_cons, List.prod_cons, List.foldl_cons, foldCols, flatten] at hk ⊢
      have hcall := ih (fullStep F c) (u * c.s + d) ds k hwf.2 hds hk
      simp only [fullStep] at hcall
      show (cs.foldl fullStep (fullStep F c)).dat _
        = evalChain cs (evalstep (fun j => F.dat (u * F.cols + j)) c d) ds k
      simp only [fullStep]
      rw [show u * (c.s * (cs.map (·.s)).prod) +
            (d * (cs.map (·.s)).prod + flatten (cs.map (·.s)) ds)
          = ((u * c.s + d) * (cs.map (·.s)).prod + flatten (cs.map (·.s)) ds) by ring]
      rw [hcall]
      exact evalChain_congr cs c.r2 _ _ ds k hwf.2
        (List.Forall₂.length_eq hds) hstep hk

/-- `full()` of a valid chain (leading rank 1, trailing rank 1), read at the
flat offset of multi-index `ds`, is the standard TT entry. -/
theorem fullMat_entry (cs : List Core3) (ds : List ℕ)
    (hwf : wfFrom 1 cs)
    (hds : List.Forall₂ (fun (d : ℕ) (c : Core3) => d < c.s) ds cs)
    (hlast : foldCols 1 cs = 1) :
    (fullMat cs).dat (flatten (cs.map (·.s)) ds) = entry cs ds := by
  have h := foldl_fullStep_dat cs ⟨1, 1, eyeF 1⟩ 0 ds 0 hwf hds
    (by rw [hlast]; exact Nat.one_pos)
  rw [Nat.zero_mul, Nat.zero_add, hlast, Nat.mul_one, Nat.add_zero] at h
  rw [show (fullMat cs) = cs.foldl fullStep ⟨1, 1, eyeF 1⟩ from rfl, h]
  refine evalChain_congr cs 1 _ _ ds 0 hwf (List.Forall₂.length_eq hds) ?_
    (by rw [hlast]; exact Nat.one_pos)
  intro j hj
  interval_cases j
  rfl

/-! ### Elementwise arithmetic (`__add__`, `__mul__`, scalar `__mul__`)

Tensors built by the dense constructor carry no Tucker factors, so the
executed code paths of `__add__` and `__mul__` are the factor-free branches;
a chain of cores fully describes such a tensor. -/

/-- The block core built by `__add__` for one mode (factor-free branch):
`column1 = cat([core1, zeros], dim=0)`, `column2 = cat([zeros, core2], dim=0)`,
`c = cat([column1, column2], dim=2)`.  Slice `a` is `[[A_a, 0], [0, B_a]]`.
`sn` is `self.shape[n]` (which equals both cores' middle dimension). -/
def blockCore (c1 c2 : Core3) (sn : ℕ) : Core3 :=
  ⟨c1.r1 + c2.r1, sn, c1.r2 + c2.r2, fun idx =>
    let i := idx / (sn * (c1.r2 + c2.r2))
    let a := idx / (c1.r2 + c2.r2) % sn
    let k := idx % (c1.r2 + c2.r2)
    if i < c1.r1 then
      if k < c1.r2 then c1.dat (i * (c1.s * c1.r2) + a * c1.r2 + k) else 0
    else
      if k < c1.r2 then 0
      else c2.dat ((i - c1.r1) * (c2.s * c2.r2) + a * c2.r2 + (k - c1.r2))⟩

/-- `torch.sum(core, dim=0, keepdim=True)` (boundary collapse of `cores[0]`
in `__add__`). -/
def sumDim0 (c : Core3) : Core3 :=
  ⟨1, c.s, c.r2, fun idx => ∑ i ∈ Finset.range c.r1, c.dat (i * (c.s * c.r2) + idx)⟩

/-- `torch.sum(core, dim=2, keepdim=True)` (boundary collapse of `cores[-1]`
in `__add__`). -/
def sumDim2 (c : Core3) : Core3 :=
  ⟨c.r1, c.s, 1, fun idx => ∑ k ∈ Finset.range c.r2, c.dat (idx * c.r2 + k)⟩

/-- Pointwise sum of two cores of identical declared shape (the `ndim == 1`
special case of `__add__`: `self.full_tucker().cores[0] + other.full_tucker().cores[0]`,
a plain `torch` elementwise addition). -/
def coreAddEntrywise (c1 c2 : Core3) : Core3 :=
  ⟨c1.r1, c1.s, c1.r2, fun idx => c1.dat idx + c2.dat idx⟩

/-- Replace the head of a core list (`cores[0] = ...`). -/
def applyHead (f : Core3 → Core3) : List Core3 → List Core3
  | [] => []
  | c :: cs => f c :: cs

/-- Replace the last element of a core list (`cores[-1] = ...`). -/
def applyLast (f : Core3 → Core3) : List Core3 → List Core3
  | [] => []
  | [c] => [f c]
  | c :: cs => c :: applyLast f cs

/-- The core list built by `__add__` once the shape check has passed. -/
def taddCores (a b : List Core3) : List Core3 :=
  match a, b with
  | [c1], [c2] => [coreAddEntrywise c1 c2]
  | a, b => applyLast sumDim2
      (applyHead sumDim0 (List.zipWith (fun c1 c2 => blockCore c1 c2 c1.s) a b))

/-- `Tensor.__add__` between two tensors (factor-free): equal logical shape
is required, otherwise `ValueError` is raised. -/
def tadd (a b : List Core3) : Except String (List Core3) :=
  if fullShape a = fullShape b then .ok (taddCores a b)
  else .error "Element-wise addition requires tensors to have equal shape"

/-- Modelled from the spec: `tn.core_kron` is referenced by `__mul__` but its
definition is not under `src/` (it lives in the repository's tools module).
Per the spec, cores combine "via a full three-axis Kronecker product"
restricted to the rank axes, with the resulting per-mode rank the product of
the two input ranks; the index order matches the in-source Tucker fast path
`einsum('ijk,abc->iajbkc')` followed by merging `(ia)(jb)(kc)`:
`kron(c1,c2)(i1·r1b+i2, a, k1·r2b+k2) = c1(i1,a,k1) * c2(i2,a,k2)`. -/
def core_kron (c1 c2 : Core3) : Core3 :=
  ⟨c1.r1 * c2.r1, c1.s, c1.r2 * c2.r2, fun idx =>
    let i := idx / (c1.s * (c1.r2 * c2.r2))
    let a := idx / (c1.r2 * c2.r2) % c1.s
    let k := idx % (c1.r2 * c2.r2)
    c1.dat (i / c2.r1 * (c1.s * c1.r2) + a * c1.r2 + k / c2.r2) *
      c2.dat (i % c2.r1 * (c2.s * c2.r2) + a * c2.r2 + k % c2.r2)⟩

/-- `Tensor.__mul__` between two tensors (factor-free): equal logical shape
is required, otherwise `ValueError` is raised; each mode combines by
`tn.core_kron`. -/
def tmul (a b : List Core3) : Except String (List Core3) :=
  if fullShape a = fullShape b then .ok (List.zipWith core_kron a b)
  else .error "Element-wise multiplication requires tensors to have equal shape"

/-- `Tensor.__mul__` with a scalar: clone and scale `cores[0]` in place. -/
def smul (q : ℚ) : List Core3 → List Core3 :=
  applyHead fun c => ⟨c.r1, c.s, c.r2, fun idx => q * c.dat idx⟩

/-- `Tensor.__sub__`: `self + (-1) * other`. -/
def tsub (a b : List Core3) : Except String (List Core3) :=
  tadd a (smul (-1) b)

/-- Concatenation of two rank vectors at split point `n`
(the rank layout of the `__add__` block chain). -/
def vcat (n : ℕ) (v w : ℕ → ℚ) : ℕ → ℚ :=
  fun j => if j < n then v j else w (j - n)

/-- Kronecker interleaving of two rank vectors with inner size `nb`
(the rank layout of the `__mul__` Kronecker chain). -/
def vkron (nb : ℕ) (v w : ℕ → ℚ) : ℕ → ℚ :=
  fun j => v (j / nb) * w (j % nb)

/-! ### Structural bookkeeping for the arithmetic chains -/

theorem sum_range_mul_split (a b : ℕ) (f : ℕ → ℚ) :
    ∑ j ∈ Finset.range (a * b), f j
      = ∑ i ∈ Finset.range a, ∑ j ∈ Finset.range b, f (i * b + j) := by
  induction a with
  | zero => simp
  | succ a ih =>
    rw [Nat.succ_mul, Finset.sum_range_add, ih, Finset.sum_range_succ]

theorem shapes_zip_block (as : List Core3) : ∀ bs : List Core3, as.length = bs.length →
    (List.zipWith (fun c1 c2 => blockCore c1 c2 c1.s) as bs).map (·.s) = as.map (·.s) := by
  induction as with
  | nil => intro bs _; rfl
  | cons c1 as ih =>
    intro bs hlen
    match bs with
    | c2 :: bs =>
      simp only [List.zipWith_cons_cons, List.map_cons]
      rw [ih bs (by simpa using hlen)]
      rfl

theorem shapes_zip_kron (as : List Core3) : ∀ bs : List Core3, as.length = bs.length →
    (List.zipWith core_kron as bs).map (·.s) = as.map (·.s) := by
  induction as with
  | nil => intro bs _; rfl
  | cons c1 as ih =>
    intro bs hlen
    match bs with
    | c2 :: bs =>
      simp only [List.zipWith_cons_cons, List.map_cons]
      rw [ih bs (by simpa using hlen)]
      rfl

theorem shapes_applyHead_sumDim0 (cs : List Core3) :
    (applyHead sumDim0 cs).map (·.s) = cs.map (·.s) := by
  match cs with
  | [] => rfl
  | c :: cs => rfl

theorem shapes_applyLast_sumDim2 (cs : List Core3) :
    (applyLast sumDim2 cs).map (·.s) = cs.map (·.s) := by
  match cs with
  | [] => rfl
  | [c] => rfl
  | c :: c' :: cs =>
    show c.s :: (applyLast sumDim2 (c' :: cs)).map (·.s) = c.s :: (c' :: cs).map (·.s)
    rw [shapes_applyLast_sumDim2 (c' :: cs)]

theorem shapes_taddCores (a b : List Core3) (hlen : a.length = b.length) :
    (taddCores a b).map (·.s) = a.map (·.s) := by
  match a, b with
  | [], [] => rfl
  | [c1], [c2] => rfl
  | [c1], c2 :: c2' :: b => exact absurd hlen (by simp)
  | c1 :: c1' :: a, b =>
    show (applyLast sumDim2 (applyHead sumDim0 _)).map (·.s) = _
    rw [shapes_applyLast_sumDim2, shapes_applyHead_sumDim0,
      shapes_zip_block _ _ hlen]

theorem wf_zip_block (as : List Core3) : ∀ (bs : List Core3) (ra rb : ℕ),
    as.length = bs.length → wfFrom ra as → wfFrom rb bs →
    wfFrom (ra + rb) (List.zipWith (fun c1 c2 => blockCore c1 c2 c1.s) as bs) ∧
    foldCols (ra + rb) (List.zipWith (fun c1 c2 => blockCore c1 c2 c1.s) as bs)
      = foldCols ra as + foldCols rb bs := by
  induction as with
  | nil =>
    intro bs ra rb hlen _ _
    match bs with
    | [] => exact ⟨trivial, rfl⟩
  | cons c1 as ih =>
    intro bs ra rb hlen hwa hwb
    match bs with
    | c2 :: bs =>
      obtain ⟨hw, hf⟩ := ih bs c1.r2 c2.r2 (by simpa using hlen) hwa.2 hwb.2
      exact ⟨⟨show c1.r1 + c2.r1 = ra + rb from by rw [hwa.1, hwb.1], hw⟩, hf⟩

theorem wf_zip_kron (as : List Core3) : ∀ (bs : List Core3) (ra rb : ℕ),
    as.length = bs.length → wfFrom ra as → wfFrom rb bs →
    wfFrom (ra * rb) (List.zipWith core_kron as bs) ∧
    foldCols (ra * rb) (List.zipWith core_kron as bs)
      = foldCols ra as * foldCols rb bs := by
  induction as with
  | nil =>
    intro bs ra rb hlen _ _
    match bs with
    | [] => exact ⟨trivial, rfl⟩
  | cons c1 as ih =>
    intro bs ra rb hlen hwa hwb
    match bs with
    | c2 :: bs =>
      obtain ⟨hw, hf⟩ := ih bs c1.r2 c2.r2 (by simpa using hlen) hwa.2 hwb.2
      exact ⟨⟨show c1.r1 * c2.r1 = ra * rb from by rw [hwa.1, hwb.1], hw⟩, hf⟩

theorem wf_applyHead_sumDim0 (cs : List Core3) (r : ℕ) (hwf : wfFrom r cs)
    (hne : cs ≠ []) :
    wfFrom 1 (applyHead sumDim0 cs) ∧
    foldCols 1 (applyHead sumDim0 cs) = foldCols r cs := by
  match cs with
  | [] => exact absurd rfl hne
  | c :: cs => exact ⟨⟨rfl, hwf.2⟩, rfl⟩

theorem wf_applyLast_sumDim2 (cs : List Core3) : ∀ r : ℕ, wfFrom r cs →
    wfFrom r (applyLast sumDim2 cs) ∧
    (cs ≠ [] → foldCols r (applyLast sumDim2 cs) = 1) := by
  match cs with
  | [] => intro r h; exact ⟨h, fun hne => absurd rfl hne⟩
  | [c] => intro r h; exact ⟨⟨h.1, trivial⟩, fun _ => rfl⟩
  | c :: c' :: cs =>
    intro r h
    obtain ⟨hw, hf⟩ := wf_applyLast_sumDim2 (c' :: cs) c.r2 h.2
    exact ⟨⟨h.1, hw⟩, fun _ => hf (by simp)⟩

theorem applyLast_length (f : Core3 → Core3) (cs : List Core3) :
    (applyLast f cs).length = cs.length := by
  match cs with
  | [] => rfl
  | [c] => rfl
  | c :: c' :: cs =>
    show (applyLast f (c' :: cs)).length + 1 = _
    rw [applyLast_length f (c' :: cs)]
    rfl

/-! ### Slice-level behaviour of the arithmetic cores -/

/-- Row-major offset decoding for a `[r1, s, R2]` core: the offset of entry
`(j, d, k)` decodes back to its three indices. -/
theorem core_offset_decode (s R2 j d k : ℕ) (hd : d < s) (hk : k < R2) :
    (j * (s * R2) + d * R2 + k) / (s * R2) = j ∧
    (j * (s * R2) + d * R2 + k) / R2 % s = d ∧
    (j * (s * R2) + d * R2 + k) % R2 = k := by
  have hR2 : 0 < R2 := by omega
  have hs : 0 < s := by omega
  have hlt : d * R2 + k < s * R2 := by
    calc d * R2 + k < d * R2 + R2 := by omega
      _ = (d + 1) * R2 := by ring
      _ ≤ s * R2 := Nat.mul_le_mul_right _ (by omega)
  have hdiv2 : (j * (s * R2) + d * R2 + k) / R2 = j * s + d := by
    rw [show j * (s * R2) + d * R2 + k = k + (j * s + d) * R2 by ring,
      Nat.add_mul_div_right _ _ hR2, Nat.div_eq_of_lt hk, Nat.zero_add]
  refine ⟨?_, ?_, ?_⟩
  · rw [show j * (s * R2) + d * R2 + k = (d * R2 + k) + j * (s * R2) by ring,
      Nat.add_mul_div_right _ _ (Nat.mul_pos hs hR2), Nat.div_eq_of_lt hlt, Nat.zero_add]
  · rw [hdiv2, show j * s + d = d + j * s by ring, Nat.add_mul_mod_self_right,
      Nat.mod_eq_of_lt hd]
  · rw [show j * (s * R2) + d * R2 + k = k + (j * s + d) * R2 by ring,
      Nat.add_mul_mod_self_right, Nat.mod_eq_of_lt hk]

/-- One step against a block core splits as the concatenation of the two
operand steps. -/
theorem evalstep_block (c1 c2 : Core3) (v w : ℕ → ℚ) (d k : ℕ)
    (hd : d < c1.s) (hk : k < c1.r2 + c2.r2) :
    evalstep (vcat c1.r1 v w) (blockCore c1 c2 c1.s) d k
      = vcat c1.r2 (evalstep v c1 d) (evalstep w c2 d) k := by
  have hdecode : ∀ j,
      (blockCore c1 c2 c1.s).dat (j * (c1.s * (c1.r2 + c2.r2)) + d * (c1.r2 + c2.r2) + k)
        = if j < c1.r1 then
            (if k < c1.r2 then c1.dat (j * (c1.s * c1.r2) + d * c1.r2 + k) else 0)
          else
            (if k < c1.r2 then 0
             else c2.dat ((j - c1.r1) * (c2.s * c2.r2) + d * c2.r2 + (k - c1.r2))) := by
    intro j
    obtain ⟨h1, h2, h3⟩ := core_offset_decode c1.s (c1.r2 + c2.r2) j d k hd hk
    show (if _ < c1.r1 then _ else _) = _
    rw [h1, h2, h3]
  show (∑ j ∈ Finset.range ((blockCore c1 c2 c1.s).r1), _) = _
  rw [show (blockCore c1 c2 c1.s).r1 = c1.r1 + c2.r1 from rfl, Finset.sum_range_add]
  by_cases hkc : k < c1.r2
  · have hfirst : ∀ j ∈ Finset.range c1.r1,
        vcat c1.r1 v w j *
          (blockCore c1 c2 c1.s).dat (j * ((blockCore c1 c2 c1.s).s * (blockCore c1 c2 c1.s).r2) + d * (blockCore c1 c2 c1.s).r2 + k)
          = v j * c1.dat (j * (c1.s * c1.r2) + d * c1.r2 + k) := by
      intro j hj
      rw [Finset.mem_range] at hj
      rw [show ((blockCore c1 c2 c1.s).s * (blockCore c1 c2 c1.s).r2) = c1.s * (c1.r2 + c2.r2) from rfl,
        show (blockCore c1 c2 c1.s).r2 = c1.r2 + c2.r2 from rfl,
        hdecode j, if_pos hj, if_pos hkc, vcat, if_pos hj]
    have hsecond : ∀ j ∈ Finset.range c2.r1,
        vcat c1.r1 v w (c1.r1 + j) *
          (blockCore c1 c2 c1.s).dat ((c1.r1 + j) * ((blockCore c1 c2 c1.s).s * (blockCore c1 c2 c1.s).r2) + d * (blockCore c1 c2 c1.s).r2 + k)
          = 0 := by
      intro j hj
      rw [show ((blockCore c1 c2 c1.s).s * (blockCore c1 c2 c1.s).r2) = c1.s * (c1.r2 + c2.r2) from rfl,
        show (blockCore c1 c2 c1.s).r2 = c1.r2 + c2.r2 from rfl,
        hdecode (c1.r1 + j), if_neg (by omega), if_pos hkc, Rat.mul_zero]
    rw [Finset.sum_congr rfl hfirst, Finset.sum_congr rfl hsecond,
      Finset.sum_const_zero, Rat.add_zero]
    show _ = vcat c1.r2 (evalstep v c1 d) (evalstep w c2 d) k
    rw [vcat, if_pos hkc]
    rfl
  · have hfirst : ∀ j ∈ Finset.range c1.r1,
        vcat c1.r1 v w j *
          (blockCore c1 c2 c1.s).dat (j * ((blockCore c1 c2 c1.s).s * (blockCore c1 c2 c1.s).r2) + d * (blockCore c1 c2 c1.s).r2 + k)
          = 0 := by
      intro j hj
      rw [Finset.mem_range] at hj
      rw [show ((blockCore c1 c2 c1.s).s * (blockCore c1 c2 c1.s).r2) = c1.s * (c1.r2 + c2.r2) from rfl,
        show (blockCore c1 c2 c1.s).r2 = c1.r2 + c2.r2 from rfl,
        hdecode j, if_pos hj, if_neg hkc, Rat.mul_zero]
    have hsecond : ∀ j ∈ Finset.range c2.r1,
        vcat c1.r1 v w (c1.r1 + j) *
          (blockCore c1 c2 c1.s).dat ((c1.r1 + j) * ((blockCore c1 c2 c1.s).s * (blockCore c1 c2 c1.s).r2) + d * (blockCore c1 c2 c1.s).r2 + k)
          = w j * c2.dat (j * (c2.s * c2.r2) + d * c2.r2 + (k - c1.r2)) := by
      intro j hj
      rw [show ((blockCore c1 c2 c1.s).s * (blockCore c1 c2 c1.s).r2) = c1.s * (c1.r2 + c2.r2) from rfl,
        show (blockCore c1 c2 c1.s).r2 = c1.r2 + c2.r2 from rfl,
        hdecode (c1.r1 + j), if_neg (by omega), if_neg hkc, vcat, if_neg (by omega),
        Nat.add_sub_cancel_left]
    rw [Finset.sum_congr rfl hfirst, Finset.sum_congr rfl hsecond,
      Finset.sum_const_zero, Rat.zero_add]
    show _ = vcat c1.r2 (evalstep v c1 d) (evalstep w c2 d) k
    rw [vcat, if_neg hkc]
    rfl

/-- One step against a Kronecker core factors as the Kronecker product of
the two operand steps. -/
theorem evalstep_kron (c1 c2 : Core3) (v w : ℕ → ℚ) (d k : ℕ)
    (hd : d < c1.s) (hk : k < c1.r2 * c2.r2) :
    evalstep (vkron c2.r1 v w) (core_kron c1 c2) d k
      = vkron c2.r2 (evalstep v c1 d) (evalstep w c2 d) k := by
  rcases Nat.eq_zero_or_pos c2.r1 with hb | hb
  · show (∑ j ∈ Finset.range ((core_kron c1 c2).r1), _) = _
    rw [show (core_kron c1 c2).r1 = c1.r1 * c2.r1 from rfl, hb, Nat.mul_zero]
    show (∑ j ∈ Finset.range 0, _) = _
    rw [Finset.range_zero, Finset.sum_empty]
    show (0 : ℚ) = evalstep v c1 d (k / c2.r2) * evalstep w c2 d (k % c2.r2)
    rw [show evalstep w c2 d (k % c2.r2) = ∑ j ∈ Finset.range c2.r1, w j * c2.dat _ from rfl,
      hb, Finset.range_zero, Finset.sum_empty, Rat.mul_zero]
  · have hdecode : ∀ j,
        (core_kron c1 c2).dat (j * (c1.s * (c1.r2 * c2.r2)) + d * (c1.r2 * c2.r2) + k)
          = c1.dat (j / c2.r1 * (c1.s * c1.r2) + d * c1.r2 + k / c2.r2) *
            c2.dat (j % c2.r1 * (c2.s * c2.r2) + d * c2.r2 + k % c2.r2) := by
      intro j
      obtain ⟨h1, h2, h3⟩ := core_offset_decode c1.s (c1.r2 * c2.r2) j d k hd hk
      show c1.dat _ * c2.dat _ = _
      rw [h1, h2, h3]
    show (∑ j ∈ Finset.range ((core_kron c1 c2).r1), _) = _
    rw [show (core_kron c1 c2).r1 = c1.r1 * c2.r1 from rfl]
    have hterm : ∀ j ∈ Finset.range (c1.r1 * c2.r1),
        vkron c2.r1 v w j *
          (core_kron c1 c2).dat (j * ((core_kron c1 c2).s * (core_kron c1 c2).r2) + d * (core_kron c1 c2).r2 + k)
          = (v (j / c2.r1) * c1.dat (j / c2.r1 * (c1.s * c1.r2) + d * c1.r2 + k / c2.r2)) *
            (w (j % c2.r1) * c2.dat (j % c2.r1 * (c2.s * c2.r2) + d * c2.r2 + k % c2.r2)) := by
      intro j _
      rw [show ((core_kron c1 c2).s * (core_kron c1 c2).r2) = c1.s * (c1.r2 * c2.r2) from rfl,
        show (core_kron c1 c2).r2 = c1.r2 * c2.r2 from rfl, hdecode j]
      show v (j / c2.r1) * w (j % c2.r1) * (c1.dat _ * c2.dat _) = _
      ring
    rw [Finset.sum_congr rfl hterm, sum_range_mul_split c1.r1 c2.r1]
    have hinner : ∀ i ∈ Finset.range c1.r1, ∀ j ∈ Finset.range c2.r1,
        (v ((i * c2.r1 + j) / c2.r1) *
          c1.dat ((i * c2.r1 + j) / c2.r1 * (c1.s * c1.r2) + d * c1.r2 + k / c2.r2)) *
        (w ((i * c2.r1 + j) % c2.r1) *
          c2.dat ((i * c2.r1 + j) % c2.r1 * (c2.s * c2.r2) + d * c2.r2 + k % c2.r2))
        = (v i * c1.dat (i * (c1.s * c1.r2) + d * c1.r2 + k / c2.r2)) *
          (w j * c2.dat (j * (c2.s * c2.r2) + d * c2.r2 + k % c2.r2)) := by
      intro i _ j hj
      rw [Finset.mem_range] at hj
      have hdj : (i * c2.r1 + j) / c2.r1 = i := by
        rw [Nat.add_comm, Nat.add_mul_div_right _ _ hb, Nat.div_eq_of_lt hj, Nat.zero_add]
      have hmj : (i * c2.r1 + j) % c2.r1 = j := by
        rw [Nat.add_comm, Nat.add_mul_mod_self_right, Nat.mod_eq_of_lt hj]
      rw [hdj, hmj]
    rw [Finset.sum_congr rfl fun i hi => Finset.sum_congr rfl (hinner i hi)]
    show _ = evalstep v c1 d (k / c2.r2) * evalstep w c2 d (k % c2.r2)
    rw [show evalstep v c1 d (k / c2.r2) = ∑ i ∈ Finset.range c1.r1,
          v i * c1.dat (i * (c1.s * c1.r2) + d * c1.r2 + k / c2.r2) from rfl,
      show evalstep w c2 d (k % c2.r2) = ∑ j ∈ Finset.range c2.r1,
          w j * c2.dat (j * (c2.s * c2.r2) + d * c2.r2 + k % c2.r2) from rfl,
      Finset.sum_mul_sum]

/-- One step on a `sumDim0`-collapsed core from the boundary vector equals a
step on the original core from the all-ones vector. -/
theorem evalstep_sumDim0 (c : Core3) (a k : ℕ) :
    evalstep e0 (sumDim0 c) a k = evalstep (fun _ => (1 : ℚ)) c a k := by
  show (∑ j ∈ Finset.range ((sumDim0 c).r1), _) = _
  rw [show (sumDim0 c).r1 = 1 from rfl, Finset.sum_range_one]
  show e0 0 * (sumDim0 c).dat (0 * ((sumDim0 c).s * (sumDim0 c).r2) + a * (sumDim0 c).r2 + k)
    = _
  rw [show (e0 0 : ℚ) = 1 from rfl, Rat.one_mul, Nat.zero_mul, Nat.zero_add]
  show (∑ i ∈ Finset.range c.r1, c.dat (i * (c.s * c.r2) + (a * c.r2 + k))) = _
  refine Finset.sum_congr rfl fun i _ => ?_
  rw [Rat.one_mul, Nat.add_assoc]

/-- One step on a `sumDim2`-collapsed core, read at its single column, sums
the steps on the original core over all of its columns. -/
theorem evalstep_sumDim2 (c : Core3) (v : ℕ → ℚ) (a : ℕ) :
    evalstep v (sumDim2 c) a 0 = ∑ k ∈ Finset.range c.r2, evalstep v c a k := by
  show (∑ j ∈ Finset.range ((sumDim2 c).r1), _) = _
  rw [show (sumDim2 c).r1 = c.r1 from rfl]
  have hterm : ∀ j ∈ Finset.range c.r1,
      v j * (sumDim2 c).dat (j * ((sumDim2 c).s * (sumDim2 c).r2) + a * (sumDim2 c).r2 + 0)
        = ∑ k ∈ Finset.range c.r2, v j * c.dat (j * (c.s * c.r2) + a * c.r2 + k) := by
    intro j _
    rw [show ((sumDim2 c).s * (sumDim2 c).r2) = c.s * 1 from rfl,
      show (sumDim2 c).r2 = 1 from rfl]
    show v j * (∑ k ∈ Finset.range c.r2, c.dat ((j * (c.s * 1) + a * 1 + 0) * c.r2 + k)) = _
    rw [Finset.mul_sum]
    refine Finset.sum_congr rfl fun k _ => ?_
    congr 2
    ring
  rw [Finset.sum_congr rfl hterm, Finset.sum_comm]
  rfl

/-- The collapsed head core of `__add__` (`sumDim0` of the block core),
stepped from `e0`, is the concatenation of the two operand head steps —
provided both operands have the boundary leading rank 1. -/
theorem evalstep_head_block (c1 c2 : Core3) (d k : ℕ)
    (h1 : c1.r1 = 1) (h2 : c2.r1 = 1) (hd : d < c1.s) (hk : k < c1.r2 + c2.r2) :
    evalstep e0 (sumDim0 (blockCore c1 c2 c1.s)) d k
      = vcat c1.r2 (evalstep e0 c1 d) (evalstep e0 c2 d) k := by
  rw [evalstep_sumDim0]
  have hones : ∀ j, (fun _ => (1 : ℚ)) j = vcat c1.r1 (fun _ => (1 : ℚ)) (fun _ => (1 : ℚ)) j := by
    intro j
    unfold vcat
    by_cases h : j < c1.r1 <;> simp [h]
  rw [show evalstep (fun _ => (1 : ℚ)) (blockCore c1 c2 c1.s) d k
      = evalstep (vcat c1.r1 (fun _ => (1 : ℚ)) (fun _ => (1 : ℚ))) (blockCore c1 c2 c1.s) d k from
    evalstep_congr _ _ _ (fun j _ => hones j) d k]
  rw [evalstep_block c1 c2 _ _ d k hd hk]
  unfold vcat
  by_cases h : k < c1.r2
  · rw [if_pos h, if_pos h]
    exact evalstep_congr _ _ c1 (fun j hj => by rw [h1] at hj; interval_cases j; rfl) d k
  · rw [if_neg h, if_neg h]
    exact evalstep_congr _ _ c2 (fun j hj => by rw [h2] at hj; interval_cases j; rfl) d _

/-! ### Chain-level behaviour of `__add__` and `__mul__` -/

theorem evalChain_block (as : List Core3) : ∀ (bs : List Core3) (ds : List ℕ) (ra rb : ℕ)
    (v w : ℕ → ℚ) (k : ℕ),
    as.length = bs.length → ds.length = as.length →
    wfFrom ra as → wfFrom rb bs →
    List.Forall₂ (fun (d : ℕ) (c : Core3) => d < c.s) ds as →
    k < foldCols ra as + foldCols rb bs →
    evalChain (List.zipWith (fun c1 c2 => blockCore c1 c2 c1.s) as bs) (vcat ra v w) ds k
      = vcat (foldCols ra as) (evalChain as v ds) (evalChain bs w ds) k := by
  induction as with
  | nil =>
    intro bs ds ra rb v w k hlen hdlen _ _ _ _
    match bs, ds with
    | [], [] => rfl
  | cons c1 as ih =>
    intro bs ds ra rb v w k hlen hdlen hwa hwb hds hk
    match bs, ds, hds with
    | c2 :: bs, d :: ds, List.Forall₂.cons hd hds =>
      show evalChain (List.zipWith _ as bs) (evalstep (vcat ra v w) (blockCore c1 c2 c1.s) d) ds k = _
      have hvc : vcat ra v w = vcat c1.r1 v w := by rw [hwa.1]
      obtain ⟨hwz, hfz⟩ := wf_zip_block as bs c1.r2 c2.r2 (by simpa using hlen) hwa.2 hwb.2
      have hstep : ∀ k', k' < c1.r2 + c2.r2 →
          evalstep (vcat ra v w) (blockCore c1 c2 c1.s) d k'
            = vcat c1.r2 (evalstep v c1 d) (evalstep w c2 d) k' := by
        intro k' hk'
        rw [hvc]
        exact evalstep_block c1 c2 v w d k' hd hk'
      have htl : as.length = bs.length := by simpa using hlen
      have hzl : (List.zipWith (fun c1 c2 => blockCore c1 c2 c1.s) as bs).length = as.length := by
        rw [List.length_zipWith, ← htl]
        exact Nat.min_self _
      have hlen2 : ds.length = (List.zipWith (fun c1 c2 => blockCore c1 c2 c1.s) as bs).length := by
        rw [hzl]
        simpa using hdlen
      rw [evalChain_congr _ (c1.r2 + c2.r2) _ _ ds k hwz hlen2 hstep (by rw [hfz]; exact hk)]
      exact ih bs ds c1.r2 c2.r2 (evalstep v c1 d) (evalstep w c2 d) k
        htl (by simpa using hdlen) hwa.2 hwb.2 hds hk

theorem evalChain_kron (as : List Core3) : ∀ (bs : List Core3) (ds : List ℕ) (ra rb : ℕ)
    (v w : ℕ → ℚ) (k : ℕ),
    as.length = bs.length → ds.length = as.length →
    wfFrom ra as → wfFrom rb bs →
    List.Forall₂ (fun (d : ℕ) (c : Core3) => d < c.s) ds as →
    k < foldCols ra as * foldCols rb bs →
    evalChain (List.zipWith core_kron as bs) (vkron rb v w) ds k
      = vkron (foldCols rb bs) (evalChain as v ds) (evalChain bs w ds) k := by
  induction as with
  | nil =>
    intro bs ds ra rb v w k hlen hdlen _ _ _ _
    match bs, ds with
    | [], [] => rfl
  | cons c1 as ih =>
    intro bs ds ra rb v w k hlen hdlen hwa hwb hds hk
    match bs, ds, hds with
    | c2 :: bs, d :: ds, List.Forall₂.cons hd hds =>
      show evalChain (List.zipWith core_kron as bs) (evalstep (vkron rb v w) (core_kron c1 c2) d) ds k = _
      have hvc : vkron rb v w = vkron c2.r1 v w := by rw [hwb.1]
      obtain ⟨hwz, hfz⟩ := wf_zip_kron as bs c1.r2 c2.r2 (by simpa using hlen) hwa.2 hwb.2
      have hstep : ∀ k', k' < c1.r2 * c2.r2 →
          evalstep (vkron rb v w) (core_kron c1 c2) d k'
            = vkron c2.r2 (evalstep v c1 d) (evalstep w c2 d) k' := by
        intro k' hk'
        rw [hvc]
        exact evalstep_kron c1 c2 v w d k' hd hk'
      have htl : as.length = bs.length := by simpa using hlen
      have hzl : (List.zipWith core_kron as bs).length = as.length := by
        rw [List.length_zipWith, ← htl]
        exact Nat.min_self _
      have hlen2 : ds.length = (List.zipWith core_kron as bs).length := by
        rw [hzl]
        simpa using hdlen
      rw [evalChain_congr _ (c1.r2 * c2.r2) _ _ ds k hwz hlen2 hstep (by rw [hfz]; exact hk)]
      exact ih bs ds c1.r2 c2.r2 (evalstep v c1 d) (evalstep w c2 d) k
        htl (by simpa using hdlen) hwa.2 hwb.2 hds hk

theorem evalChain_block_last (as : List Core3) : ∀ (bs : List Core3) (ds : List ℕ)
    (ra rb : ℕ) (v w : ℕ → ℚ),
    as.length = bs.length → ds.length = as.length →
    wfFrom ra as → wfFrom rb bs →
    List.Forall₂ (fun (d : ℕ) (c : Core3) => d < c.s) ds as →
    foldCols ra as = 1 → foldCols rb bs = 1 →
    as ≠ [] →
    evalChain (applyLast sumDim2 (List.zipWith (fun c1 c2 => blockCore c1 c2 c1.s) as bs))
        (vcat ra v w) ds 0
      = evalChain as v ds 0 + evalChain bs w ds 0 := by
  match as with
  | [] => intro bs ds ra rb v w _ _ _ _ _ _ _ hne; exact absurd rfl hne
  | [c1] =>
    intro bs ds ra rb v w hlen hdlen hwa hwb hds hfa hfb _
    match bs, ds, hds with
    | [c2], [d], List.Forall₂.cons hd _ =>
      show evalstep (vcat ra v w) (sumDim2 (blockCore c1 c2 c1.s)) d 0
        = evalstep v c1 d 0 + evalstep w c2 d 0
      have hfa' : c1.r2 = 1 := hfa
      have hfb' : c2.r2 = 1 := hfb
      rw [show vcat ra v w = vcat c1.r1 v w from by rw [hwa.1], evalstep_sumDim2]
      have hterm : ∀ k ∈ Finset.range ((blockCore c1 c2 c1.s).r2),
          evalstep (vcat c1.r1 v w) (blockCore c1 c2 c1.s) d k
            = vcat c1.r2 (evalstep v c1 d) (evalstep w c2 d) k := by
        intro k hk
        rw [Finset.mem_range] at hk
        exact evalstep_block c1 c2 v w d k hd hk
      rw [Finset.sum_congr rfl hterm,
        show (blockCore c1 c2 c1.s).r2 = c1.r2 + c2.r2 from rfl, Finset.sum_range_add]
      congr 1
      · rw [hfa', Finset.sum_range_one]
        simp [vcat, hfa']
      · rw [hfb', Finset.sum_range_one]
        simp [vcat]
  | c1 :: c1' :: as =>
    intro bs ds ra rb v w hlen hdlen hwa hwb hds hfa hfb _
    match bs, ds, hds with
    | c2 :: c2' :: bs, d :: ds, List.Forall₂.cons hd hds =>
      show evalChain
            (applyLast sumDim2
              (List.zipWith (fun c1 c2 => blockCore c1 c2 c1.s) (c1' :: as) (c2' :: bs)))
            (evalstep (vcat ra v w) (blockCore c1 c2 c1.s) d) ds 0
          = evalChain (c1' :: as) (evalstep v c1 d) ds 0
            + evalChain (c2' :: bs) (evalstep w c2 d) ds 0
      have hlen' : (c1' :: as).length = (c2' :: bs).length := by simpa using hlen
      obtain ⟨hwz, hfz⟩ := wf_zip_block (c1' :: as) (c2' :: bs) c1.r2 c2.r2 hlen' hwa.2 hwb.2
      obtain ⟨hwzl, hfzl⟩ := wf_applyLast_sumDim2 _ (c1.r2 + c2.r2) hwz
      have hstep : ∀ k', k' < c1.r2 + c2.r2 →
          evalstep (vcat ra v w) (blockCore c1 c2 c1.s) d k'
            = vcat c1.r2 (evalstep v c1 d) (evalstep w c2 d) k' := by
        intro k' hk'
        rw [show vcat ra v w = vcat c1.r1 v w from by rw [hwa.1]]
        exact evalstep_block c1 c2 v w d k' hd hk'
      have hlen2 : ds.length
          = (applyLast sumDim2 (List.zipWith (fun c1 c2 => blockCore c1 c2 c1.s) (c1' :: as) (c2' :: bs))).length := by
        rw [applyLast_length, List.length_zipWith, ← hlen', Nat.min_self]
        simpa using hdlen
      rw [evalChain_congr _ (c1.r2 + c2.r2) _ _ ds 0 hwzl hlen2 hstep
        (by rw [hfzl (by simp)]; exact Nat.one_pos)]
      exact evalChain_block_last (c1' :: as) (c2' :: bs) ds c1.r2 c2.r2
        (evalstep v c1 d) (evalstep w c2 d) hlen' (by simpa using hdlen)
        hwa.2 hwb.2 hds hfa hfb (by simp)

/-! ### Well-formedness of the constructed chains, and digit bookkeeping -/

theorem ttAux_wf (L : List ℕ) : ∀ (prev : ℕ) (M : Mat), (∀ x ∈ L, 0 < x) →
    wfFrom (M.rows / prev) (ttAux L prev M) ∧
    ∀ r, foldCols r (ttAux L prev M) = 1 := by
  induction L with
  | nil => intro prev M _; exact ⟨⟨rfl, trivial⟩, fun r => rfl⟩
  | cons s rest ih =>
    intro prev M hL
    have hs : 0 < s := hL s (List.mem_cons_self s rest)
    have hrest : ∀ x ∈ rest, 0 < x := fun x hx => hL x (List.mem_cons_of_mem _ hx)
    by_cases hbr : M.rows < M.cols
    · obtain ⟨hw, hf⟩ := ih s ⟨M.rows * s, M.cols / s, M.dat⟩ hrest
      have hdiv : (⟨M.rows * s, M.cols / s, M.dat⟩ : Mat).rows / s = M.rows :=
        Nat.mul_div_cancel _ hs
      rw [hdiv] at hw
      simp only [ttAux, if_pos hbr]
      exact ⟨⟨rfl, hw⟩, fun r => hf _⟩
    · obtain ⟨hw, hf⟩ := ih s ⟨M.cols * s, M.cols / s, eyeF M.cols⟩ hrest
      have hdiv : (⟨M.cols * s, M.cols / s, eyeF M.cols⟩ : Mat).rows / s = M.cols :=
        Nat.mul_div_cancel _ hs
      rw [hdiv] at hw
      simp only [ttAux, if_neg hbr]
      exact ⟨⟨rfl, hw⟩, fun r => hf _⟩

theorem fromDense_wf (shape : List ℕ) (A : ℕ → ℚ)
    (hpos : ∀ s ∈ shape, 0 < s) (hne : shape ≠ []) :
    wfFrom 1 (fromDense shape A) ∧ foldCols 1 (fromDense shape A) = 1 := by
  match shape, hne with
  | s₀ :: rest, _ =>
    have hs₀ : 0 < s₀ := hpos s₀ (List.mem_cons_self s₀ rest)
    obtain ⟨hw, hf⟩ := ttAux_wf rest s₀ ⟨s₀, rest.prod, A⟩
      (fun x hx => hpos x (List.mem_cons_of_mem _ hx))
    rw [show (⟨s₀, rest.prod, A⟩ : Mat).rows / s₀ = 1 from Nat.div_self hs₀] at hw
    exact ⟨hw, hf 1⟩

theorem flatten_lt (ss ds : List ℕ) (h : List.Forall₂ (· < ·) ds ss) :
    flatten ss ds < ss.prod := by
  induction h with
  | nil => rw [List.prod_nil]; exact Nat.one_pos
  | @cons d s ds ss hd _ ih =>
    show d * ss.prod + flatten ss ds < (s :: ss).prod
    rw [List.prod_cons]
    calc d * ss.prod + flatten ss ds < d * ss.prod + ss.prod := by omega
      _ = (d + 1) * ss.prod := by ring
      _ ≤ s * ss.prod := Nat.mul_le_mul_right _ (by omega)

theorem digits_of_cores (cs : List Core3) (shape ds : List ℕ)
    (hsh : cs.map (·.s) = shape) (h : List.Forall₂ (· < ·) ds shape) :
    List.Forall₂ (fun (d : ℕ) (c : Core3) => d < c.s) ds cs := by
  subst hsh
  exact List.forall₂_map_right_iff.mp h

/-! ### Entry-level correctness of `__add__` and `__mul__` -/

theorem wf_taddCores (a b : List Core3)
    (hwa : wfFrom 1 a) (hwb : wfFrom 1 b)
    (hfa : foldCols 1 a = 1) (hfb : foldCols 1 b = 1)
    (hlen : a.length = b.length) (hne : a ≠ []) :
    wfFrom 1 (taddCores a b) ∧ foldCols 1 (taddCores a b) = 1 := by
  match a, b with
  | [], _ => exact absurd rfl hne
  | [c1], [] => simp at hlen
  | [c1], [c2] => exact ⟨⟨hwa.1, trivial⟩, hfa⟩
  | [c1], c2 :: c2' :: bs => simp at hlen
  | c1 :: c1' :: as, [] => simp at hlen
  | c1 :: c1' :: as, [c2] => simp at hlen
  | c1 :: c1' :: as, c2 :: c2' :: bs =>
    obtain ⟨hwz, _⟩ := wf_zip_block (c1 :: c1' :: as) (c2 :: c2' :: bs) 1 1 hlen hwa hwb
    have hzne : List.zipWith (fun c1 c2 => blockCore c1 c2 c1.s)
        (c1 :: c1' :: as) (c2 :: c2' :: bs) ≠ [] := by simp
    obtain ⟨hwh, _⟩ := wf_applyHead_sumDim0 _ (1 + 1) hwz hzne
    obtain ⟨hwl, hfl⟩ := wf_applyLast_sumDim2 _ 1 hwh
    refine ⟨hwl, hfl ?_⟩
    simp [applyHead]

theorem entry_taddCores (a b : List Core3) (ds : List ℕ)
    (hwa : wfFrom 1 a) (hwb : wfFrom 1 b)
    (hfa : foldCols 1 a = 1) (hfb : foldCols 1 b = 1)
    (hlen : a.length = b.length) (hdlen : ds.length = a.length)
    (hsh : fullShape a = fullShape b)
    (hds : List.Forall₂ (fun (d : ℕ) (c : Core3) => d < c.s) ds a)
    (hne : a ≠ []) :
    entry (taddCores a b) ds = entry a ds + entry b ds := by
  match a, b, ds, hds with
  | [], _, _, _ => exact absurd rfl hne
  | [c1], [], _, _ => simp at hlen
  | [c1], c2 :: c2' :: bs, _, _ => simp at hlen
  | c1 :: c1' :: as, [], _, _ => simp at hlen
  | c1 :: c1' :: as, [c2], _, _ => simp at hlen
  | [c1], [c2], [d], List.Forall₂.cons hd _ =>
    have e1 : c1.r1 = 1 := hwa.1
    have e2 : c2.r1 = 1 := hwb.1
    have e3 : c1.r2 = 1 := hfa
    have e4 : c2.r2 = 1 := hfb
    have e5 : c1.s = c2.s := by
      have : ([c1.s] : List ℕ) = [c2.s] := hsh
      injection this
    show evalstep e0 (coreAddEntrywise c1 c2) d 0
      = evalstep e0 c1 d 0 + evalstep e0 c2 d 0
    show (∑ j ∈ Finset.range ((coreAddEntrywise c1 c2).r1),
        e0 j * (coreAddEntrywise c1 c2).dat
          (j * ((coreAddEntrywise c1 c2).s * (coreAddEntrywise c1 c2).r2)
            + d * (coreAddEntrywise c1 c2).r2 + 0)) = _
    have hred : ∀ j, (coreAddEntrywise c1 c2).dat
          (j * ((coreAddEntrywise c1 c2).s * (coreAddEntrywise c1 c2).r2)
            + d * (coreAddEntrywise c1 c2).r2 + 0)
        = c1.dat (j * (c1.s * c1.r2) + d * c1.r2 + 0)
          + c2.dat (j * (c1.s * c1.r2) + d * c1.r2 + 0) := fun j => rfl
    calc (∑ j ∈ Finset.range ((coreAddEntrywise c1 c2).r1),
          e0 j * (coreAddEntrywise c1 c2).dat
            (j * ((coreAddEntrywise c1 c2).s * (coreAddEntrywise c1 c2).r2)
              + d * (coreAddEntrywise c1 c2).r2 + 0))
        = ∑ j ∈ Finset.range c1.r1,
            (e0 j * c1.dat (j * (c1.s * c1.r2) + d * c1.r2 + 0)
              + e0 j * c2.dat (j * (c1.s * c1.r2) + d * c1.r2 + 0)) := by
          refine Finset.sum_congr rfl fun j _ => ?_
          rw [hred j, Rat.mul_add]
      _ = (∑ j ∈ Finset.range c1.r1, e0 j * c1.dat (j * (c1.s * c1.r2) + d * c1.r2 + 0))
          + ∑ j ∈ Finset.range c1.r1, e0 j * c2.dat (j * (c1.s * c1.r2) + d * c1.r2 + 0) :=
          Finset.sum_add_distrib
      _ = evalstep e0 c1 d 0 + evalstep e0 c2 d 0 := by
          congr 1
          show _ = ∑ j ∈ Finset.range c2.r1,
            e0 j * c2.dat (j * (c2.s * c2.r2) + d * c2.r2 + 0)
          rw [e1, e2, Finset.sum_range_one, Finset.sum_range_one, e3, e4, e5]
  | c1 :: c1' :: as, c2 :: c2' :: bs, d :: ds, List.Forall₂.cons hd hds =>
    show evalChain
        (applyLast sumDim2
          (List.zipWith (fun c1 c2 => blockCore c1 c2 c1.s) (c1' :: as) (c2' :: bs)))
        (evalstep e0 (sumDim0 (blockCore c1 c2 c1.s)) d) ds 0
      = evalChain (c1' :: as) (evalstep e0 c1 d) ds 0
        + evalChain (c2' :: bs) (evalstep e0 c2 d) ds 0
    have hlen' : (c1' :: as).length = (c2' :: bs).length := by simpa using hlen
    obtain ⟨hwz, _⟩ := wf_zip_block (c1' :: as) (c2' :: bs) c1.r2 c2.r2 hlen' hwa.2 hwb.2
    obtain ⟨hwzl, hfzl⟩ := wf_applyLast_sumDim2 _ (c1.r2 + c2.r2) hwz
    have hstep : ∀ k', k' < c1.r2 + c2.r2 →
        evalstep e0 (sumDim0 (blockCore c1 c2 c1.s)) d k'
          = vcat c1.r2 (evalstep e0 c1 d) (evalstep e0 c2 d) k' := by
      intro k' hk'
      exact evalstep_head_block c1 c2 d k' hwa.1 hwb.1 hd hk'
    have hlen2 : ds.length
        = (applyLast sumDim2 (List.zipWith (fun c1 c2 => blockCore c1 c2 c1.s)
            (c1' :: as) (c2' :: bs))).length := by
      rw [applyLast_length, List.length_zipWith, ← hlen']
      rw [show ((c1' :: as).length ⊓ (c1' :: as).length) = (c1' :: as).length from Nat.min_self _]
      simpa using hdlen
    rw [evalChain_congr _ (c1.r2 + c2.r2) _ _ ds 0 hwzl hlen2 hstep
      (by rw [hfzl (by simp)]; exact Nat.one_pos)]
    exact evalChain_block_last (c1' :: as) (c2' :: bs) ds c1.r2 c2.r2
      (evalstep e0 c1 d) (evalstep e0 c2 d) hlen' (by simpa using hdlen)
      hwa.2 hwb.2 hds hfa hfb (by simp)

theorem entry_tmulCores (a b : List Core3) (ds : List ℕ)
    (hwa : wfFrom 1 a) (hwb : wfFrom 1 b)
    (hfa : foldCols 1 a = 1) (hfb : foldCols 1 b = 1)
    (hlen : a.length = b.length) (hdlen : ds.length = a.length)
    (hds : List.Forall₂ (fun (d : ℕ) (c : Core3) => d < c.s) ds a) :
    entry (List.zipWith core_kron a b) ds = entry a ds * entry b ds := by
  obtain ⟨hwz, hfz⟩ := wf_zip_kron a b 1 1 hlen hwa hwb
  have hzl : (List.zipWith core_kron a b).length = a.length := by
    rw [List.length_zipWith, ← hlen]
    exact Nat.min_self _
  have he0 : ∀ j, j < (1 : ℕ) * 1 → e0 j = vkron 1 e0 e0 j := by
    intro j _
    show e0 j = e0 (j / 1) * e0 (j % 1)
    rw [Nat.div_one, Nat.mod_one, show (e0 0 : ℚ) = 1 from rfl, Rat.mul_one]
  have hbound : (0 : ℕ) < foldCols (1 * 1) (List.zipWith core_kron a b) := by
    rw [hfz, hfa, hfb]
    exact Nat.one_pos
  show evalChain (List.zipWith core_kron a b) e0 ds 0 = _
  rw [evalChain_congr _ (1 * 1) e0 (vkron 1 e0 e0) ds 0 hwz (by rw [hzl]; exact hdlen)
    he0 hbound]
  rw [evalChain_kron a b ds 1 1 e0 e0 0 hlen hdlen hwa hwb hds
    (by rw [hfa, hfb]; exact Nat.one_pos)]
  show evalChain a e0 ds (0 / foldCols 1 b) * evalChain b e0 ds (0 % foldCols 1 b) = _
  rw [Nat.zero_div, Nat.zero_mod]
  rfl

/-- Flat materialization of a valid chain with known shape, expressed
through the entrywise semantics. -/
theorem fullMat_flat_of_entry (cs : List Core3) (shape : List ℕ) (i : ℕ)
    (hsh : cs.map (·.s) = shape) (hpos : ∀ s ∈ shape, 0 < s)
    (hwf : wfFrom 1 cs) (hflast : foldCols 1 cs = 1) (hi : i < shape.prod) :
    (fullMat cs).dat i = entry cs (unflatten shape i) := by
  have hds : List.Forall₂ (· < ·) (unflatten shape i) shape := unflatten_lt shape i hpos hi
  have h := fullMat_entry cs (unflatten shape i) hwf
    (digits_of_cores cs shape _ hsh hds) hflast
  rw [hsh, flatten_unflatten shape i hi] at h
  exact h

/-- Entry of a dense-constructed tensor at a valid multi-index. -/
theorem fromDense_entry (shape : List ℕ) (A : ℕ → ℚ)
    (hpos : ∀ s ∈ shape, 0 < s) (hne : shape ≠ []) (ds : List ℕ)
    (hds : List.Forall₂ (· < ·) ds shape) :
    entry (fromDense shape A) ds = A (flatten shape ds) := by
  obtain ⟨hsh, hdat⟩ := fromDense_full shape A hpos hne
  obtain ⟨hwf, hflast⟩ := fromDense_wf shape A hpos hne
  have hlt : flatten shape ds < shape.prod := flatten_lt shape ds hds
  have h := fullMat_entry (fromDense shape A) ds hwf
    (digits_of_cores _ shape _ hsh hds) hflast
  rw [show (fromDense shape A).map (·.s) = shape from hsh] at h
  rw [← h]
  exact hdat _ hlt

/-- **C3.** For dense arrays `A`, `B` of equal shape, materializing
`network(A) + network(B)` gives the elementwise sum `A + B`, and
materializing `network(A) * network(B)` gives the elementwise product
`A * B`; tensors of differing logical shape make both operators fail with
the shape-mismatch `ValueError` instead. -/
theorem tensor_add_mul_correct (shape : List ℕ) (A B : ℕ → ℚ)
    (hpos : ∀ s ∈ shape, 0 < s) (hne : shape ≠ []) :
    (∃ r, tadd (fromDense shape A) (fromDense shape B) = .ok r ∧
      fullShape r = shape ∧
      ∀ i, i < shape.prod → (fullMat r).dat i = A i + B i) ∧
    (∃ r, tmul (fromDense shape A) (fromDense shape B) = .ok r ∧
      fullShape r = shape ∧
      ∀ i, i < shape.prod → (fullMat r).dat i = A i * B i) ∧
    (∀ s t : List Core3, fullShape s ≠ fullShape t →
      (∃ e, tadd s t = .error e) ∧ (∃ e, tmul s t = .error e)) := by
  obtain ⟨hshA, hdatA⟩ := fromDense_full shape A hpos hne
  obtain ⟨hshB, hdatB⟩ := fromDense_full shape B hpos hne
  obtain ⟨hwfA, hlastA⟩ := fromDense_wf shape A hpos hne
  obtain ⟨hwfB, hlastB⟩ := fromDense_wf shape B hpos hne
  have hsheq : fullShape (fromDense shape A) = fullShape (fromDense shape B) := by
    rw [hshA, hshB]
  have hlenA : (fromDense shape A).length = shape.length := by
    conv_rhs => rw [← hshA]
    exact (List.length_map _ _).symm
  have hlenB : (fromDense shape B).length = shape.length := by
    conv_rhs => rw [← hshB]
    exact (List.length_map _ _).symm
  have hlen : (fromDense shape A).length = (fromDense shape B).length := by
    rw [hlenA, hlenB]
  have hneA : fromDense shape A ≠ [] := by
    intro h
    rw [h] at hshA
    exact hne (by simpa [fullShape] using hshA.symm)
  refine ⟨?_, ?_, ?_⟩
  · -- addition
    refine ⟨taddCores (fromDense shape A) (fromDense shape B), ?_, ?_, ?_⟩
    · unfold tadd
      rw [if_pos hsheq]
    · show (taddCores _ _).map (·.s) = shape
      rw [shapes_taddCores _ _ hlen]
      exact hshA
    · intro i hi
      obtain ⟨hwfR, hlastR⟩ := wf_taddCores _ _ hwfA hwfB hlastA hlastB hlen hneA
      have hshR : (taddCores (fromDense shape A) (fromDense shape B)).map (·.s) = shape := by
        rw [shapes_taddCores _ _ hlen]; exact hshA
      rw [fullMat_flat_of_entry _ shape i hshR hpos hwfR hlastR hi]
      have hdig : List.Forall₂ (· < ·) (unflatten shape i) shape :=
        unflatten_lt shape i hpos hi
      have hdlen : (unflatten shape i).length = (fromDense shape A).length := by
        rw [unflatten_length, hlenA]
      rw [entry_taddCores _ _ _ hwfA hwfB hlastA hlastB hlen hdlen hsheq
        (digits_of_cores _ shape _ hshA hdig) hneA]
      rw [fromDense_entry shape A hpos hne _ hdig, fromDense_entry shape B hpos hne _ hdig,
        flatten_unflatten shape i hi]
  · -- multiplication
    refine ⟨List.zipWith core_kron (fromDense shape A) (fromDense shape B), ?_, ?_, ?_⟩
    · unfold tmul
      rw [if_pos hsheq]
    · show (List.zipWith core_kron _ _).map (·.s) = shape
      rw [shapes_zip_kron _ _ hlen]
      exact hshA
    · intro i hi
      obtain ⟨hwfZ, hfZ⟩ := wf_zip_kron _ _ 1 1 hlen hwfA hwfB
      have hshR : (List.zipWith core_kron (fromDense shape A) (fromDense shape B)).map (·.s)
          = shape := by
        rw [shapes_zip_kron _ _ hlen]; exact hshA
      have hlastZ : foldCols 1 (List.zipWith core_kron (fromDense shape A) (fromDense shape B))
          = 1 := by
        have : foldCols (1 * 1) (List.zipWith core_kron (fromDense shape A) (fromDense shape B))
            = 1 := by rw [hfZ, hlastA, hlastB]
        exact this
      rw [fullMat_flat_of_entry _ shape i hshR hpos (by exact hwfZ) hlastZ hi]
      have hdig : List.Forall₂ (· < ·) (unflatten shape i) shape :=
        unflatten_lt shape i hpos hi
      have hdlen : (unflatten shape i).length = (fromDense shape A).length := by
        rw [unflatten_length, hlenA]
      rw [entry_tmulCores _ _ _ hwfA hwfB hlastA hlastB hlen hdlen
        (digits_of_cores _ shape _ hshA hdig)]
      rw [fromDense_entry shape A hpos hne _ hdig, fromDense_entry shape B hpos hne _ hdig,
        flatten_unflatten shape i hi]
  · -- shape mismatch
    intro s t hst
    constructor
    · refine ⟨"Element-wise addition requires tensors to have equal shape", ?_⟩
      unfold tadd
      rw [if_neg hst]
    · refine ⟨"Element-wise multiplication requires tensors to have equal shape", ?_⟩
      unfold tmul
      rw [if_neg hst]

/-- Witness for C3 at `A = [[0, 1], [2, 3]]`, `B = [[1, 1], [1, 1]]`. -/
theorem tensor_add_mul_correct_witness :
    (∃ r, tadd (fromDense [2, 2] (fun i => (i : ℚ))) (fromDense [2, 2] (fun _ => (1 : ℚ)))
        = .ok r ∧ fullShape r = [2, 2] ∧
      ∀ i, i < ([2, 2] : List ℕ).prod → (fullMat r).dat i = (i : ℚ) + 1) ∧
    (∃ r, tmul (fromDense [2, 2] (fun i => (i : ℚ))) (fromDense [2, 2] (fun _ => (1 : ℚ)))
        = .ok r ∧ fullShape r = [2, 2] ∧
      ∀ i, i < ([2, 2] : List ℕ).prod → (fullMat r).dat i = (i : ℚ) * 1) ∧
    (∀ s t : List Core3, fullShape s ≠ fullShape t →
      (∃ e, tadd s t = .error e) ∧ (∃ e, tmul s t = .error e)) :=
  tensor_add_mul_correct [2, 2] (fun i => (i : ℚ)) (fun _ => (1 : ℚ)) (by decide) (by decide)

/-! ### Approximate equality (`__eq__`, `__ne__`), claim C10

`__eq__` computes `(self - other).norm() <= 1e-14`.  `tn.norm` is referenced
but not under `src/`; per the spec it is the Frobenius norm of the
network's content.  To stay inside exact rationals we compare squared
norms: for a nonnegative norm, `norm <= 1e-14` iff `norm^2 <= (1e-14)^2`. -/

/-- Sum of `f` over all multi-indices of an array of shape `ss`. -/
def totalSum : List ℕ → (List ℕ → ℚ) → ℚ
  | [], f => f []
  | s :: ss, f => ∑ a ∈ Finset.range s, totalSum ss (fun ds => f (a :: ds))

/-- Modelled from the spec: `tn.norm` (not under `src/`) is the Frobenius
norm of the materialized content; its square is the sum of the squared
dense entries. -/
def normsqT (t : List Core3) : ℚ :=
  totalSum (fullShape t) (fun ds => entry t ds ^ 2)

/-- `Tensor.__eq__`: `(self - other).norm() <= 1e-14`, with the comparison
taken on squared norms (`(1e-14)^2 = 10⁻²⁸`) to remain in exact rationals.
The subtraction raises the shape-mismatch `ValueError` of `__add__` when
the shapes differ, hence the `Except`. -/
def teq (a b : List Core3) : Except String Bool :=
  (tsub a b).map (fun d => decide (normsqT d ≤ 1 / 10 ^ 28))

/-- `Tensor.__ne__`: `not self == other`. -/
def tne (a b : List Core3) : Except String Bool :=
  (teq a b).map (fun x => !x)

theorem evalstep_smul (q : ℚ) (v : ℕ → ℚ) (c : Core3) (a k : ℕ) :
    evalstep (fun j => q * v j) c a k = q * evalstep v c a k := by
  unfold evalstep
  rw [Finset.mul_sum]
  refine Finset.sum_congr rfl fun j _ => ?_
  ring

theorem evalChain_smul (cs : List Core3) : ∀ (q : ℚ) (v : ℕ → ℚ) (ds : List ℕ) (k : ℕ),
    evalChain cs (fun j => q * v j) ds k = q * evalChain cs v ds k := by
  induction cs with
  | nil => intro q v ds k; rfl
  | cons c cs ih =>
    intro q v ds k
    match ds with
    | [] => rfl
    | d :: ds =>
      show evalChain cs (evalstep (fun j => q * v j) c d) ds k = _
      calc evalChain cs (evalstep (fun j => q * v j) c d) ds k
          = evalChain cs (fun j => q * evalstep v c d j) ds k := by
            congr 1
            funext j
            exact evalstep_smul q v c d j
        _ = q * evalChain cs (evalstep v c d) ds k := ih q _ ds k

/-- Scalar multiplication scales every dense entry. -/
theorem entry_smul (q : ℚ) (t : List Core3) (ds : List ℕ) (hne : t ≠ [])
    (hdlen : ds.length = t.length) :
    entry (smul q t) ds = q * entry t ds := by
  match t, ds with
  | c :: cs, [] => simp at hdlen
  | c :: cs, d :: ds =>
    show evalChain cs (evalstep e0 ⟨c.r1, c.s, c.r2, fun idx => q * c.dat idx⟩ d) ds 0
      = q * evalChain cs (evalstep e0 c d) ds 0
    calc evalChain cs (evalstep e0 ⟨c.r1, c.s, c.r2, fun idx => q * c.dat idx⟩ d) ds 0
        = evalChain cs (fun k => q * evalstep e0 c d k) ds 0 := by
          congr 1
          funext k
          show (∑ j ∈ Finset.range c.r1, e0 j * (q * c.dat _)) = _
          rw [show evalstep e0 c d k = ∑ j ∈ Finset.range c.r1,
            e0 j * c.dat (j * (c.s * c.r2) + d * c.r2 + k) from rfl, Finset.mul_sum]
          refine Finset.sum_congr rfl fun j _ => ?_
          ring
      _ = q * evalChain cs (evalstep e0 c d) ds 0 := evalChain_smul cs q _ ds 0

theorem shapes_smul (q : ℚ) (t : List Core3) :
    (smul q t).map (·.s) = t.map (·.s) := by
  match t with
  | [] => rfl
  | c :: cs => rfl

theorem wf_smul (q : ℚ) (t : List Core3) (r : ℕ) (hwf : wfFrom r t) :
    wfFrom r (smul q t) ∧ ∀ r', foldCols r' (smul q t) = foldCols r' t := by
  match t with
  | [] => exact ⟨trivial, fun _ => rfl⟩
  | c :: cs => exact ⟨⟨hwf.1, hwf.2⟩, fun _ => rfl⟩

theorem length_smul (q : ℚ) (t : List Core3) : (smul q t).length = t.length := by
  match t with
  | [] => rfl
  | c :: cs => rfl

theorem totalSum_congr (ss : List ℕ) : ∀ (f g : List ℕ → ℚ),
    (∀ ds, List.Forall₂ (· < ·) ds ss → f ds = g ds) →
    totalSum ss f = totalSum ss g := by
  induction ss with
  | nil => intro f g h; exact h [] List.Forall₂.nil
  | cons s ss ih =>
    intro f g h
    refine Finset.sum_congr rfl fun a ha => ?_
    refine ih _ _ fun ds hds => ?_
    exact h (a :: ds) (List.Forall₂.cons (Finset.mem_range.mp ha) hds)

/-- **C10.** For networks of equal logical shape, `s == t` returns the plain
boolean "Frobenius norm of `s - t` is at most `1e-14`" (the tolerance test
on the squared norm of the entrywise difference), not a network, and
`s != t` returns its negation. -/
theorem eq_is_norm_tolerance_test (a b : List Core3)
    (hwa : wfFrom 1 a) (hwb : wfFrom 1 b)
    (hfa : foldCols 1 a = 1) (hfb : foldCols 1 b = 1)
    (hsh : fullShape a = fullShape b) (hne : a ≠ []) :
    teq a b = .ok (decide (totalSum (fullShape a)
        (fun ds => (entry a ds - entry b ds) ^ 2) ≤ 1 / 10 ^ 28)) ∧
    tne a b = .ok (!decide (totalSum (fullShape a)
        (fun ds => (entry a ds - entry b ds) ^ 2) ≤ 1 / 10 ^ 28)) := by
  have hbne : b ≠ [] := by
    intro h
    rw [h] at hsh
    exact hne (by simpa [fullShape] using hsh)
  have hshs : fullShape a = fullShape (smul (-1) b) := by
    rw [hsh]
    exact (shapes_smul _ b).symm
  have hsub : tsub a b = .ok (taddCores a (smul (-1) b)) := by
    unfold tsub tadd
    rw [if_pos hshs]
  have hlen : a.length = (smul (-1) b).length := by
    rw [length_smul]
    have h1 : (fullShape a).length = (fullShape b).length := by rw [hsh]
    simpa [fullShape] using h1
  obtain ⟨hwsb, hfsb⟩ := wf_smul (-1) b 1 hwb
  have hfsb1 : foldCols 1 (smul (-1) b) = 1 := by rw [hfsb 1]; exact hfb
  have hkey : normsqT (taddCores a (smul (-1) b))
      = totalSum (fullShape a) (fun ds => (entry a ds - entry b ds) ^ 2) := by
    unfold normsqT
    have hshr : fullShape (taddCores a (smul (-1) b)) = fullShape a :=
      shapes_taddCores _ _ hlen
    rw [hshr]
    refine totalSum_congr _ _ _ fun ds hds => ?_
    have hdlen : ds.length = a.length := by
      have h1 := List.Forall₂.length_eq hds
      simpa [fullShape] using h1
    rw [entry_taddCores a (smul (-1) b) ds hwa hwsb hfa hfsb1 hlen hdlen hshs
      (digits_of_cores a (fullShape a) ds rfl hds) hne]
    have hlab : a.length = b.length := by
      simpa [fullShape] using congrArg List.length hsh
    rw [entry_smul (-1) b ds hbne (by rw [hdlen, hlab])]
    ring
  constructor
  · show (tsub a b).map _ = _
    rw [hsub]
    show Except.ok (decide (normsqT (taddCores a (smul (-1) b)) ≤ 1 / 10 ^ 28)) = _
    rw [hkey]
  · show ((tsub a b).map _).map _ = _
    rw [hsub]
    show Except.ok (!decide (normsqT (taddCores a (smul (-1) b)) ≤ 1 / 10 ^ 28)) = _
    rw [hkey]

/-- Witness for C10 at two concrete unequal rank-1 tensors. -/
theorem eq_is_norm_tolerance_test_witness :
    teq (fromDense [2] (fun i => (i : ℚ))) (fromDense [2] (fun _ => (0 : ℚ)))
        = .ok (decide (totalSum (fullShape (fromDense [2] (fun i => (i : ℚ))))
        (fun ds => (entry (fromDense [2] (fun i => (i : ℚ))) ds
          - entry (fromDense [2] (fun _ => (0 : ℚ))) ds) ^ 2) ≤ 1 / 10 ^ 28)) ∧
    tne (fromDense [2] (fun i => (i : ℚ))) (fromDense [2] (fun _ => (0 : ℚ)))
        = .ok (!decide (totalSum (fullShape (fromDense [2] (fun i => (i : ℚ))))
        (fun ds => (entry (fromDense [2] (fun i => (i : ℚ))) ds
          - entry (fromDense [2] (fun _ => (0 : ℚ))) ds) ^ 2) ≤ 1 / 10 ^ 28)) :=
  eq_is_norm_tolerance_test (fromDense [2] (fun i => (i : ℚ))) (fromDense [2] (fun _ => (0 : ℚ)))
    (fromDense_wf [2] _ (by decide) (by decide)).1
    (fromDense_wf [2] _ (by decide) (by decide)).1
    (fromDense_wf [2] _ (by decide) (by decide)).2
    (fromDense_wf [2] _ (by decide) (by decide)).2
    (by rw [(fromDense_full [2] _ (by decide) (by decide)).1,
      (fromDense_full [2] _ (by decide) (by decide)).1])
    (by
      intro h
      have := (fromDense_full [2] (fun i => (i : ℚ)) (by decide) (by decide)).1
      rw [h] at this
      exact absurd this (by decide))

/-! ### `round` and its error-budget composition (claim C5)

`Tensor.round` composes `round_tt`, `tn.relative_error` and `round_tucker`.
The two rounding engines are separately defined methods whose own behaviour
is not at issue here, so they enter as opaque function parameters; the
relative error is embedded from `metrics.py` (`relative_error` via `dot`).
`torch.sqrt` is an external floating primitive and enters as the parameter
`rsqrt`; the control-flow claim does not depend on its values. -/

/-- Flat content of `torch.ones`. -/
def onesF : ℕ → ℚ := fun _ => 1

/-- One iteration of the `tn.dot` chain loop (factor-free tensors):
`Ucore = einsum('ijk,ka->ija', core1, Lprod)` followed by
`Lprod = mm(Ucore.reshape([r1, -1]), core2.reshape([r1', -1]).t())`. -/
def dotStep (L : Mat) (c1 c2 : Core3) : Mat :=
  let Ucore : ℕ → ℚ := fun idx =>
    ∑ k ∈ Finset.range c1.r2,
      c1.dat (idx / (c1.s * L.cols) * (c1.s * c1.r2) + idx / L.cols % c1.s * c1.r2 + k) *
        L.dat (k * L.cols + idx % L.cols)
  ⟨c1.r1, c2.r1, fun p =>
    ∑ m ∈ Finset.range (c1.s * L.cols),
      Ucore (p / c2.r1 * (c1.s * L.cols) + m) *
        c2.dat (p % c2.r1 * (c2.s * c2.r2) + m)⟩

/-- `tn.dot` between two factor-free tensors of equal order: fold the modes
from the last one down to the first, starting from `torch.ones([1, 1])`,
and squeeze the final `1 × 1` product to a scalar. -/
def dotT (a b : List Core3) : ℚ :=
  ((List.zip a b).foldr (fun p L => dotStep L p.1 p.2) ⟨1, 1, onesF⟩).dat 0

/-- `tn.relative_error(gt, approx)` for two compressed tensors:
`sqrt((dot(gt,gt) + dot(approx,approx) - 2*dot(gt,approx)).clamp(0)) /
sqrt(dot(gt,gt).clamp(0))`; `rsqrt` stands for the external `torch.sqrt`. -/
def relErr (rsqrt : ℚ → ℚ) (gt approx : List Core3) : ℚ :=
  rsqrt (max (dotT gt gt + dotT approx approx - 2 * dotT gt approx) 0) /
    rsqrt (max (dotT gt gt) 0)

/-- `Tensor.round(eps)`: clone, run `round_tt(eps)` in place, measure the
relative error actually reached against the clone, and if it is strictly
below `eps` run `round_tucker` with the residual budget
`(1+eps)/(1+reached) - 1`.  `rtt` and `rtk` are the two rounding engines. -/
def roundT (rtt rtk : ℚ → List Core3 → List Core3) (rsqrt : ℚ → ℚ)
    (eps : ℚ) (t : List Core3) : List Core3 :=
  let copy := t
  let t' := rtt eps t
  let reached := relErr rsqrt copy t'
  if reached < eps then rtk ((1 + eps) / (1 + reached) - 1) t' else t'

/-- Instrumented variant of `roundT` that also reports the budget passed to
`round_tucker`, `none` when Tucker rounding is skipped. -/
def roundTraced (rtt rtk : ℚ → List Core3 → List Core3) (rsqrt : ℚ → ℚ)
    (eps : ℚ) (t : List Core3) : List Core3 × Option ℚ :=
  let t' := rtt eps t
  let reached := relErr rsqrt t t'
  if reached < eps then
    (rtk ((1 + eps) / (1 + reached) - 1) t', some ((1 + eps) / (1 + reached) - 1))
  else (t', none)

/-- **C5.** `round(eps)` clones the input, runs `round_tt(eps)`, measures
the realized relative error between the clone and the result, and invokes
`round_tucker` — with budget `(1+eps)/(1+reached) - 1` — exactly when that
realized error is strictly below `eps`; otherwise no Tucker rounding
happens and the `round_tt` output is returned unchanged. -/
theorem round_budget_composition (rtt rtk : ℚ → List Core3 → List Core3)
    (rsqrt : ℚ → ℚ) (eps : ℚ) (t : List Core3) (b : ℚ) :
    (roundTraced rtt rtk rsqrt eps t).1 = roundT rtt rtk rsqrt eps t ∧
    ((roundTraced rtt rtk rsqrt eps t).2 = some b ↔
      relErr rsqrt t (rtt eps t) < eps ∧
        b = (1 + eps) / (1 + relErr rsqrt t (rtt eps t)) - 1) := by
  by_cases h : relErr rsqrt t (rtt eps t) < eps
  · refine ⟨by simp [roundTraced, roundT, h], ?_⟩
    simp only [roundTraced, if_pos h]
    constructor
    · intro hb
      exact ⟨h, (Option.some.inj hb).symm⟩
    · rintro ⟨-, hb⟩
      rw [hb]
  · refine ⟨by simp [roundTraced, roundT, h], ?_⟩
    simp only [roundTraced, if_neg h]
    constructor
    · intro hb
      exact absurd hb (by simp)
    · rintro ⟨hc, -⟩
      exact absurd hc h

/-! ### Orthogonalization (claim C4)

The orthogonalization sweeps run on a tensor with optional Tucker factors.
The external `torch.qr` enters as a parameter `qr : Mat → Mat × Mat`; the
claim assumes only its reconstruction property `Q·R = input` (plus the
shape contract of a reduced QR).  Cores here are TT-form (three axes): the
CP branch of `left_orthogonalize` is the subject of claim C6. -/

/-- Placeholder core used for out-of-range list reads (never reached under
the stated index bounds). -/
def dummyCore : Core3 := ⟨0, 0, 0, fun _ => 0⟩

/-- A tensor network: TT cores plus parallel optional Tucker factors. -/
structure TensorU where
  cores : List Core3
  us : List (Option Mat)

/-- `tn.left_unfolding(core)`: the `[r1*s, r2]` matrix view (flat no-op). -/
def leftUnfolding (c : Core3) : Mat := ⟨c.r1 * c.s, c.r2, c.dat⟩

/-- `tn.right_unfolding(core)`: the `[r1, s*r2]` matrix view (flat no-op). -/
def rightUnfolding (c : Core3) : Mat := ⟨c.r1, c.s * c.r2, c.dat⟩

/-- `M.permute(1, 0)`: the transposed matrix. -/
def transposeM (M : Mat) : Mat :=
  ⟨M.cols, M.rows, fun idx => M.dat (idx % M.rows * M.cols + idx / M.rows)⟩

/-- `torch.einsum('ijk,aj->iak', core, V)`: contract a matrix into the
middle (free) axis of a core; used by `factor_orthogonalize` (with the `R`
factor) and by `full_tucker` (with the factor `U`). -/
def modeContractR (V : Mat) (c : Core3) : Core3 :=
  ⟨c.r1, V.rows, c.r2, fun idx =>
    ∑ j ∈ Finset.range c.s,
      c.dat (idx / (V.rows * c.r2) * (c.s * c.r2) + j * c.r2 + idx % c.r2) *
        V.dat (idx / c.r2 % V.rows * V.cols + j)⟩

/-- Left-multiply a matrix into the leading rank axis of a core:
`reshape(mm(R, right_unfolding(core)), (R.rows, s, r2))`. -/
def rankLeftMul (R : Mat) (c : Core3) : Core3 :=
  ⟨R.rows, c.s, c.r2, mmulF R.cols (c.s * c.r2) R.dat c.dat⟩

/-- Right-multiply a matrix into the trailing rank axis of a core:
`reshape(mm(left_unfolding(core), L), (r1, s, L.cols))`. -/
def rankRightMul (c : Core3) (L : Mat) : Core3 :=
  ⟨c.r1, c.s, L.cols, mmulF c.r2 L.cols c.dat L.dat⟩

/-- `Tensor.factor_orthogonalize(mu)`: if a factor is present, QR it, keep
`Q` as the factor and push `R` into the core's free axis. -/
def factorOrthogonalize (qr : Mat → Mat × Mat) (mu : ℕ) (t : TensorU) : TensorU :=
  match t.us.getD mu none with
  | none => t
  | some U =>
    { cores := t.cores.set mu (modeContractR (qr U).2 (t.cores.getD mu dummyCore)),
      us := t.us.set mu (some (qr U).1) }

/-- `Tensor.left_orthogonalize(mu)` on TT-form cores: factor-orthogonalize,
then QR the left unfolding of core `mu`, keep `Q` (reshaped) as core `mu`
and push `R` into the right unfolding of core `mu+1`. -/
def leftOrthogonalizeU (qr : Mat → Mat × Mat) (mu : ℕ) (t : TensorU) : TensorU :=
  let t1 := factorOrthogonalize qr mu t
  let c := t1.cores.getD mu dummyCore
  let Q := (qr (leftUnfolding c)).1
  let R := (qr (leftUnfolding c)).2
  let cnext := t1.cores.getD (mu + 1) dummyCore
  { cores := (t1.cores.set mu ⟨c.r1, c.s, Q.cols, Q.dat⟩).set (mu + 1) (rankLeftMul R cnext),
    us := t1.us }

/-- `Tensor.right_orthogonalize(mu)`: factor-orthogonalize, QR the
transposed right unfolding of core `mu` (torch lacks an RQ decomposition),
transpose back, keep `Qᵗ` (reshaped) as core `mu` and push `L = Rᵗ` into
the left unfolding of core `mu-1`. -/
def rightOrthogonalizeU (qr : Mat → Mat × Mat) (mu : ℕ) (t : TensorU) : TensorU :=
  let t1 := factorOrthogonalize qr mu t
  let c := t1.cores.getD mu dummyCore
  let Q0 := (qr (transposeM (rightUnfolding c))).1
  let L := transposeM (qr (transposeM (rightUnfolding c))).2
  let cprev := t1.cores.getD (mu - 1) dummyCore
  { cores := (t1.cores.set mu ⟨(transposeM Q0).rows, c.s, c.r2, (transposeM Q0).dat⟩).set
      (mu - 1) (rankRightMul cprev L),
    us := t1.us }

/-- `Tensor.orthogonalize(mu)`: left-orthogonalize modes `0 .. mu-1`, then
right-orthogonalize modes `ndim-1` down to `mu+1`. -/
def orthogonalizeU (qr : Mat → Mat × Mat) (mu : ℕ) (t : TensorU) : TensorU :=
  let t1 := (List.range mu).foldl (fun acc i => leftOrthogonalizeU qr i acc) t
  ((List.range (t.cores.length - 1 - mu)).map (fun j => t.cores.length - 1 - j)).foldl
    (fun acc i => rightOrthogonalizeU qr i acc) t1

/-- `Tensor.full_tucker()`: contract each present factor into its core. -/
def fullTuckerCores (t : TensorU) : List Core3 :=
  List.zipWith (fun c u => match u with | none => c | some U => modeContractR U c)
    t.cores t.us

/-- `Tensor.full()` for a tensor with factors: decompress the factors, then
contract the chain. -/
def fullU (t : TensorU) : Mat := fullMat (fullTuckerCores t)

/-- `Tensor.shape`: per mode, the factor's row count when present, else the
core's free dimension. -/
def shapeU (t : TensorU) : List ℕ :=
  List.zipWith (fun (c : Core3) u => match u with | none => c.s | some (U : Mat) => U.rows)
    t.cores t.us

/-- One mode of `full_tucker`: contract the optional factor into the core. -/
def contractOpt (u : Option Mat) (c : Core3) : Core3 :=
  match u with
  | none => c
  | some U => modeContractR U c

theorem fullTuckerCores_eq (t : TensorU) :
    fullTuckerCores t = List.zipWith (fun c u => contractOpt u c) t.cores t.us := rfl

theorem contractOpt_r1 (u : Option Mat) (c : Core3) : (contractOpt u c).r1 = c.r1 := by
  cases u <;> rfl

theorem contractOpt_r2 (u : Option Mat) (c : Core3) : (contractOpt u c).r2 = c.r2 := by
  cases u <;> rfl

/-- Row vector times matrix (row-major), the workhorse for pushing factors
along the chain. -/
def uR (v : ℕ → ℚ) (M : Mat) : ℕ → ℚ :=
  fun m => ∑ j ∈ Finset.range M.rows, v j * M.dat (j * M.cols + m)

theorem uR_congr (v w : ℕ → ℚ) (M : Mat) (h : ∀ j, j < M.rows → v j = w j) (m : ℕ) :
    uR v M m = uR w M m := by
  unfold uR
  exact Finset.sum_congr rfl fun j hj => by rw [h j (Finset.mem_range.mp hj)]

theorem uR_sum (n : ℕ) (g : ℕ → ℕ → ℚ) (M : Mat) (m : ℕ) :
    uR (fun j => ∑ x ∈ Finset.range n, g x j) M m
      = ∑ x ∈ Finset.range n, uR (g x) M m := by
  unfold uR
  rw [Finset.sum_comm]
  refine Finset.sum_congr rfl fun x _ => ?_
  rw [Finset.sum_mul]

/-- Stepping against a factor-contracted core is a factor-weighted
combination of the steps against the raw core's slices. -/
theorem contract_slice (V : Mat) (c : Core3) (w : ℕ → ℚ) (a k : ℕ)
    (ha : a < V.rows) (hk : k < c.r2) :
    evalstep w (modeContractR V c) a k
      = ∑ j ∈ Finset.range c.s, V.dat (a * V.cols + j) * evalstep w c j k := by
  show (∑ i ∈ Finset.range ((modeContractR V c).r1), _) = _
  rw [show (modeContractR V c).r1 = c.r1 from rfl]
  have hterm : ∀ i ∈ Finset.range c.r1,
      w i * (modeContractR V c).dat
        (i * ((modeContractR V c).s * (modeContractR V c).r2) + a * (modeContractR V c).r2 + k)
        = ∑ j ∈ Finset.range c.s,
            V.dat (a * V.cols + j) * (w i * c.dat (i * (c.s * c.r2) + j * c.r2 + k)) := by
    intro i _
    rw [show ((modeContractR V c).s * (modeContractR V c).r2) = V.rows * c.r2 from rfl,
      show (modeContractR V c).r2 = c.r2 from rfl]
    obtain ⟨h1, h2, h3⟩ := core_offset_decode V.rows c.r2 i a k ha hk
    show w i * ∑ j ∈ Finset.range c.s,
        c.dat ((i * (V.rows * c.r2) + a * c.r2 + k) / (V.rows * c.r2) * (c.s * c.r2) + j * c.r2
          + (i * (V.rows * c.r2) + a * c.r2 + k) % c.r2) *
        V.dat ((i * (V.rows * c.r2) + a * c.r2 + k) / c.r2 % V.rows * V.cols + j) = _
    rw [h1, h2, h3, Finset.mul_sum]
    refine Finset.sum_congr rfl fun j _ => ?_
    ring
  rw [Finset.sum_congr rfl hterm, Finset.sum_comm]
  refine Finset.sum_congr rfl fun j _ => ?_
  rw [← Finset.mul_sum]
  rfl

/-- Stepping against `rankLeftMul R c` pushes `R` into the incoming vector. -/
theorem rankLeft_slice (R : Mat) (c : Core3) (w : ℕ → ℚ) (b k : ℕ)
    (hb : b < c.s) (hk : k < c.r2) (hRc : R.cols = c.r1) :
    evalstep w (rankLeftMul R c) b k = evalstep (uR w R) c b k := by
  have hlt : b * c.r2 + k < c.s * c.r2 := by
    calc b * c.r2 + k < b * c.r2 + c.r2 := by omega
      _ = (b + 1) * c.r2 := by ring
      _ ≤ c.s * c.r2 := Nat.mul_le_mul_right _ (by omega)
  show (∑ j ∈ Finset.range ((rankLeftMul R c).r1), _) = _
  rw [show (rankLeftMul R c).r1 = R.rows from rfl]
  have hterm : ∀ j ∈ Finset.range R.rows,
      w j * (rankLeftMul R c).dat
        (j * ((rankLeftMul R c).s * (rankLeftMul R c).r2) + b * (rankLeftMul R c).r2 + k)
        = ∑ m ∈ Finset.range R.cols,
            (w j * R.dat (j * R.cols + m)) * c.dat (m * (c.s * c.r2) + b * c.r2 + k) := by
    intro j _
    rw [show ((rankLeftMul R c).s * (rankLeftMul R c).r2) = c.s * c.r2 from rfl,
      show (rankLeftMul R c).r2 = c.r2 from rfl]
    show w j * mmulF R.cols (c.s * c.r2) R.dat c.dat (j * (c.s * c.r2) + b * c.r2 + k) = _
    unfold mmulF
    rw [show j * (c.s * c.r2) + b * c.r2 + k = (b * c.r2 + k) + j * (c.s * c.r2) by ring,
      Nat.add_mul_div_right _ _ (by omega : 0 < c.s * c.r2), Nat.add_mul_mod_self_right,
      Nat.div_eq_of_lt hlt, Nat.mod_eq_of_lt hlt, Nat.zero_add, Finset.mul_sum]
    refine Finset.sum_congr rfl fun m _ => ?_
    ring
  rw [Finset.sum_congr rfl hterm, Finset.sum_comm]
  show _ = ∑ m ∈ Finset.range c.r1, uR w R m * c.dat (m * (c.s * c.r2) + b * c.r2 + k)
  rw [show Finset.range c.r1 = Finset.range R.cols from by rw [hRc]]
  refine Finset.sum_congr rfl fun m _ => ?_
  rw [← Finset.sum_mul]
  rfl

/-- Stepping against `rankRightMul c L` then reading a column applies `L`
to the outgoing vector. -/
theorem rankRight_slice (c : Core3) (L : Mat) (w : ℕ → ℚ) (a m : ℕ)
    (ha : a < c.s) (hm : m < L.cols) (hLr : L.rows = c.r2) :
    evalstep w (rankRightMul c L) a m = uR (evalstep w c a) L m := by
  show (∑ i ∈ Finset.range ((rankRightMul c L).r1), _) = _
  rw [show (rankRightMul c L).r1 = c.r1 from rfl]
  have hterm : ∀ i ∈ Finset.range c.r1,
      w i * (rankRightMul c L).dat
        (i * ((rankRightMul c L).s * (rankRightMul c L).r2) + a * (rankRightMul c L).r2 + m)
        = ∑ j ∈ Finset.range c.r2,
            (w i * c.dat (i * (c.s * c.r2) + a * c.r2 + j)) * L.dat (j * L.cols + m) := by
    intro i _
    rw [show ((rankRightMul c L).s * (rankRightMul c L).r2) = c.s * L.cols from rfl,
      show (rankRightMul c L).r2 = L.cols from rfl]
    show w i * mmulF c.r2 L.cols c.dat L.dat (i * (c.s * L.cols) + a * L.cols + m) = _
    unfold mmulF
    rw [show i * (c.s * L.cols) + a * L.cols + m = m + (i * c.s + a) * L.cols by ring,
      Nat.add_mul_div_right _ _ (by omega : 0 < L.cols), Nat.add_mul_mod_self_right,
      Nat.div_eq_of_lt hm, Nat.mod_eq_of_lt hm, Nat.zero_add, Finset.mul_sum]
    refine Finset.sum_congr rfl fun j _ => ?_
    have : (i * c.s + a) * c.r2 + j = i * (c.s * c.r2) + a * c.r2 + j := by ring
    rw [this]
    ring
  rw [Finset.sum_congr rfl hterm, Finset.sum_comm]
  show (∑ j ∈ Finset.range c.r2, _) = ∑ j ∈ Finset.range L.rows, _
  rw [hLr]
  refine Finset.sum_congr rfl fun j _ => ?_
  rw [← Finset.sum_mul]
  rfl

theorem transposeM_dat (M : Mat) (i j : ℕ) (hj : j < M.rows) :
    (transposeM M).dat (i * M.rows + j) = M.dat (j * M.cols + i) := by
  show M.dat ((i * M.rows + j) % M.rows * M.cols + (i * M.rows + j) / M.rows) = _
  rw [Nat.add_comm (i * M.rows) j, Nat.add_mul_mod_self_right,
    Nat.add_mul_div_right _ _ (by omega : 0 < M.rows),
    Nat.mod_eq_of_lt hj, Nat.div_eq_of_lt hj, Nat.zero_add]

/-- The `Q` factor of the left-unfolding QR, reshaped back into a core and
then multiplied by `R`, reproduces the original core's slices. -/
theorem qrL_slice (qr : Mat → Mat × Mat)
    (hq2 : ∀ M, (qr M).1.cols = (qr M).2.rows)
    (hq3 : ∀ M, (qr M).2.cols = M.cols)
    (hrec : ∀ M p, p < M.rows * M.cols →
      mmulF (qr M).1.cols M.cols (qr M).1.dat (qr M).2.dat p = M.dat p)
    (c1 : Core3) (w : ℕ → ℚ) (a m : ℕ) (ha : a < c1.s) (hm : m < c1.r2) :
    uR (evalstep w ⟨c1.r1, c1.s, (qr (leftUnfolding c1)).1.cols, (qr (leftUnfolding c1)).1.dat⟩ a)
        (qr (leftUnfolding c1)).2 m
      = evalstep w c1 a m := by
  set M : Mat := leftUnfolding c1 with hM
  have hMr : M.rows = c1.r1 * c1.s := rfl
  have hMc : M.cols = c1.r2 := rfl
  unfold uR
  have hterm : ∀ j ∈ Finset.range (qr M).2.rows,
      evalstep w ⟨c1.r1, c1.s, (qr M).1.cols, (qr M).1.dat⟩ a j * (qr M).2.dat (j * (qr M).2.cols + m)
        = ∑ i ∈ Finset.range c1.r1,
            w i * ((qr M).1.dat ((i * c1.s + a) * (qr M).1.cols + j)
              * (qr M).2.dat (j * (qr M).2.cols + m)) := by
    intro j _
    show (∑ i ∈ Finset.range c1.r1,
        w i * (qr M).1.dat (i * (c1.s * (qr M).1.cols) + a * (qr M).1.cols + j)) * _ = _
    rw [Finset.sum_mul]
    refine Finset.sum_congr rfl fun i _ => ?_
    rw [show i * (c1.s * (qr M).1.cols) + a * (qr M).1.cols + j
      = (i * c1.s + a) * (qr M).1.cols + j by ring]
    ring
  rw [Finset.sum_congr rfl hterm, Finset.sum_comm]
  have hinner : ∀ i ∈ Finset.range c1.r1,
      (∑ j ∈ Finset.range (qr M).2.rows,
        w i * ((qr M).1.dat ((i * c1.s + a) * (qr M).1.cols + j)
          * (qr M).2.dat (j * (qr M).2.cols + m)))
        = w i * c1.dat (i * (c1.s * c1.r2) + a * c1.r2 + m) := by
    intro i hi
    rw [Finset.mem_range] at hi
    rw [← Finset.mul_sum]
    congr 1
    have hisa : i * c1.s + a < c1.r1 * c1.s := by
      calc i * c1.s + a < i * c1.s + c1.s := by omega
        _ = (i + 1) * c1.s := by ring
        _ ≤ c1.r1 * c1.s := Nat.mul_le_mul_right _ (by omega)
    have hp : (i * c1.s + a) * c1.r2 + m < M.rows * M.cols := by
      rw [hMr, hMc]
      calc (i * c1.s + a) * c1.r2 + m < (i * c1.s + a) * c1.r2 + c1.r2 := by omega
        _ = (i * c1.s + a + 1) * c1.r2 := by ring
        _ ≤ c1.r1 * c1.s * c1.r2 := Nat.mul_le_mul_right _ (by omega)
    have hmm := hrec M ((i * c1.s + a) * c1.r2 + m) hp
    unfold mmulF at hmm
    rw [hMc] at hmm
    rw [show (i * c1.s + a) * c1.r2 + m = m + (i * c1.s + a) * c1.r2 by ring,
      Nat.add_mul_div_right _ _ (by omega : 0 < c1.r2), Nat.add_mul_mod_self_right,
      Nat.div_eq_of_lt hm, Nat.mod_eq_of_lt hm, Nat.zero_add] at hmm
    rw [show m + (i * c1.s + a) * c1.r2 = (i * c1.s + a) * c1.r2 + m by ring] at hmm
    have hMdat : M.dat ((i * c1.s + a) * c1.r2 + m)
        = c1.dat (i * (c1.s * c1.r2) + a * c1.r2 + m) := by
      show c1.dat _ = c1.dat _
      congr 1
      ring
    rw [hMdat] at hmm
    rw [← hmm]
    rw [show Finset.range (qr M).2.rows = Finset.range (qr M).1.cols from by rw [hq2]]
    refine Finset.sum_congr rfl fun j _ => ?_
    rw [hq3 M, hMc]
  rw [Finset.sum_congr rfl hinner]
  rfl

/-- The transposed-QR factorization of the right unfolding reproduces the
original core's slices: `L · Qᵗcore = core`. -/
theorem qrR_slice (qr : Mat → Mat × Mat)
    (hq1 : ∀ M, (qr M).1.rows = M.rows)
    (hq2 : ∀ M, (qr M).1.cols = (qr M).2.rows)
    (hq3 : ∀ M, (qr M).2.cols = M.cols)
    (hrec : ∀ M p, p < M.rows * M.cols →
      mmulF (qr M).1.cols M.cols (qr M).1.dat (qr M).2.dat p = M.dat p)
    (c2 : Core3) (m b k : ℕ) (hm : m < c2.r1) (hb : b < c2.s) (hk : k < c2.r2) :
    ∑ j ∈ Finset.range (transposeM (qr (transposeM (rightUnfolding c2))).1).rows,
        (transposeM (qr (transposeM (rightUnfolding c2))).2).dat
            (m * (transposeM (qr (transposeM (rightUnfolding c2))).2).cols + j)
          * (transposeM (qr (transposeM (rightUnfolding c2))).1).dat
              (j * (c2.s * c2.r2) + b * c2.r2 + k)
      = c2.dat (m * (c2.s * c2.r2) + b * c2.r2 + k) := by
  set M : Mat := transposeM (rightUnfolding c2) with hM
  have hMr : M.rows = c2.s * c2.r2 := rfl
  have hMc : M.cols = c2.r1 := rfl
  have hbk : b * c2.r2 + k < c2.s * c2.r2 := by
    calc b * c2.r2 + k < b * c2.r2 + c2.r2 := by omega
      _ = (b + 1) * c2.r2 := by ring
      _ ≤ c2.s * c2.r2 := Nat.mul_le_mul_right _ (by omega)
  have hterm : ∀ j ∈ Finset.range (transposeM (qr M).1).rows,
      (transposeM (qr M).2).dat (m * (transposeM (qr M).2).cols + j)
          * (transposeM (qr M).1).dat (j * (c2.s * c2.r2) + b * c2.r2 + k)
        = (qr M).1.dat ((b * c2.r2 + k) * (qr M).1.cols + j)
          * (qr M).2.dat (j * (qr M).2.cols + m) := by
    intro j hj
    rw [Finset.mem_range] at hj
    have hj' : j < (qr M).2.rows := by
      rw [← hq2 M]
      exact hj
    have hL : (transposeM (qr M).2).dat (m * (transposeM (qr M).2).cols + j)
        = (qr M).2.dat (j * (qr M).2.cols + m) := by
      show (transposeM (qr M).2).dat (m * (qr M).2.rows + j) = _
      exact transposeM_dat ((qr M).2) m j hj'
    have hQ : (transposeM (qr M).1).dat (j * (c2.s * c2.r2) + b * c2.r2 + k)
        = (qr M).1.dat ((b * c2.r2 + k) * (qr M).1.cols + j) := by
      rw [show j * (c2.s * c2.r2) + b * c2.r2 + k = j * (c2.s * c2.r2) + (b * c2.r2 + k) by ring]
      rw [show j * (c2.s * c2.r2) + (b * c2.r2 + k) = j * (qr M).1.rows + (b * c2.r2 + k) from by
        rw [hq1 M, hMr]]
      exact transposeM_dat ((qr M).1) j (b * c2.r2 + k) (by rw [hq1 M, hMr]; exact hbk)
    rw [hL, hQ]
    ring
  rw [Finset.sum_congr rfl hterm]
  have hp : (b * c2.r2 + k) * M.cols + m < M.rows * M.cols := by
    rw [hMr, hMc]
    calc (b * c2.r2 + k) * c2.r1 + m < (b * c2.r2 + k) * c2.r1 + c2.r1 := by omega
      _ = (b * c2.r2 + k + 1) * c2.r1 := by ring
      _ ≤ c2.s * c2.r2 * c2.r1 := Nat.mul_le_mul_right _ (by omega)
  have hmm := hrec M ((b * c2.r2 + k) * M.cols + m) hp
  unfold mmulF at hmm
  rw [show (b * c2.r2 + k) * M.cols + m = m + (b * c2.r2 + k) * M.cols by ring,
    Nat.add_mul_div_right _ _ (by rw [hMc]; omega : 0 < M.cols), Nat.add_mul_mod_self_right,
    Nat.div_eq_of_lt (by rw [hMc]; exact hm), Nat.mod_eq_of_lt (by rw [hMc]; exact hm),
    Nat.zero_add] at hmm
  have hMdat : M.dat (m + (b * c2.r2 + k) * M.cols)
      = c2.dat (m * (c2.s * c2.r2) + b * c2.r2 + k) := by
    rw [show m + (b * c2.r2 + k) * M.cols = (b * c2.r2 + k) * (rightUnfolding c2).rows + m from by
      rw [hMc]
      show m + (b * c2.r2 + k) * c2.r1 = (b * c2.r2 + k) * c2.r1 + m
      ring]
    rw [show M = transposeM (rightUnfolding c2) from rfl]
    rw [transposeM_dat (rightUnfolding c2) (b * c2.r2 + k) m hm]
    show c2.dat (m * (c2.s * c2.r2) + (b * c2.r2 + k)) = _
    congr 1
    ring
  rw [hMdat] at hmm
  rw [← hmm]
  have hrange : (transposeM (qr M).1).rows = (qr M).1.cols := rfl
  rw [hrange]
  refine Finset.sum_congr rfl fun j _ => ?_
  rw [hq3 M]

theorem uR_smul (q : ℚ) (v : ℕ → ℚ) (M : Mat) (m : ℕ) :
    uR (fun j => q * v j) M m = q * uR v M m := by
  unfold uR
  rw [Finset.mul_sum]
  refine Finset.sum_congr rfl fun j _ => ?_
  ring

/-- `contract_rankLeft_slice`: pushing `R` into the leading rank of a core
commutes with an optional Tucker contraction on the free axis. -/
theorem contract_rankLeft_slice (R : Mat) (c2 : Core3) (u2 : Option Mat) (W : ℕ → ℚ)
    (b k : ℕ) (hb : b < (contractOpt u2 c2).s) (hk : k < c2.r2) (hRc : R.cols = c2.r1) :
    evalstep W (contractOpt u2 (rankLeftMul R c2)) b k
      = evalstep (uR W R) (contractOpt u2 c2) b k := by
  match u2 with
  | none => exact rankLeft_slice R c2 W b k hb hk hRc
  | some V =>
    show evalstep W (modeContractR V (rankLeftMul R c2)) b k
      = evalstep (uR W R) (modeContractR V c2) b k
    rw [contract_slice V (rankLeftMul R c2) W b k hb hk,
      contract_slice V c2 (uR W R) b k hb hk]
    refine Finset.sum_congr rfl fun j hj => ?_
    rw [Finset.mem_range] at hj
    rw [rankLeft_slice R c2 W j k hj hk hRc]

/-- `contract_qrL_slice`: reconstructing a core from its left-unfolding QR
commutes with an optional Tucker contraction on the free axis. -/
theorem contract_qrL_slice (qr : Mat → Mat × Mat)
    (hq2 : ∀ M, (qr M).1.cols = (qr M).2.rows)
    (hq3 : ∀ M, (qr M).2.cols = M.cols)
    (hrec : ∀ M p, p < M.rows * M.cols →
      mmulF (qr M).1.cols M.cols (qr M).1.dat (qr M).2.dat p = M.dat p)
    (c1 : Core3) (u1 : Option Mat) (w : ℕ → ℚ) (a m : ℕ)
    (ha : a < (contractOpt u1 c1).s) (hm : m < c1.r2) :
    uR (evalstep w (contractOpt u1
          ⟨c1.r1, c1.s, (qr (leftUnfolding c1)).1.cols, (qr (leftUnfolding c1)).1.dat⟩) a)
        (qr (leftUnfolding c1)).2 m
      = evalstep w (contractOpt u1 c1) a m := by
  match u1 with
  | none => exact qrL_slice qr hq2 hq3 hrec c1 w a m ha hm
  | some V =>
    have hvec : ∀ j, j < (qr (leftUnfolding c1)).2.rows →
        evalstep w (modeContractR V
            ⟨c1.r1, c1.s, (qr (leftUnfolding c1)).1.cols, (qr (leftUnfolding c1)).1.dat⟩) a j
          = ∑ x ∈ Finset.range c1.s,
              V.dat (a * V.cols + x) *
                evalstep w ⟨c1.r1, c1.s, (qr (leftUnfolding c1)).1.cols,
                  (qr (leftUnfolding c1)).1.dat⟩ x j := by
      intro j hj
      refine contract_slice V _ w a j ha ?_
      show j < (qr (leftUnfolding c1)).1.cols
      rw [hq2 (leftUnfolding c1)]
      exact hj
    show uR (evalstep w (modeContractR V _) a) (qr (leftUnfolding c1)).2 m = _
    rw [uR_congr _ _ _ hvec m, uR_sum]
    calc (∑ x ∈ Finset.range c1.s,
          uR (fun j => V.dat (a * V.cols + x) *
            evalstep w ⟨c1.r1, c1.s, (qr (leftUnfolding c1)).1.cols,
              (qr (leftUnfolding c1)).1.dat⟩ x j) (qr (leftUnfolding c1)).2 m)
        = ∑ x ∈ Finset.range c1.s, V.dat (a * V.cols + x) * evalstep w c1 x m := by
          refine Finset.sum_congr rfl fun x hx => ?_
          rw [Finset.mem_range] at hx
          rw [uR_smul, qrL_slice qr hq2 hq3 hrec c1 w x m hx hm]
      _ = evalstep w (modeContractR V c1) a m :=
          (contract_slice V c1 w a m ha hm).symm

/-- `contract_rankRight_slice`: pushing `L` into the trailing rank of a
core commutes with an optional Tucker contraction on the free axis. -/
theorem contract_rankRight_slice (cprev : Core3) (L : Mat) (u1 : Option Mat) (w : ℕ → ℚ)
    (a m : ℕ) (ha : a < (contractOpt u1 cprev).s) (hm : m < L.cols) (hLr : L.rows = cprev.r2) :
    evalstep w (contractOpt u1 (rankRightMul cprev L)) a m
      = uR (evalstep w (contractOpt u1 cprev) a) L m := by
  match u1 with
  | none => exact rankRight_slice cprev L w a m ha hm hLr
  | some V =>
    show evalstep w (modeContractR V (rankRightMul cprev L)) a m
      = uR (evalstep w (modeContractR V cprev) a) L m
    rw [contract_slice V (rankRightMul cprev L) w a m ha hm]
    have hstep : ∀ j ∈ Finset.range (rankRightMul cprev L).s,
        V.dat (a * V.cols + j) * evalstep w (rankRightMul cprev L) j m
          = uR (fun p => V.dat (a * V.cols + j) * evalstep w cprev j p) L m := by
      intro j hj
      rw [Finset.mem_range] at hj
      rw [rankRight_slice cprev L w j m hj hm hLr, ← uR_smul]
    rw [Finset.sum_congr rfl hstep]
    rw [show Finset.range (rankRightMul cprev L).s = Finset.range cprev.s from rfl, ← uR_sum]
    refine uR_congr _ _ _ ?_ m
    intro p hp
    rw [hLr] at hp
    exact (contract_slice V cprev w a p ha hp).symm

/-- `contract_qrR_slice`: the transposed-QR reconstruction of a core,
consumed from an `L`-weighted vector, reproduces the original core —
through an optional Tucker contraction on the free axis. -/
theorem contract_qrR_slice (qr : Mat → Mat × Mat)
    (hq1 : ∀ M, (qr M).1.rows = M.rows)
    (hq2 : ∀ M, (qr M).1.cols = (qr M).2.rows)
    (hq3 : ∀ M, (qr M).2.cols = M.cols)
    (hrec : ∀ M p, p < M.rows * M.cols →
      mmulF (qr M).1.cols M.cols (qr M).1.dat (qr M).2.dat p = M.dat p)
    (c2 : Core3) (u2 : Option Mat) (W : ℕ → ℚ) (b k : ℕ)
    (hb : b < (contractOpt u2 c2).s) (hk : k < c2.r2) :
    evalstep (uR W (transposeM (qr (transposeM (rightUnfolding c2))).2))
        (contractOpt u2 ⟨(transposeM (qr (transposeM (rightUnfolding c2))).1).rows, c2.s, c2.r2,
          (transposeM (qr (transposeM (rightUnfolding c2))).1).dat⟩) b k
      = evalstep W (contractOpt u2 c2) b k := by
  have hLrows : (transposeM (qr (transposeM (rightUnfolding c2))).2).rows = c2.r1 := by
    show (qr (transposeM (rightUnfolding c2))).2.cols = c2.r1
    rw [hq3]
    rfl
  have hnone : ∀ (W' : ℕ → ℚ) b' k', b' < c2.s → k' < c2.r2 →
      evalstep (uR W' (transposeM (qr (transposeM (rightUnfolding c2))).2))
          ⟨(transposeM (qr (transposeM (rightUnfolding c2))).1).rows, c2.s, c2.r2,
            (transposeM (qr (transposeM (rightUnfolding c2))).1).dat⟩ b' k'
        = evalstep W' c2 b' k' := by
    intro W' b' k' hb' hk'
    show (∑ j ∈ Finset.range (transposeM (qr (transposeM (rightUnfolding c2))).1).rows, _) = _
    have hterm : ∀ j ∈ Finset.range (transposeM (qr (transposeM (rightUnfolding c2))).1).rows,
        uR W' (transposeM (qr (transposeM (rightUnfolding c2))).2) j *
          (transposeM (qr (transposeM (rightUnfolding c2))).1).dat
            (j * (c2.s * c2.r2) + b' * c2.r2 + k')
          = ∑ x ∈ Finset.range (transposeM (qr (transposeM (rightUnfolding c2))).2).rows,
              W' x * ((transposeM (qr (transposeM (rightUnfolding c2))).2).dat
                  (x * (transposeM (qr (transposeM (rightUnfolding c2))).2).cols + j) *
                (transposeM (qr (transposeM (rightUnfolding c2))).1).dat
                  (j * (c2.s * c2.r2) + b' * c2.r2 + k')) := by
      intro j _
      show uR W' _ j * _ = _
      unfold uR
      rw [Finset.sum_mul]
      refine Finset.sum_congr rfl fun x _ => ?_
      ring
    rw [Finset.sum_congr rfl hterm, Finset.sum_comm]
    have hinner : ∀ x ∈ Finset.range (transposeM (qr (transposeM (rightUnfolding c2))).2).rows,
        (∑ j ∈ Finset.range (transposeM (qr (transposeM (rightUnfolding c2))).1).rows,
          W' x * ((transposeM (qr (transposeM (rightUnfolding c2))).2).dat
              (x * (transposeM (qr (transposeM (rightUnfolding c2))).2).cols + j) *
            (transposeM (qr (transposeM (rightUnfolding c2))).1).dat
              (j * (c2.s * c2.r2) + b' * c2.r2 + k')))
          = W' x * c2.dat (x * (c2.s * c2.r2) + b' * c2.r2 + k') := by
      intro x hx
      rw [Finset.mem_range, hLrows] at hx
      rw [← Finset.mul_sum]
      congr 1
      exact qrR_slice qr hq1 hq2 hq3 hrec c2 x b' k' hx hb' hk'
    rw [Finset.sum_congr rfl hinner]
    show (∑ x ∈ Finset.range (transposeM (qr (transposeM (rightUnfolding c2))).2).rows, _)
      = ∑ x ∈ Finset.range c2.r1, _
    rw [show Finset.range (transposeM (qr (transposeM (rightUnfolding c2))).2).rows
      = Finset.range c2.r1 from by rw [hLrows]]
  match u2 with
  | none => exact hnone W b k hb hk
  | some V =>
    show evalstep (uR W (transposeM (qr (transposeM (rightUnfolding c2))).2))
        (modeContractR V ⟨(transposeM (qr (transposeM (rightUnfolding c2))).1).rows, c2.s, c2.r2,
          (transposeM (qr (transposeM (rightUnfolding c2))).1).dat⟩) b k
      = evalstep W (modeContractR V c2) b k
    rw [contract_slice V ⟨(transposeM (qr (transposeM (rightUnfolding c2))).1).rows, c2.s, c2.r2,
          (transposeM (qr (transposeM (rightUnfolding c2))).1).dat⟩
        (uR W (transposeM (qr (transposeM (rightUnfolding c2))).2)) b k hb hk,
      contract_slice V c2 W b k hb hk]
    refine Finset.sum_congr rfl fun j hj => ?_
    rw [Finset.mem_range] at hj
    rw [hnone W j k hj hk]

/-! ### List surgery helpers for `orthogonalize` -/

theorem getD_set_eq {α : Type} :
    ∀ (l : List α) (n : ℕ) (x d : α), n < l.length → (l.set n x).getD n d = x
  | [], n, x, d, h => absurd h (by simp)
  | a :: l, 0, x, d, _ => rfl
  | a :: l, n + 1, x, d, h =>
    getD_set_eq l n x d (by simp only [List.length_cons] at h; omega)

theorem getD_set_ne {α : Type} :
    ∀ (l : List α) (m n : ℕ) (x d : α), m ≠ n → (l.set n x).getD m d = l.getD m d
  | [], _, _, _, _, _ => rfl
  | a :: l, 0, 0, x, d, h => absurd rfl h
  | a :: l, 0, n + 1, x, d, _ => rfl
  | a :: l, m + 1, 0, x, d, _ => rfl
  | a :: l, m + 1, n + 1, x, d, h => getD_set_ne l m n x d (by omega)

theorem set_getD_self {α : Type} :
    ∀ (l : List α) (n : ℕ) (d : α), n < l.length → l.set n (l.getD n d) = l
  | [], n, d, h => absurd h (by simp)
  | a :: l, 0, d, _ => rfl
  | a :: l, n + 1, d, h => by
    show a :: l.set n (l.getD n d) = a :: l
    rw [set_getD_self l n d (by simp only [List.length_cons] at h; omega)]

theorem getD_zipWith {α β γ : Type} (f : α → β → γ) :
    ∀ (l : List α) (l2 : List β) (i : ℕ) (da : α) (db : β) (dc : γ),
      i < l.length → i < l2.length →
      (List.zipWith f l l2).getD i dc = f (l.getD i da) (l2.getD i db)
  | [], _, i, _, _, _, h, _ => absurd h (by simp)
  | a :: l, [], i, _, _, _, _, h => absurd h (by simp)
  | a :: l, b :: l2, 0, da, db, dc, _, _ => rfl
  | a :: l, b :: l2, i + 1, da, db, dc, h1, h2 =>
    getD_zipWith f l l2 i da db dc
      (by simp only [List.length_cons] at h1; omega)
      (by simp only [List.length_cons] at h2; omega)

theorem zipWith_set_left {α β γ : Type} (f : α → β → γ) :
    ∀ (l : List α) (l2 : List β) (i : ℕ) (x : α) (d2 : β),
      List.zipWith f (l.set i x) l2 = (List.zipWith f l l2).set i (f x (l2.getD i d2))
  | [], l2, i, x, d2 => by cases l2 <;> cases i <;> rfl
  | a :: l, [], i, x, d2 => by cases i <;> rfl
  | a :: l, b :: l2, 0, x, d2 => rfl
  | a :: l, b :: l2, i + 1, x, d2 => by
    show f a b :: List.zipWith f (l.set i x) l2
      = f a b :: (List.zipWith f l l2).set i (f x (l2.getD i d2))
    rw [zipWith_set_left f l l2 i x d2]

theorem zipWith_set_set {α β γ : Type} (f : α → β → γ) :
    ∀ (l : List α) (l2 : List β) (i : ℕ) (x : α) (y : β),
      List.zipWith f (l.set i x) (l2.set i y) = (List.zipWith f l l2).set i (f x y)
  | [], l2, i, x, y => by cases l2 <;> cases i <;> rfl
  | a :: l, [], i, x, y => by cases i <;> rfl
  | a :: l, b :: l2, 0, x, y => rfl
  | a :: l, b :: l2, i + 1, x, y => by
    show f a b :: List.zipWith f (l.set i x) (l2.set i y)
      = f a b :: (List.zipWith f l l2).set i (f x y)
    rw [zipWith_set_set f l l2 i x y]

theorem take_cons_drop {α : Type} (d : α) :
    ∀ (l : List α) (n : ℕ), n < l.length →
      l = l.take n ++ l.getD n d :: l.drop (n + 1)
  | [], n, h => absurd h (by simp)
  | a :: l, 0, _ => rfl
  | a :: l, n + 1, h => by
    show a :: l = a :: (l.take n ++ l.getD n d :: l.drop (n + 1))
    rw [← take_cons_drop d l n (by simp only [List.length_cons] at h; omega)]

theorem set_take_drop {α : Type} :
    ∀ (l : List α) (n : ℕ) (x : α), n < l.length →
      l.set n x = l.take n ++ x :: l.drop (n + 1)
  | [], n, x, h => absurd h (by simp)
  | a :: l, 0, x, _ => rfl
  | a :: l, n + 1, x, h => by
    show a :: l.set n x = a :: (l.take n ++ x :: l.drop (n + 1))
    rw [set_take_drop l n x (by simp only [List.length_cons] at h; omega)]

theorem take_pair_drop {α : Type} (d : α) :
    ∀ (l : List α) (n : ℕ), n + 1 < l.length →
      l = l.take n ++ l.getD n d :: l.getD (n + 1) d :: l.drop (n + 2)
  | [], n, h => absurd h (by simp)
  | [a], 0, h => absurd h (by simp)
  | a :: b :: l, 0, _ => rfl
  | a :: l, n + 1, h => by
    show a :: l = a :: (l.take n ++ l.getD n d :: l.getD (n + 1) d :: l.drop (n + 2))
    rw [← take_pair_drop d l n (by simp only [List.length_cons] at h; omega)]

theorem set_set_pair {α : Type} :
    ∀ (l : List α) (n : ℕ) (x y : α), n + 1 < l.length →
      (l.set n x).set (n + 1) y = l.take n ++ x :: y :: l.drop (n + 2)
  | [], n, x, y, h => absurd h (by simp)
  | [a], 0, x, y, h => absurd h (by simp)
  | a :: b :: l, 0, x, y, _ => rfl
  | a :: l, n + 1, x, y, h => by
    show a :: (l.set n x).set (n + 1) y = a :: (l.take n ++ x :: y :: l.drop (n + 2))
    rw [set_set_pair l n x y (by simp only [List.length_cons] at h; omega)]

theorem set_set_pair_rev {α : Type} :
    ∀ (l : List α) (n : ℕ) (x y : α), n + 1 < l.length →
      (l.set (n + 1) y).set n x = l.take n ++ x :: y :: l.drop (n + 2)
  | [], n, x, y, h => absurd h (by simp)
  | [a], 0, x, y, h => absurd h (by simp)
  | a :: b :: l, 0, x, y, _ => rfl
  | a :: l, n + 1, x, y, h => by
    show a :: (l.set (n + 1) y).set n x = a :: (l.take n ++ x :: y :: l.drop (n + 2))
    rw [set_set_pair_rev l n x y (by simp only [List.length_cons] at h; omega)]

/-! ### Chain surgery: well-formedness, trailing rank, entries -/

theorem wfFrom_surgery1 (d d2 : Core3) (hr1 : d2.r1 = d.r1) (hr2 : d2.r2 = d.r2) :
    ∀ (pre post : List Core3) (r : ℕ),
      wfFrom r (pre ++ d :: post) → wfFrom r (pre ++ d2 :: post)
  | [], post, r, h => ⟨by rw [hr1]; exact h.1, by rw [hr2]; exact h.2⟩
  | c :: pre, post, r, h => ⟨h.1, wfFrom_surgery1 d d2 hr1 hr2 pre post c.r2 h.2⟩

theorem foldCols_surgery1 (d d2 : Core3) (hr2 : d2.r2 = d.r2) :
    ∀ (pre post : List Core3) (r : ℕ),
      foldCols r (pre ++ d2 :: post) = foldCols r (pre ++ d :: post)
  | [], post, r => by
    show foldCols d2.r2 post = foldCols d.r2 post
    rw [hr2]
  | c :: pre, post, r => foldCols_surgery1 d d2 hr2 pre post c.r2

theorem wfFrom_surgery2 (d1 d2 e1 e2 : Core3)
    (h1 : e1.r1 = d1.r1) (h12 : e1.r2 = e2.r1) (h2 : e2.r2 = d2.r2) :
    ∀ (pre post : List Core3) (r : ℕ),
      wfFrom r (pre ++ d1 :: d2 :: post) → wfFrom r (pre ++ e1 :: e2 :: post)
  | [], post, r, h => ⟨by rw [h1]; exact h.1, h12.symm, by rw [h2]; exact h.2.2⟩
  | c :: pre, post, r, h => ⟨h.1, wfFrom_surgery2 d1 d2 e1 e2 h1 h12 h2 pre post c.r2 h.2⟩

theorem foldCols_surgery2 (d1 d2 e1 e2 : Core3) (h2 : e2.r2 = d2.r2) :
    ∀ (pre post : List Core3) (r : ℕ),
      foldCols r (pre ++ e1 :: e2 :: post) = foldCols r (pre ++ d1 :: d2 :: post)
  | [], post, r => by
    show foldCols e2.r2 post = foldCols d2.r2 post
    rw [h2]
  | c :: pre, post, r => foldCols_surgery2 d1 d2 e1 e2 h2 pre post c.r2

theorem wfFrom_adjacent :
    ∀ (cs : List Core3) (r i : ℕ), wfFrom r cs → i + 1 < cs.length →
      (cs.getD (i + 1) dummyCore).r1 = (cs.getD i dummyCore).r2
  | [], _, i, _, hlen => absurd hlen (by simp)
  | [c], _, 0, _, hlen => absurd hlen (by simp)
  | c :: c2 :: cs, r, 0, h, _ => h.2.1
  | c :: cs, r, i + 1, h, hlen =>
    wfFrom_adjacent cs c.r2 i h.2 (by simp only [List.length_cons] at hlen; omega)

/-- Replacing one core of a chain by another with the same in-range slice
action leaves any in-range chain contraction unchanged. -/
theorem evalChain_set_ext (d d2 : Core3)
    (hact : ∀ (w : ℕ → ℚ) (a k : ℕ), a < d.s → k < d.r2 →
      evalstep w d2 a k = evalstep w d a k) :
    ∀ (pre post : List Core3) (r : ℕ) (v : ℕ → ℚ) (ds : List ℕ) (k : ℕ),
      wfFrom r (pre ++ d :: post) →
      List.Forall₂ (fun (a : ℕ) (c : Core3) => a < c.s) ds (pre ++ d :: post) →
      k < foldCols r (pre ++ d :: post) →
      evalChain (pre ++ d2 :: post) v ds k = evalChain (pre ++ d :: post) v ds k := by
  intro pre
  induction pre with
  | nil =>
    intro post r v ds k hwf hds hk
    cases hds with
    | cons ha htl =>
      rename_i a as
      show evalChain post (evalstep v d2 a) as k = evalChain post (evalstep v d a) as k
      exact evalChain_congr post d.r2 _ _ as k hwf.2 (List.Forall₂.length_eq htl)
        (fun j hj => hact v a j ha hj) hk
  | cons c pre ih =>
    intro post r v ds k hwf hds hk
    cases hds with
    | cons ha htl =>
      rename_i a as
      show evalChain (pre ++ d2 :: post) (evalstep v c a) as k
        = evalChain (pre ++ d :: post) (evalstep v c a) as k
      exact ih post c.r2 (evalstep v c a) as k hwf.2 htl hk

/-- Replacing two adjacent cores of a chain by a pair with the same
composed in-range action leaves any in-range chain contraction unchanged. -/
theorem evalChain_pair_ext (d1 d2 e1 e2 : Core3)
    (hpair : ∀ (w : ℕ → ℚ) (a b k : ℕ), a < d1.s → b < d2.s → k < d2.r2 →
      evalstep (evalstep w e1 a) e2 b k = evalstep (evalstep w d1 a) d2 b k) :
    ∀ (pre post : List Core3) (r : ℕ) (v : ℕ → ℚ) (ds : List ℕ) (k : ℕ),
      wfFrom r (pre ++ d1 :: d2 :: post) →
      List.Forall₂ (fun (a : ℕ) (c : Core3) => a < c.s) ds (pre ++ d1 :: d2 :: post) →
      k < foldCols r (pre ++ d1 :: d2 :: post) →
      evalChain (pre ++ e1 :: e2 :: post) v ds k
        = evalChain (pre ++ d1 :: d2 :: post) v ds k := by
  intro pre
  induction pre with
  | nil =>
    intro post r v ds k hwf hds hk
    cases hds with
    | cons ha htl =>
      rename_i a as1
      cases htl with
      | cons hb htl2 =>
        rename_i b as
        show evalChain post (evalstep (evalstep v e1 a) e2 b) as k
          = evalChain post (evalstep (evalstep v d1 a) d2 b) as k
        exact evalChain_congr post d2.r2 _ _ as k hwf.2.2 (List.Forall₂.length_eq htl2)
          (fun j hj => hpair v a b j ha hb hj) hk
  | cons c pre ih =>
    intro post r v ds k hwf hds hk
    cases hds with
    | cons ha htl =>
      rename_i a as
      show evalChain (pre ++ e1 :: e2 :: post) (evalstep v c a) as k
        = evalChain (pre ++ d1 :: d2 :: post) (evalstep v c a) as k
      exact ih post c.r2 (evalstep v c a) as k hwf.2 htl hk

/-! ### Well-formedness of factored networks -/

theorem wfFrom_zipContract :
    ∀ (cs : List Core3) (us : List (Option Mat)) (r : ℕ), us.length = cs.length →
      wfFrom r cs → wfFrom r (List.zipWith (fun c u => contractOpt u c) cs us)
  | [], _, _, _, _ => trivial
  | c :: cs, [], r, hlen, _ => absurd hlen (by simp)
  | c :: cs, u :: us, r, hlen, h =>
    ⟨by rw [contractOpt_r1]; exact h.1,
     by rw [contractOpt_r2]
        exact wfFrom_zipContract cs us c.r2 (by simp only [List.length_cons] at hlen; omega) h.2⟩

theorem foldCols_zipContract :
    ∀ (cs : List Core3) (us : List (Option Mat)) (r : ℕ), us.length = cs.length →
      foldCols r (List.zipWith (fun c u => contractOpt u c) cs us) = foldCols r cs
  | [], _, _, _ => rfl
  | c :: cs, [], r, hlen => absurd hlen (by simp)
  | c :: cs, u :: us, r, hlen => by
    show foldCols (contractOpt u c).r2 _ = foldCols c.r2 cs
    rw [contractOpt_r2]
    exact foldCols_zipContract cs us c.r2 (by simp only [List.length_cons] at hlen; omega)

theorem map_s_zip :
    ∀ (cs : List Core3) (us : List (Option Mat)),
      (List.zipWith (fun c u => contractOpt u c) cs us).map (fun c => c.s)
        = List.zipWith (fun (c : Core3) (u : Option Mat) =>
            match u with | none => c.s | some U => U.rows) cs us
  | [], us => by cases us <;> rfl
  | c :: cs, [] => rfl
  | c :: cs, u :: us => by
    cases u with
    | none =>
      show c.s :: _ = c.s :: _
      rw [map_s_zip cs us]
    | some U =>
      show U.rows :: _ = U.rows :: _
      rw [map_s_zip cs us]

theorem fullTucker_map_s (t : TensorU) :
    (fullTuckerCores t).map (fun c => c.s) = shapeU t := by
  rw [fullTuckerCores_eq]
  exact map_s_zip t.cores t.us

/-- Well-formedness of a factored network: parallel factor list, valid TT
chain with boundary ranks 1, and each present factor's column count
matching its core's free dimension. -/
def WfU (t : TensorU) : Prop :=
  t.us.length = t.cores.length ∧ wfFrom 1 t.cores ∧ foldCols 1 t.cores = 1 ∧
  ∀ i, i < t.cores.length → ∀ U, t.us.getD i none = some U →
    U.cols = (t.cores.getD i dummyCore).s

/-- One orthogonalization pass preserves the core count, the logical shape,
well-formedness, and every materialized entry. -/
def GoodStep (t t2 : TensorU) : Prop :=
  t2.cores.length = t.cores.length ∧ shapeU t2 = shapeU t ∧ WfU t2 ∧
  ∀ ds, List.Forall₂ (fun (a : ℕ) (b : ℕ) => a < b) ds (shapeU t) →
    entry (fullTuckerCores t2) ds = entry (fullTuckerCores t) ds

theorem goodStep_trans (t t2 t3 : TensorU)
    (g1 : GoodStep t t2) (g2 : GoodStep t2 t3) : GoodStep t t3 := by
  refine ⟨by rw [g2.1, g1.1], by rw [g2.2.1, g1.2.1], g2.2.2.1, ?_⟩
  intro ds hds
  rw [g2.2.2.2 ds (by rw [g1.2.1]; exact hds), g1.2.2.2 ds hds]

/-- Orthogonalizing a Tucker factor (keep `Q`, push `R` into the core's
free axis) acts identically on all in-range slices. -/
theorem factorOrth_slice (qr : Mat → Mat × Mat)
    (hq1 : ∀ M, (qr M).1.rows = M.rows)
    (hq2 : ∀ M, (qr M).1.cols = (qr M).2.rows)
    (hq3 : ∀ M, (qr M).2.cols = M.cols)
    (hrec : ∀ M p, p < M.rows * M.cols →
      mmulF (qr M).1.cols M.cols (qr M).1.dat (qr M).2.dat p = M.dat p)
    (U : Mat) (c : Core3) (w : ℕ → ℚ) (a k : ℕ)
    (ha : a < U.rows) (hk : k < c.r2) (hd : U.cols = c.s) :
    evalstep w (modeContractR (qr U).1 (modeContractR (qr U).2 c)) a k
      = evalstep w (modeContractR U c) a k := by
  rw [contract_slice ((qr U).1) (modeContractR (qr U).2 c) w a k
      (by rw [hq1 U]; exact ha) hk,
    contract_slice U c w a k ha hk]
  have hstep : ∀ j ∈ Finset.range ((modeContractR ((qr U).2) c).s),
      (qr U).1.dat (a * (qr U).1.cols + j) * evalstep w (modeContractR ((qr U).2) c) j k
        = ∑ x ∈ Finset.range c.s,
            (qr U).1.dat (a * (qr U).1.cols + j) * ((qr U).2.dat (j * (qr U).2.cols + x)
              * evalstep w c x k) := by
    intro j hj
    rw [Finset.mem_range] at hj
    rw [contract_slice ((qr U).2) c w j k hj hk, Finset.mul_sum]
  rw [Finset.sum_congr rfl hstep, Finset.sum_comm]
  refine Finset.sum_congr rfl fun x hx => ?_
  rw [Finset.mem_range] at hx
  have hx2 : x < U.cols := by rw [hd]; exact hx
  have hp : a * U.cols + x < U.rows * U.cols := by
    calc a * U.cols + x < a * U.cols + U.cols := by omega
      _ = (a + 1) * U.cols := by ring
      _ ≤ U.rows * U.cols := Nat.mul_le_mul_right _ (by omega)
  have hmm := hrec U (a * U.cols + x) hp
  unfold mmulF at hmm
  rw [show a * U.cols + x = x + a * U.cols by ring,
    Nat.add_mul_div_right _ _ (by omega : 0 < U.cols), Nat.add_mul_mod_self_right,
    Nat.div_eq_of_lt hx2, Nat.mod_eq_of_lt hx2, Nat.zero_add] at hmm
  have hassoc : ∀ j ∈ Finset.range ((modeContractR ((qr U).2) c).s),
      (qr U).1.dat (a * (qr U).1.cols + j)
          * ((qr U).2.dat (j * (qr U).2.cols + x) * evalstep w c x k)
        = ((qr U).1.dat (a * (qr U).1.cols + j) * (qr U).2.dat (j * U.cols + x))
            * evalstep w c x k := by
    intro j _
    rw [hq3 U]
    ring
  rw [Finset.sum_congr rfl hassoc, ← Finset.sum_mul,
    show Finset.range ((modeContractR ((qr U).2) c).s) = Finset.range ((qr U).1.cols) from by
      rw [hq2 U]
      rfl,
    hmm, show x + a * U.cols = a * U.cols + x by ring]

/-- `factor_orthogonalize` preserves shape, well-formedness and content. -/
theorem factorOrth_good (qr : Mat → Mat × Mat)
    (hq1 : ∀ M, (qr M).1.rows = M.rows)
    (hq2 : ∀ M, (qr M).1.cols = (qr M).2.rows)
    (hq3 : ∀ M, (qr M).2.cols = M.cols)
    (hrec : ∀ M p, p < M.rows * M.cols →
      mmulF (qr M).1.cols M.cols (qr M).1.dat (qr M).2.dat p = M.dat p)
    (t : TensorU) (mu : ℕ) (hmu : mu < t.cores.length) (hwf : WfU t) :
    GoodStep t (factorOrthogonalize qr mu t) := by
  have hlen := hwf.1
  have hmu2 : mu < t.us.length := by rw [hlen]; exact hmu
  show GoodStep t (match t.us.getD mu none with
    | none => t
    | some U =>
      { cores := t.cores.set mu (modeContractR (qr U).2 (t.cores.getD mu dummyCore)),
        us := t.us.set mu (some (qr U).1) })
  cases h : t.us.getD mu none with
  | none => exact ⟨rfl, rfl, hwf, fun ds _ => rfl⟩
  | some U =>
    have hmuChain : mu < (fullTuckerCores t).length := by
      rw [fullTuckerCores_eq, List.length_zipWith]
      exact lt_min hmu hmu2
    have holdd : (fullTuckerCores t).getD mu dummyCore
        = modeContractR U (t.cores.getD mu dummyCore) := by
      rw [fullTuckerCores_eq,
        getD_zipWith _ t.cores t.us mu dummyCore none dummyCore hmu hmu2, h]
      rfl
    refine ⟨by simp, ?_, ⟨?_, ?_, ?_, ?_⟩, ?_⟩
    · show List.zipWith _ (t.cores.set mu _) (t.us.set mu (some (qr U).1)) = shapeU t
      rw [zipWith_set_set]
      show (shapeU t).set mu ((qr U).1.rows) = shapeU t
      have hGet : (shapeU t).getD mu 0 = (qr U).1.rows := by
        show (List.zipWith _ t.cores t.us).getD mu 0 = _
        rw [getD_zipWith _ t.cores t.us mu dummyCore none 0 hmu hmu2, h, hq1 U]
      rw [← hGet]
      exact set_getD_self (shapeU t) mu 0 (by
        show mu < (List.zipWith _ t.cores t.us).length
        rw [List.length_zipWith]
        exact lt_min hmu hmu2)
    · show (t.us.set mu (some (qr U).1)).length = (t.cores.set mu _).length
      simp only [List.length_set]
      exact hlen
    · show wfFrom 1 (t.cores.set mu (modeContractR (qr U).2 (t.cores.getD mu dummyCore)))
      rw [set_take_drop t.cores mu _ hmu]
      refine wfFrom_surgery1 (t.cores.getD mu dummyCore)
        (modeContractR (qr U).2 (t.cores.getD mu dummyCore)) rfl rfl
        (t.cores.take mu) (t.cores.drop (mu + 1)) 1 ?_
      rw [← take_cons_drop dummyCore t.cores mu hmu]
      exact hwf.2.1
    · show foldCols 1 (t.cores.set mu (modeContractR (qr U).2 (t.cores.getD mu dummyCore))) = 1
      rw [set_take_drop t.cores mu _ hmu,
        foldCols_surgery1 (t.cores.getD mu dummyCore)
          (modeContractR (qr U).2 (t.cores.getD mu dummyCore)) rfl
          (t.cores.take mu) (t.cores.drop (mu + 1)) 1,
        ← take_cons_drop dummyCore t.cores mu hmu]
      exact hwf.2.2.1
    · intro i hi V hV
      rw [List.length_set] at hi
      by_cases hie : i = mu
      · subst hie
        rw [getD_set_eq t.us i (some (qr U).1) none hmu2] at hV
        injection hV with hV
        rw [getD_set_eq t.cores i _ dummyCore hmu, ← hV]
        show (qr U).1.cols = (qr U).2.rows
        exact hq2 U
      · rw [getD_set_ne t.us i mu _ none hie] at hV
        rw [getD_set_ne t.cores i mu _ dummyCore hie]
        exact hwf.2.2.2 i hi V hV
    · intro ds hds
      have hwfc : wfFrom 1 (fullTuckerCores t) := by
        rw [fullTuckerCores_eq]
        exact wfFrom_zipContract t.cores t.us 1 hlen hwf.2.1
      have hfoldc : foldCols 1 (fullTuckerCores t) = 1 := by
        rw [fullTuckerCores_eq, foldCols_zipContract t.cores t.us 1 hlen]
        exact hwf.2.2.1
      have hdsc : List.Forall₂ (fun (a : ℕ) (c : Core3) => a < c.s) ds (fullTuckerCores t) :=
        digits_of_cores _ _ _ (fullTucker_map_s t) hds
      have hchain : fullTuckerCores
          ⟨t.cores.set mu (modeContractR (qr U).2 (t.cores.getD mu dummyCore)),
            t.us.set mu (some (qr U).1)⟩
          = (fullTuckerCores t).set mu
              (contractOpt (some (qr U).1)
                (modeContractR (qr U).2 (t.cores.getD mu dummyCore))) := by
        rw [fullTuckerCores_eq, fullTuckerCores_eq]
        exact zipWith_set_set _ t.cores t.us mu _ (some (qr U).1)
      have hext := evalChain_set_ext
        (modeContractR U (t.cores.getD mu dummyCore))
        (contractOpt (some (qr U).1)
          (modeContractR (qr U).2 (t.cores.getD mu dummyCore)))
        (fun w a k ha hk => factorOrth_slice qr hq1 hq2 hq3 hrec U _ w a k ha hk
          (hwf.2.2.2 mu hmu U h))
        ((fullTuckerCores t).take mu) ((fullTuckerCores t).drop (mu + 1)) 1 e0 ds 0
        (by rw [← holdd, ← take_cons_drop dummyCore _ mu hmuChain]; exact hwfc)
        (by rw [← holdd, ← take_cons_drop dummyCore _ mu hmuChain]; exact hdsc)
        (by rw [← holdd, ← take_cons_drop dummyCore _ mu hmuChain, hfoldc]
            exact Nat.one_pos)
      rw [hchain, set_take_drop _ mu _ hmuChain]
      conv_rhs => rw [take_cons_drop dummyCore (fullTuckerCores t) mu hmuChain, holdd]
      exact hext

theorem list_eq_of_getD {α : Type} :
    ∀ (l l2 : List α) (d : α), l.length = l2.length →
      (∀ i, i < l.length → l.getD i d = l2.getD i d) → l = l2
  | [], [], _, _, _ => rfl
  | [], a :: l2, d, h, _ => absurd h (by simp)
  | a :: l, [], d, h, _ => absurd h (by simp)
  | a :: l, b :: l2, d, h, hp => by
    have hab : a = b := hp 0 (by simp)
    rw [hab, list_eq_of_getD l l2 d (by simp only [List.length_cons] at h; omega)
      (fun i hi => hp (i + 1) (by simp only [List.length_cons]; omega))]

/-- Generic two-position core surgery: replacing adjacent cores `mu`,
`mu + 1` by a pair with matching outer dimensions and the same composed
action (through the untouched Tucker factors) preserves shape,
well-formedness and content. -/
theorem pairSurgery_good (t1 : TensorU) (mu : ℕ)
    (hmu1 : mu + 1 < t1.cores.length) (hwf : WfU t1) (A B : Core3)
    (hA1 : A.r1 = (t1.cores.getD mu dummyCore).r1)
    (hAs : A.s = (t1.cores.getD mu dummyCore).s)
    (hBs : B.s = (t1.cores.getD (mu + 1) dummyCore).s)
    (hB2 : B.r2 = (t1.cores.getD (mu + 1) dummyCore).r2)
    (hAB : A.r2 = B.r1)
    (hpair : ∀ (w : ℕ → ℚ) (a b k : ℕ),
      a < (contractOpt (t1.us.getD mu none) (t1.cores.getD mu dummyCore)).s →
      b < (contractOpt (t1.us.getD (mu + 1) none) (t1.cores.getD (mu + 1) dummyCore)).s →
      k < (contractOpt (t1.us.getD (mu + 1) none) (t1.cores.getD (mu + 1) dummyCore)).r2 →
      evalstep (evalstep w (contractOpt (t1.us.getD mu none) A) a)
          (contractOpt (t1.us.getD (mu + 1) none) B) b k
        = evalstep (evalstep w (contractOpt (t1.us.getD mu none) (t1.cores.getD mu dummyCore)) a)
            (contractOpt (t1.us.getD (mu + 1) none) (t1.cores.getD (mu + 1) dummyCore)) b k) :
    GoodStep t1 ⟨(t1.cores.set mu A).set (mu + 1) B, t1.us⟩ := by
  have hlen := hwf.1
  have hn : mu < t1.cores.length := by omega
  have hn2 : mu < t1.us.length := by omega
  have hn12 : mu + 1 < t1.us.length := by omega
  have hZlen : mu < (List.zipWith (fun (c : Core3) (u : Option Mat) =>
      match u with | none => c.s | some U => U.rows) t1.cores t1.us).length := by
    rw [List.length_zipWith]
    exact lt_min hn hn2
  have hZlen1 : mu + 1 < (List.zipWith (fun (c : Core3) (u : Option Mat) =>
      match u with | none => c.s | some U => U.rows) t1.cores t1.us).length := by
    rw [List.length_zipWith]
    exact lt_min hmu1 hn12
  have hmuChain : mu + 1 < (fullTuckerCores t1).length := by
    rw [fullTuckerCores_eq, List.length_zipWith]
    exact lt_min hmu1 hn12
  have holdd1 : (fullTuckerCores t1).getD mu dummyCore
      = contractOpt (t1.us.getD mu none) (t1.cores.getD mu dummyCore) := by
    rw [fullTuckerCores_eq, getD_zipWith _ t1.cores t1.us mu dummyCore none dummyCore hn hn2]
  have holdd2 : (fullTuckerCores t1).getD (mu + 1) dummyCore
      = contractOpt (t1.us.getD (mu + 1) none) (t1.cores.getD (mu + 1) dummyCore) := by
    rw [fullTuckerCores_eq,
      getD_zipWith _ t1.cores t1.us (mu + 1) dummyCore none dummyCore hmu1 hn12]
  refine ⟨by simp, ?_, ⟨?_, ?_, ?_, ?_⟩, ?_⟩
  · show List.zipWith (fun (c : Core3) (u : Option Mat) =>
        match u with | none => c.s | some U => U.rows)
        ((t1.cores.set mu A).set (mu + 1) B) t1.us = shapeU t1
    refine list_eq_of_getD _ _ 0 ?_ ?_
    · show (List.zipWith _ _ t1.us).length = (List.zipWith _ t1.cores t1.us).length
      rw [List.length_zipWith, List.length_zipWith, List.length_set, List.length_set]
    · intro i hi
      rw [List.length_zipWith, List.length_set, List.length_set] at hi
      have hic : i < t1.cores.length := by omega
      have hiu : i < t1.us.length := by omega
      rw [getD_zipWith _ _ t1.us i dummyCore none 0
          (by rw [List.length_set, List.length_set]; exact hic) hiu]
      show _ = (List.zipWith _ t1.cores t1.us).getD i 0
      rw [getD_zipWith _ t1.cores t1.us i dummyCore none 0 hic hiu]
      by_cases hie : i = mu
      · subst hie
        rw [getD_set_ne _ i (i + 1) B dummyCore (by omega), getD_set_eq t1.cores i A dummyCore hic]
        cases t1.us.getD i none with
        | none => exact hAs
        | some V => rfl
      · by_cases hie1 : i = mu + 1
        · subst hie1
          rw [getD_set_eq _ (mu + 1) B dummyCore (by rw [List.length_set]; exact hic)]
          cases t1.us.getD (mu + 1) none with
          | none => exact hBs
          | some V => rfl
        · rw [getD_set_ne _ i (mu + 1) B dummyCore hie1,
            getD_set_ne t1.cores i mu A dummyCore hie]
  · show t1.us.length = ((t1.cores.set mu A).set (mu + 1) B).length
    simp only [List.length_set]
    exact hlen
  · show wfFrom 1 ((t1.cores.set mu A).set (mu + 1) B)
    rw [set_set_pair t1.cores mu A B hmu1]
    refine wfFrom_surgery2 (t1.cores.getD mu dummyCore) (t1.cores.getD (mu + 1) dummyCore)
      A B hA1 hAB hB2 (t1.cores.take mu) (t1.cores.drop (mu + 2)) 1 ?_
    rw [← take_pair_drop dummyCore t1.cores mu hmu1]
    exact hwf.2.1
  · show foldCols 1 ((t1.cores.set mu A).set (mu + 1) B) = 1
    rw [set_set_pair t1.cores mu A B hmu1,
      foldCols_surgery2 (t1.cores.getD mu dummyCore) (t1.cores.getD (mu + 1) dummyCore)
        A B hB2 (t1.cores.take mu) (t1.cores.drop (mu + 2)) 1,
      ← take_pair_drop dummyCore t1.cores mu hmu1]
    exact hwf.2.2.1
  · intro i hi V hV
    simp only [List.length_set] at hi
    by_cases hie : i = mu
    · subst hie
      rw [getD_set_ne _ i (i + 1) B dummyCore (by omega), getD_set_eq t1.cores i A dummyCore hn,
        hAs]
      exact hwf.2.2.2 i hn V hV
    · by_cases hie1 : i = mu + 1
      · subst hie1
        rw [getD_set_eq _ (mu + 1) B dummyCore (by rw [List.length_set]; exact hmu1), hBs]
        exact hwf.2.2.2 (mu + 1) hmu1 V hV
      · rw [getD_set_ne _ i (mu + 1) B dummyCore hie1, getD_set_ne t1.cores i mu A dummyCore hie]
        exact hwf.2.2.2 i hi V hV
  · intro ds hds
    have hwfc : wfFrom 1 (fullTuckerCores t1) := by
      rw [fullTuckerCores_eq]
      exact wfFrom_zipContract t1.cores t1.us 1 hlen hwf.2.1
    have hfoldc : foldCols 1 (fullTuckerCores t1) = 1 := by
      rw [fullTuckerCores_eq, foldCols_zipContract t1.cores t1.us 1 hlen]
      exact hwf.2.2.1
    have hdsc : List.Forall₂ (fun (a : ℕ) (c : Core3) => a < c.s) ds (fullTuckerCores t1) :=
      digits_of_cores _ _ _ (fullTucker_map_s t1) hds
    have hchain : fullTuckerCores ⟨(t1.cores.set mu A).set (mu + 1) B, t1.us⟩
        = ((fullTuckerCores t1).set mu (contractOpt (t1.us.getD mu none) A)).set (mu + 1)
            (contractOpt (t1.us.getD (mu + 1) none) B) := by
      rw [fullTuckerCores_eq, fullTuckerCores_eq,
        zipWith_set_left _ _ t1.us (mu + 1) B none, zipWith_set_left _ t1.cores t1.us mu A none]
    have hext := evalChain_pair_ext
      (contractOpt (t1.us.getD mu none) (t1.cores.getD mu dummyCore))
      (contractOpt (t1.us.getD (mu + 1) none) (t1.cores.getD (mu + 1) dummyCore))
      (contractOpt (t1.us.getD mu none) A)
      (contractOpt (t1.us.getD (mu + 1) none) B)
      hpair
      ((fullTuckerCores t1).take mu) ((fullTuckerCores t1).drop (mu + 2)) 1 e0 ds 0
      (by rw [← holdd1, ← holdd2, ← take_pair_drop dummyCore _ mu hmuChain]; exact hwfc)
      (by rw [← holdd1, ← holdd2, ← take_pair_drop dummyCore _ mu hmuChain]; exact hdsc)
      (by rw [← holdd1, ← holdd2, ← take_pair_drop dummyCore _ mu hmuChain, hfoldc]
          exact Nat.one_pos)
    rw [hchain, set_set_pair (fullTuckerCores t1) mu _ _ hmuChain]
    conv_rhs => rw [take_pair_drop dummyCore (fullTuckerCores t1) mu hmuChain, holdd1, holdd2]
    exact hext

/-- The core surgery performed by `left_orthogonalize` (QR of the left
unfolding, push `R` right) is a good step. -/
theorem leftOrthCore_good (qr : Mat → Mat × Mat)
    (hq2 : ∀ M, (qr M).1.cols = (qr M).2.rows)
    (hq3 : ∀ M, (qr M).2.cols = M.cols)
    (hrec : ∀ M p, p < M.rows * M.cols →
      mmulF (qr M).1.cols M.cols (qr M).1.dat (qr M).2.dat p = M.dat p)
    (t1 : TensorU) (mu : ℕ) (hmu1 : mu + 1 < t1.cores.length) (hwf : WfU t1) :
    GoodStep t1
      { cores := (t1.cores.set mu
            ⟨(t1.cores.getD mu dummyCore).r1, (t1.cores.getD mu dummyCore).s,
              (qr (leftUnfolding (t1.cores.getD mu dummyCore))).1.cols,
              (qr (leftUnfolding (t1.cores.getD mu dummyCore))).1.dat⟩).set (mu + 1)
          (rankLeftMul (qr (leftUnfolding (t1.cores.getD mu dummyCore))).2
            (t1.cores.getD (mu + 1) dummyCore)),
        us := t1.us } := by
  have hadj : (t1.cores.getD (mu + 1) dummyCore).r1 = (t1.cores.getD mu dummyCore).r2 :=
    wfFrom_adjacent t1.cores 1 mu hwf.2.1 hmu1
  refine pairSurgery_good t1 mu hmu1 hwf _ _ rfl rfl rfl rfl
    (hq2 (leftUnfolding (t1.cores.getD mu dummyCore))) ?_
  intro w a b k ha hb hk
  rw [contractOpt_r2] at hk
  have hRc : (qr (leftUnfolding (t1.cores.getD mu dummyCore))).2.cols
      = (t1.cores.getD (mu + 1) dummyCore).r1 := by
    rw [hq3 (leftUnfolding (t1.cores.getD mu dummyCore)), hadj]
    rfl
  rw [contract_rankLeft_slice (qr (leftUnfolding (t1.cores.getD mu dummyCore))).2
    (t1.cores.getD (mu + 1) dummyCore) (t1.us.getD (mu + 1) none) _ b k hb hk hRc]
  refine evalstep_congr _ _ (contractOpt (t1.us.getD (mu + 1) none)
    (t1.cores.getD (mu + 1) dummyCore)) ?_ b k
  intro j hj
  rw [contractOpt_r1, hadj] at hj
  exact contract_qrL_slice qr hq2 hq3 hrec (t1.cores.getD mu dummyCore)
    (t1.us.getD mu none) w a j ha hj

/-- The core surgery performed by `right_orthogonalize` (QR of the
transposed right unfolding, push `Rᵗ` left) is a good step. -/
theorem rightOrthCore_good (qr : Mat → Mat × Mat)
    (hq1 : ∀ M, (qr M).1.rows = M.rows)
    (hq2 : ∀ M, (qr M).1.cols = (qr M).2.rows)
    (hq3 : ∀ M, (qr M).2.cols = M.cols)
    (hrec : ∀ M p, p < M.rows * M.cols →
      mmulF (qr M).1.cols M.cols (qr M).1.dat (qr M).2.dat p = M.dat p)
    (t1 : TensorU) (mu : ℕ) (hmu0 : 1 ≤ mu) (hmu : mu < t1.cores.length) (hwf : WfU t1) :
    GoodStep t1
      { cores := (t1.cores.set mu
            ⟨(transposeM (qr (transposeM (rightUnfolding (t1.cores.getD mu dummyCore)))).1).rows,
              (t1.cores.getD mu dummyCore).s, (t1.cores.getD mu dummyCore).r2,
              (transposeM (qr (transposeM (rightUnfolding (t1.cores.getD mu dummyCore)))).1).dat⟩).set
          (mu - 1)
          (rankRightMul (t1.cores.getD (mu - 1) dummyCore)
            (transposeM (qr (transposeM (rightUnfolding (t1.cores.getD mu dummyCore)))).2)),
        us := t1.us } := by
  obtain ⟨n, rfl⟩ : ∃ n, mu = n + 1 := ⟨mu - 1, by omega⟩
  simp only [Nat.add_sub_cancel]
  have hn1 : n + 1 < t1.cores.length := hmu
  have hadj : (t1.cores.getD (n + 1) dummyCore).r1 = (t1.cores.getD n dummyCore).r2 :=
    wfFrom_adjacent t1.cores 1 n hwf.2.1 hn1
  have hcomm : (t1.cores.set (n + 1)
        ⟨(transposeM (qr (transposeM (rightUnfolding (t1.cores.getD (n + 1) dummyCore)))).1).rows,
          (t1.cores.getD (n + 1) dummyCore).s, (t1.cores.getD (n + 1) dummyCore).r2,
          (transposeM (qr (transposeM (rightUnfolding (t1.cores.getD (n + 1) dummyCore)))).1).dat⟩).set n
        (rankRightMul (t1.cores.getD n dummyCore)
          (transposeM (qr (transposeM (rightUnfolding (t1.cores.getD (n + 1) dummyCore)))).2))
      = (t1.cores.set n
          (rankRightMul (t1.cores.getD n dummyCore)
            (transposeM (qr (transposeM (rightUnfolding (t1.cores.getD (n + 1) dummyCore)))).2))).set
          (n + 1)
          ⟨(transposeM (qr (transposeM (rightUnfolding (t1.cores.getD (n + 1) dummyCore)))).1).rows,
            (t1.cores.getD (n + 1) dummyCore).s, (t1.cores.getD (n + 1) dummyCore).r2,
            (transposeM (qr (transposeM (rightUnfolding (t1.cores.getD (n + 1) dummyCore)))).1).dat⟩ := by
    rw [set_set_pair_rev t1.cores n _ _ hn1, set_set_pair t1.cores n _ _ hn1]
  rw [hcomm]
  refine pairSurgery_good t1 n hn1 hwf _ _ rfl rfl rfl rfl
    (hq2 (transposeM (rightUnfolding (t1.cores.getD (n + 1) dummyCore)))).symm ?_
  intro w a b k ha hb hk
  rw [contractOpt_r2] at hk
  have hLr : (transposeM (qr (transposeM (rightUnfolding (t1.cores.getD (n + 1) dummyCore)))).2).rows
      = (t1.cores.getD n dummyCore).r2 := by
    show (qr (transposeM (rightUnfolding (t1.cores.getD (n + 1) dummyCore)))).2.cols
      = (t1.cores.getD n dummyCore).r2
    rw [hq3 (transposeM (rightUnfolding (t1.cores.getD (n + 1) dummyCore)))]
    exact hadj
  have hstep : evalstep (evalstep w (contractOpt (t1.us.getD n none)
        (rankRightMul (t1.cores.getD n dummyCore)
          (transposeM (qr (transposeM (rightUnfolding (t1.cores.getD (n + 1) dummyCore)))).2))) a)
      (contractOpt (t1.us.getD (n + 1) none)
        ⟨(transposeM (qr (transposeM (rightUnfolding (t1.cores.getD (n + 1) dummyCore)))).1).rows,
          (t1.cores.getD (n + 1) dummyCore).s, (t1.cores.getD (n + 1) dummyCore).r2,
          (transposeM (qr (transposeM (rightUnfolding (t1.cores.getD (n + 1) dummyCore)))).1).dat⟩) b k
      = evalstep (uR (evalstep w (contractOpt (t1.us.getD n none) (t1.cores.getD n dummyCore)) a)
          (transposeM (qr (transposeM (rightUnfolding (t1.cores.getD (n + 1) dummyCore)))).2))
        (contractOpt (t1.us.getD (n + 1) none)
          ⟨(transposeM (qr (transposeM (rightUnfolding (t1.cores.getD (n + 1) dummyCore)))).1).rows,
            (t1.cores.getD (n + 1) dummyCore).s, (t1.cores.getD (n + 1) dummyCore).r2,
            (transposeM (qr (transposeM (rightUnfolding (t1.cores.getD (n + 1) dummyCore)))).1).dat⟩) b k := by
    refine evalstep_congr _ _ _ ?_ b k
    intro j hj
    rw [contractOpt_r1] at hj
    have hj2 : j < (transposeM (qr (transposeM
        (rightUnfolding (t1.cores.getD (n + 1) dummyCore)))).2).cols := by
      show j < (qr (transposeM (rightUnfolding (t1.cores.getD (n + 1) dummyCore)))).2.rows
      rw [← hq2 (transposeM (rightUnfolding (t1.cores.getD (n + 1) dummyCore)))]
      exact hj
    exact contract_rankRight_slice (t1.cores.getD n dummyCore)
      (transposeM (qr (transposeM (rightUnfolding (t1.cores.getD (n + 1) dummyCore)))).2)
      (t1.us.getD n none) w a j ha hj2 hLr
  rw [hstep]
  exact contract_qrR_slice qr hq1 hq2 hq3 hrec (t1.cores.getD (n + 1) dummyCore)
    (t1.us.getD (n + 1) none) _ b k hb hk

/-- `left_orthogonalize(mu)` is a good step for `mu + 1 < N`. -/
theorem leftOrth_good (qr : Mat → Mat × Mat)
    (hq1 : ∀ M, (qr M).1.rows = M.rows)
    (hq2 : ∀ M, (qr M).1.cols = (qr M).2.rows)
    (hq3 : ∀ M, (qr M).2.cols = M.cols)
    (hrec : ∀ M p, p < M.rows * M.cols →
      mmulF (qr M).1.cols M.cols (qr M).1.dat (qr M).2.dat p = M.dat p)
    (t : TensorU) (mu : ℕ) (hmu1 : mu + 1 < t.cores.length) (hwf : WfU t) :
    GoodStep t (leftOrthogonalizeU qr mu t) := by
  have g0 := factorOrth_good qr hq1 hq2 hq3 hrec t mu (by omega) hwf
  have g1 := leftOrthCore_good qr hq2 hq3 hrec (factorOrthogonalize qr mu t) mu
    (by rw [g0.1]; exact hmu1) g0.2.2.1
  exact goodStep_trans _ _ _ g0 g1

/-- `right_orthogonalize(mu)` is a good step for `1 ≤ mu < N`. -/
theorem rightOrth_good (qr : Mat → Mat × Mat)
    (hq1 : ∀ M, (qr M).1.rows = M.rows)
    (hq2 : ∀ M, (qr M).1.cols = (qr M).2.rows)
    (hq3 : ∀ M, (qr M).2.cols = M.cols)
    (hrec : ∀ M p, p < M.rows * M.cols →
      mmulF (qr M).1.cols M.cols (qr M).1.dat (qr M).2.dat p = M.dat p)
    (t : TensorU) (mu : ℕ) (hmu0 : 1 ≤ mu) (hmu : mu < t.cores.length) (hwf : WfU t) :
    GoodStep t (rightOrthogonalizeU qr mu t) := by
  have g0 := factorOrth_good qr hq1 hq2 hq3 hrec t mu hmu hwf
  have g1 := rightOrthCore_good qr hq1 hq2 hq3 hrec (factorOrthogonalize qr mu t) mu hmu0
    (by rw [g0.1]; exact hmu) g0.2.2.1
  exact goodStep_trans _ _ _ g0 g1

/-- The loop `for i in range(mu): self.left_orthogonalize(i)` is a good
step whenever `mu < N`. -/
theorem leftLoop_good (qr : Mat → Mat × Mat)
    (hq1 : ∀ M, (qr M).1.rows = M.rows)
    (hq2 : ∀ M, (qr M).1.cols = (qr M).2.rows)
    (hq3 : ∀ M, (qr M).2.cols = M.cols)
    (hrec : ∀ M p, p < M.rows * M.cols →
      mmulF (qr M).1.cols M.cols (qr M).1.dat (qr M).2.dat p = M.dat p)
    (t : TensorU) (hwf : WfU t) :
    ∀ m, m < t.cores.length →
      GoodStep t ((List.range m).foldl (fun acc i => leftOrthogonalizeU qr i acc) t) := by
  intro m
  induction m with
  | zero => intro _; exact ⟨rfl, rfl, hwf, fun ds _ => rfl⟩
  | succ m ih =>
    intro hm
    rw [List.range_succ, List.foldl_append]
    have gprev := ih (by omega)
    have gstep := leftOrth_good qr hq1 hq2 hq3 hrec _ m (by rw [gprev.1]; exact hm) gprev.2.2.1
    exact goodStep_trans _ _ _ gprev gstep

/-- The loop `for i in range(N-1, mu, -1): self.right_orthogonalize(i)` is
a good step. -/
theorem rightLoop_good (qr : Mat → Mat × Mat)
    (hq1 : ∀ M, (qr M).1.rows = M.rows)
    (hq2 : ∀ M, (qr M).1.cols = (qr M).2.rows)
    (hq3 : ∀ M, (qr M).2.cols = M.cols)
    (hrec : ∀ M p, p < M.rows * M.cols →
      mmulF (qr M).1.cols M.cols (qr M).1.dat (qr M).2.dat p = M.dat p)
    (n mu : ℕ) (t1 : TensorU) (hlen1 : t1.cores.length = n) (hwf1 : WfU t1) :
    ∀ m, m ≤ n - 1 - mu →
      GoodStep t1 (((List.range m).map (fun j => n - 1 - j)).foldl
        (fun acc i => rightOrthogonalizeU qr i acc) t1) := by
  intro m
  induction m with
  | zero => intro _; exact ⟨rfl, rfl, hwf1, fun ds _ => rfl⟩
  | succ m ih =>
    intro hm
    rw [List.range_succ, List.map_append, List.foldl_append]
    have gprev := ih (by omega)
    have gstep := rightOrth_good qr hq1 hq2 hq3 hrec _ (n - 1 - m) (by omega)
      (by rw [gprev.1, hlen1]; omega) gprev.2.2.1
    exact goodStep_trans _ _ _ gprev gstep

/-- `orthogonalize(mu)` is a good step for any valid mode. -/
theorem orthogonalize_good (qr : Mat → Mat × Mat)
    (hq1 : ∀ M, (qr M).1.rows = M.rows)
    (hq2 : ∀ M, (qr M).1.cols = (qr M).2.rows)
    (hq3 : ∀ M, (qr M).2.cols = M.cols)
    (hrec : ∀ M p, p < M.rows * M.cols →
      mmulF (qr M).1.cols M.cols (qr M).1.dat (qr M).2.dat p = M.dat p)
    (t : TensorU) (mu : ℕ) (hmu : mu < t.cores.length) (hwf : WfU t) :
    GoodStep t (orthogonalizeU qr mu t) := by
  have g1 := leftLoop_good qr hq1 hq2 hq3 hrec t hwf mu hmu
  have g2 := rightLoop_good qr hq1 hq2 hq3 hrec t.cores.length mu
    ((List.range mu).foldl (fun acc i => leftOrthogonalizeU qr i acc) t)
    g1.1 g1.2.2.1 (t.cores.length - 1 - mu) (le_refl _)
  exact goodStep_trans _ _ _ g1 g2

/-- **C4.** For every factored network `t` and every valid mode `mu`,
`t.orthogonalize(mu)` leaves the logical shape and the materialized
content `full(t)` unchanged entrywise — hence also its Frobenius norm —
assuming the external QR primitive returns shape-compatible factors whose
product `Q·R` reproduces its input. -/
theorem orthogonalize_preserves_full (qr : Mat → Mat × Mat)
    (hq1 : ∀ M, (qr M).1.rows = M.rows)
    (hq2 : ∀ M, (qr M).1.cols = (qr M).2.rows)
    (hq3 : ∀ M, (qr M).2.cols = M.cols)
    (hrec : ∀ M p, p < M.rows * M.cols →
      mmulF (qr M).1.cols M.cols (qr M).1.dat (qr M).2.dat p = M.dat p)
    (t : TensorU) (mu : ℕ) (hmu : mu < t.cores.length) (hwf : WfU t)
    (hpos : ∀ s ∈ shapeU t, 0 < s) :
    shapeU (orthogonalizeU qr mu t) = shapeU t ∧
    ∀ i, i < (shapeU t).prod →
      (fullU (orthogonalizeU qr mu t)).dat i = (fullU t).dat i := by
  have g := orthogonalize_good qr hq1 hq2 hq3 hrec t mu hmu hwf
  refine ⟨g.2.1, ?_⟩
  intro i hi
  have hwf2 : WfU (orthogonalizeU qr mu t) := g.2.2.1
  have hcw : wfFrom 1 (fullTuckerCores t) := by
    rw [fullTuckerCores_eq]
    exact wfFrom_zipContract _ _ 1 hwf.1 hwf.2.1
  have hcf : foldCols 1 (fullTuckerCores t) = 1 := by
    rw [fullTuckerCores_eq, foldCols_zipContract _ _ 1 hwf.1]
    exact hwf.2.2.1
  have hcw2 : wfFrom 1 (fullTuckerCores (orthogonalizeU qr mu t)) := by
    rw [fullTuckerCores_eq]
    exact wfFrom_zipContract _ _ 1 hwf2.1 hwf2.2.1
  have hcf2 : foldCols 1 (fullTuckerCores (orthogonalizeU qr mu t)) = 1 := by
    rw [fullTuckerCores_eq, foldCols_zipContract _ _ 1 hwf2.1]
    exact hwf2.2.2.1
  have h1 := fullMat_flat_of_entry (fullTuckerCores t) (shapeU t) i
    (fullTucker_map_s t) hpos hcw hcf hi
  have h2 := fullMat_flat_of_entry (fullTuckerCores (orthogonalizeU qr mu t)) (shapeU t) i
    (by rw [fullTucker_map_s, g.2.1]) hpos hcw2 hcf2 hi
  show (fullMat (fullTuckerCores (orthogonalizeU qr mu t))).dat i
    = (fullMat (fullTuckerCores t)).dat i
  rw [h1, h2]
  exact g.2.2.2 (unflatten (shapeU t) i) (unflatten_lt (shapeU t) i hpos hi)

/-- A trivial exact QR oracle: `Q = I`, `R = M` (orthonormal columns are
not needed for the content-preservation statement, only `Q·R = M`). -/
def qrId : Mat → Mat × Mat := fun M => (⟨M.rows, M.rows, eyeF M.rows⟩, M)

/-- Concrete two-mode network with one Tucker factor, for the C4 witness. -/
def tC4 : TensorU :=
  ⟨[⟨1, 2, 2, fun i => (i : ℚ)⟩, ⟨2, 2, 1, fun i => (i : ℚ) + 1⟩],
   [some ⟨2, 2, fun i => (i : ℚ)⟩, none]⟩

/-- Witness for C4: a concrete orthogonalization pass at `mu = 1` keeps
shape and all four entries. -/
theorem orthogonalize_preserves_full_witness :
    shapeU (orthogonalizeU qrId 1 tC4) = shapeU tC4 ∧
    ∀ i, i < (shapeU tC4).prod →
      (fullU (orthogonalizeU qrId 1 tC4)).dat i = (fullU tC4).dat i :=
  orthogonalize_preserves_full qrId
    (fun _ => rfl) (fun _ => rfl) (fun _ => rfl)
    (fun M p hp => mmul_eyeL M.rows M.cols (eyeF M.rows) M.dat (fun _ _ => rfl) p hp)
    tC4 1 (by decide)
    ⟨rfl, ⟨rfl, rfl, trivial⟩, rfl, by
      intro i hi U hU
      have hi2 : i < 2 := hi
      interval_cases i
      · injection hU with h2
        rw [← h2]
        rfl
      · exact Option.noConfusion hU⟩
    (by decide)

/-! ### C6: the CP→TT collapse of `left_orthogonalize`

Python stores `self.cores` as a heterogeneous list: an entry may be a
two-axis CP factor matrix, a three-axis TT core — or, after the assignment
at tensor.py:601 (`self.cores[mu] = self.cores`), the whole Python list
itself.  The embedding keeps the three possibilities explicit. -/

inductive PyCore where
  | cp (M : Mat) : PyCore
  | tt (c : Core3) : PyCore
  | pylist (cs : List PyCore) : PyCore

/-- `Tensor._cp_to_tt` (tensor.py:579-585): the method body is empty, so
the call changes nothing. -/
def cp_to_tt (cores : List PyCore) (n : ℕ) : List PyCore := cores

/-- The CP-collapse step of `left_orthogonalize` (tensor.py:600-601):
`if self.cores[mu].dim() == 2: self.cores[mu] = self.cores`. -/
def cpCollapseStep (cores : List PyCore) (mu : ℕ) : List PyCore :=
  match cores.getD mu (PyCore.tt dummyCore) with
  | PyCore.cp _ => cores.set mu (PyCore.pylist cores)
  | _ => cores

/-- **C6.** The claimed CP→TT collapse does not happen: `_cp_to_tt` has an
empty body, and the collapse step of `left_orthogonalize` assigns the whole
core *list* to position `mu` (`self.cores[mu] = self.cores`), so when core
`mu` is CP-style the entry at `mu` afterwards is the nested list of all
cores — never a three-axis TT core (the following QR of its left unfolding
cannot even be formed). -/
theorem left_orthogonalize_cp_collapse_bug (cores : List PyCore) (mu : ℕ) (M : Mat)
    (hmu : mu < cores.length)
    (hcp : cores.getD mu (PyCore.tt dummyCore) = PyCore.cp M) :
    cp_to_tt cores mu = cores ∧
    (cpCollapseStep cores mu).getD mu (PyCore.tt dummyCore) = PyCore.pylist cores ∧
    ∀ c : Core3, (cpCollapseStep cores mu).getD mu (PyCore.tt dummyCore) ≠ PyCore.tt c := by
  have hstep : cpCollapseStep cores mu = cores.set mu (PyCore.pylist cores) := by
    unfold cpCollapseStep
    rw [hcp]
  refine ⟨rfl, ?_, ?_⟩
  · rw [hstep]
    exact getD_set_eq cores mu _ _ hmu
  · intro c hcon
    rw [hstep, getD_set_eq cores mu _ _ hmu] at hcon
    exact PyCore.noConfusion hcon

/-- Concrete CP-style first core for the C6 witness. -/
def coresC6 : List PyCore :=
  [PyCore.cp ⟨2, 2, fun i => (i : ℚ)⟩, PyCore.tt ⟨2, 2, 1, fun i => (i : ℚ)⟩]

/-- Witness for C6 at a concrete two-core network whose first core is
CP-style. -/
theorem left_orthogonalize_cp_collapse_bug_witness :
    cp_to_tt coresC6 0 = coresC6 ∧
    (cpCollapseStep coresC6 0).getD 0 (PyCore.tt dummyCore) = PyCore.pylist coresC6 ∧
    ∀ c : Core3, (cpCollapseStep coresC6 0).getD 0 (PyCore.tt dummyCore) ≠ PyCore.tt c :=
  left_orthogonalize_cp_collapse_bug coresC6 0 ⟨2, 2, fun i => (i : ℚ)⟩
    (by simp [coresC6]) rfl

/-! ### C7: the fancy-index contiguity check of `__getitem__` -/

/-- The accessor kinds `__getitem__` classifies a processed key entry into
(tensor.py:372-382). -/
inductive KeyMode where
  | index : KeyMode
  | noneK : KeyMode
  | intK : KeyMode
  | sliceK : KeyMode

/-- The `index_done` flag logic of the `__getitem__` mode loop
(tensor.py:332, 372-410): initialized `False` before the loop, tested on
every index-array entry (tensor.py:390), and written by no statement of
the loop body.  Returns `true` exactly when the contiguity `IndexError`
of tensor.py:391 is raised. -/
def indexLoop : List KeyMode → Bool → Bool
  | [], _ => false
  | m :: ms, index_done =>
    match m with
    | KeyMode.index => if index_done then true else indexLoop ms index_done
    | _ => indexLoop ms index_done

/-- **C7.** The contiguity rejection can never fire: `index_done` is
initialized `False` and never set, so `__getitem__` raises no
`IndexError` for fancy-index modes separated by a non-fancy entry — in
particular not for the key pattern `[array, slice, array]`, which the
spec says is rejected. -/
theorem getitem_noncontiguous_never_rejected :
    (∀ ms : List KeyMode, indexLoop ms false = false) ∧
    indexLoop [KeyMode.index, KeyMode.sliceK, KeyMode.index] false = false := by
  have h : ∀ ms : List KeyMode, indexLoop ms false = false := by
    intro ms
    induction ms with
    | nil => rfl
    | cons m ms ih => cases m <;> exact ih
  exact ⟨h, h _⟩

/-! ### C8: indexing with a mask network

The mask branch of `__getitem__` (tensor.py:310-324) for a one-mode mask
with unit boundary ranks, against a mode with the default index labels
`self.idxs[n] = arange(shape[n])` (tensor.py:62). -/

/-- `torch.round`: round half to even. -/
def roundEven (q : ℚ) : ℤ :=
  if q - ⌊q⌋ < 1 / 2 then ⌊q⌋
  else if 1 / 2 < q - ⌊q⌋ then ⌊q⌋ + 1
  else if ⌊q⌋ % 2 = 0 then ⌊q⌋ else ⌊q⌋ + 1

/-- Modelled from the spec: `tn.sum` (not under `src/`) totals all entries
of the network; for a one-core chain with unit boundary ranks it is the sum
of the core's slice entries. -/
def maskSum (c : Core3) : ℚ := ((List.range c.s).map (fun j => c.dat j)).sum

/-- `tn.accepted_inputs` (automata.py:64-93) specialized to a single-mode
unit-rank mask: `per_point = matmul(left, fiber).round()` is the rounded
entry list, and row 0 of `Xs` holds the first productive position (or
stays at its zero initialization when none is productive). -/
def firstAccepted (c : Core3) : ℕ :=
  match (List.range c.s).find? (fun j => decide (0 < roundEven (c.dat j))) with
  | some j => j
  | none => 0

/-- `idx = self.idxs[n].long(); idx[idx > 1] = 1` (tensor.py:316-317) with
the default labels `arange(sh)`. -/
def clampIdx (sh : ℕ) : List ℕ := (List.range sh).map (fun i => min i 1)

/-- `np.where(idx == s[n])[0]` (tensor.py:318): the positions of `l`
holding the value `v`. -/
def whereEq (l : List ℕ) (v : ℕ) : List ℕ :=
  (List.range l.length).filter (fun i => decide (l.getD i 0 = v))

/-- A resolved per-mode selector (tensor.py:319-323): a plain integer when
one position matches, else the slice `idx[0] : idx[-1]+1`. -/
inductive Sel where
  | sInt (i : ℕ) : Sel
  | sSlice (lo hi : ℕ) : Sel

/-- The mask branch of `__getitem__` (tensor.py:310-324) for one mode:
guard on `torch.abs(tn.sum(key)-1) > 1e-8`, then resolve the accepted
string against the clamped index labels; reading `idx[0]` of an empty
`np.where` result is an `IndexError`. -/
def maskBranch (sh : ℕ) (c : Core3) : Except String Sel :=
  if 1 / 10 ^ 8 < |maskSum c - 1| then
    Except.error "ValueError: the mask should have exactly 1 accepting string"
  else
    match whereEq (clampIdx sh) (firstAccepted c) with
    | [] => Except.error "IndexError: empty np.where result"
    | i :: rest =>
      Except.ok (if rest = [] then Sel.sInt i else Sel.sSlice i ((i :: rest).getLastD 0 + 1))

/-- **C8 (amended).** The mask branch fails iff the total-sum guard
trips **or** the accepted position never occurs among the clamped index
labels (`idx[idx > 1] = 1` keeps only the values 0 and 1, so any accepted
position `≥ 2` of a mode with default labels makes `np.where` empty and
the branch crash) — the spec's claimed equivalence keeps only the first
disjunct. -/
theorem mask_key_error_condition (sh : ℕ) (c : Core3) :
    (∃ e, maskBranch sh c = Except.error e) ↔
      (1 / 10 ^ 8 < |maskSum c - 1| ∨ whereEq (clampIdx sh) (firstAccepted c) = []) := by
  unfold maskBranch
  by_cases hg : 1 / 10 ^ 8 < |maskSum c - 1|
  · rw [if_pos hg]
    exact ⟨fun _ => Or.inl hg, fun _ => ⟨_, rfl⟩⟩
  · rw [if_neg hg]
    cases hidx : whereEq (clampIdx sh) (firstAccepted c) with
    | nil => exact ⟨fun _ => Or.inr rfl, fun _ => ⟨_, rfl⟩⟩
    | cons i rest =>
      constructor
      · intro he
        obtain ⟨e, he⟩ := he
        exact Except.noConfusion he
      · intro h
        cases h with
        | inl h => exact absurd h hg
        | inr h => exact List.noConfusion h

/-- One-hot mask at position 2 of a three-point mode, for the C8
counterexample. -/
def maskC8 : Core3 := ⟨1, 3, 1, fun i => if i = 2 then 1 else 0⟩

/-- Counterexample to C8 as stated: this mask sums to exactly 1 (well
within the 1e-8 tolerance), yet the mask branch still fails — with an
`IndexError` from the empty `np.where`, not the tolerance `ValueError`. -/
theorem mask_within_tolerance_still_fails :
    |maskSum maskC8 - 1| ≤ 1 / 10 ^ 8 ∧
    maskBranch 3 maskC8 = Except.error "IndexError: empty np.where result" := by
  have hd0 : maskC8.dat 0 = 0 := rfl
  have hd1 : maskC8.dat 1 = 0 := rfl
  have hd2 : maskC8.dat 2 = 1 := rfl
  have hr0 : roundEven 0 = 0 := by norm_num [roundEven]
  have hr1 : roundEven 1 = 1 := by norm_num [roundEven]
  have hs : maskSum maskC8 = 1 := by
    show ((List.range 3).map (fun j => maskC8.dat j)).sum = 1
    norm_num [List.range_succ, maskC8]
  have hguard : ¬ (1 / 10 ^ 8 < |maskSum maskC8 - 1|) := by
    rw [hs]
    norm_num
  have hfa : firstAccepted maskC8 = 2 := by
    unfold firstAccepted
    rw [show List.range maskC8.s = [0, 1, 2] from rfl]
    simp only [List.find?]
    norm_num [hd0, hd1, hd2, hr0, hr1]
  have hw : whereEq (clampIdx 3) (firstAccepted maskC8) = [] := by
    rw [hfa]
    rfl
  constructor
  · rw [hs]
    norm_num
  · unfold maskBranch
    rw [if_neg hguard, hw]

end TnTorch
